import Mathlib

/-!
# roaring64: a sharded set of 64-bit integers

Shallow embedding of the `BTreemap` of `btreemap.go` (with `interface.go`).

* A 64-bit value is split into its high and low 32 bits (`splitHiLo`); the
  high half selects a shard, the low half is stored in that shard's 32-bit
  container.
* The 32-bit container is `roaring.Bitmap` of the external roaring library.
  It is modelled by its contents: the ascending list of its values.
* The shard index is the `btree.BTree` of the external btree library, whose
  items are ordered by `keyedBitmap.Less`, i.e. by `HighBits`.  It is modelled
  by the list of its items in ascending order.
* Machine integers are natural numbers; `uint64` accumulators are reduced
  modulo `2 ^ 64` and `uint32` conversions modulo `2 ^ 32`.
* Methods with a pointer receiver return the new state of the receiver.
-/

namespace Roaring64

/-! ## The 32-bit container `roaring.Bitmap` -/

namespace roaring

/-- Contents of a 32-bit container: its values in ascending order, each once. -/
structure Bitmap where
  vals : List Nat
deriving DecidableEq, Repr

namespace Bitmap

/-- The empty container, `roaring.New()`. -/
def New : Bitmap := ⟨[]⟩

/-- Insertion of one value at its place in an ascending list. -/
def insertVal (x : Nat) : List Nat → List Nat
  | [] => [x]
  | y :: ys => if x < y then x :: y :: ys else if x = y then y :: ys else y :: insertVal x ys

/-- Membership test `Contains(x)`. -/
def Contains (bm : Bitmap) (x : Nat) : Bool := decide (x ∈ bm.vals)

/-- In-place `Add(x)`. -/
def Add (bm : Bitmap) (x : Nat) : Bitmap := ⟨insertVal x bm.vals⟩

/-- In-place `CheckedAdd(x)`: the new container and whether `x` was new. -/
def CheckedAdd (bm : Bitmap) (x : Nat) : Bitmap × Bool := (bm.Add x, !bm.Contains x)

/-- Constructor `roaring.BitmapOf(xs...)`. -/
def BitmapOf (xs : List Nat) : Bitmap := xs.foldl Add New

/-- In-place `Remove(x)`. -/
def Remove (bm : Bitmap) (x : Nat) : Bitmap := ⟨bm.vals.filter (fun y => y != x)⟩

/-- In-place `CheckedRemove(x)`: the new container and whether `x` was there. -/
def CheckedRemove (bm : Bitmap) (x : Nat) : Bitmap × Bool := (bm.Remove x, bm.Contains x)

/-- Emptiness test `IsEmpty()`. -/
def IsEmpty (bm : Bitmap) : Bool := bm.vals.isEmpty

/-- In-place `Clear()`. -/
def Clear (_bm : Bitmap) : Bitmap := ⟨[]⟩

/-- Number of values, `GetCardinality()`, a `uint64` (at most `2 ^ 32`). -/
def GetCardinality (bm : Bitmap) : Nat := bm.vals.length

/-- Deep copy `Clone()`. -/
def Clone (bm : Bitmap) : Bitmap := ⟨bm.vals⟩

/-- In-place intersection `And(other)`. -/
def And (bm other : Bitmap) : Bitmap := ⟨bm.vals.filter (fun y => other.Contains y)⟩

/-- In-place difference `AndNot(other)`. -/
def AndNot (bm other : Bitmap) : Bitmap := ⟨bm.vals.filter (fun y => !other.Contains y)⟩

/-- In-place union `Or(other)`. -/
def Or (bm other : Bitmap) : Bitmap := other.vals.foldl Add bm

/-- In-place symmetric difference `Xor(other)`. -/
def Xor (bm other : Bitmap) : Bitmap := (bm.AndNot other).Or (other.AndNot bm)

/-- Number of values that are at most `x`, `Rank(x)`. -/
def Rank (bm : Bitmap) (x : Nat) : Nat := (bm.vals.filter (fun y => decide (y ≤ x))).length

/-- The value at position `x` in ascending order, `Select(x)`; `none` is the
error the library returns when `x` is not below the cardinality. -/
def Select (bm : Bitmap) (x : Nat) : Option Nat := bm.vals[x]?

/-- The values in the order in which `Iterate` passes them to its callback. -/
def Iterate (bm : Bitmap) : List Nat := bm.vals

/-- The smallest value, `Minimum()`; `none` stands for the run-time panic of the
library on a container without values. -/
def Minimum (bm : Bitmap) : Option Nat := bm.vals.head?

/-- The largest value, `Maximum()`; `none` stands for the run-time panic of the
library on a container without values. -/
def Maximum (bm : Bitmap) : Option Nat := bm.vals.getLast?

/-- Comparison `Equals(other)` with another container: the same values. -/
def Equals (bm other : Bitmap) : Bool := decide (bm.vals = other.vals)

/-- Size of the intersection, `AndCardinality(other)`, a `uint64`. -/
def AndCardinality (bm other : Bitmap) : Nat := (bm.And other).GetCardinality

/-- Size of the union, `OrCardinality(other)`, a `uint64`. -/
def OrCardinality (bm other : Bitmap) : Nat := (bm.Or other).GetCardinality

/-- Representation invariant of a container: strictly ascending 32-bit values. -/
def WF (bm : Bitmap) : Prop := bm.vals.Pairwise (· < ·) ∧ ∀ x ∈ bm.vals, x < 2 ^ 32

end Bitmap

end roaring

/-! ## `interface.go` -/

/-- Function `splitHiLo`: `uint32(val >> 32), uint32(val)`. -/
def splitHiLo (val : Nat) : Nat × Nat := ((val >>> 32) % 2 ^ 32, val % 2 ^ 32)

/-- Function `joinHiLo`: `(uint64(hi) << 32) | uint64(lo)`. -/
def joinHiLo (hi lo : Nat) : Nat := ((hi <<< 32) % 2 ^ 64) ||| lo

/-- An item of the shard index: a container and the high 32 bits it stands for. -/
structure keyedBitmap where
  Bitmap : roaring.Bitmap
  HighBits : Nat
deriving DecidableEq, Repr

/-- Method `keyedBitmap.Less`, the order of the shard index. -/
def keyedBitmap.Less (kb than : keyedBitmap) : Bool := decide (kb.HighBits < than.HighBits)

/-- Method `keyedBitmap.ClonePtr`. -/
def keyedBitmap.ClonePtr (kb : keyedBitmap) : keyedBitmap :=
  { HighBits := kb.HighBits, Bitmap := kb.Bitmap.Clone }

/-! ## The shard index `btree.BTree` -/

namespace btree

/-- The items of the tree in ascending order of `HighBits`. -/
abbrev BTree := List keyedBitmap

/-- Lookup `Get(key)`: the item that is neither less nor greater than the key. -/
def Get : BTree → Nat → Option keyedBitmap
  | [], _ => none
  | x :: rest, key =>
    if x.HighBits < key then Get rest key
    else if key < x.HighBits then none
    else some x

/-- Insertion `ReplaceOrInsert(item)`. -/
def ReplaceOrInsert : BTree → keyedBitmap → BTree
  | [], item => [item]
  | x :: rest, item =>
    if item.HighBits < x.HighBits then item :: x :: rest
    else if x.HighBits < item.HighBits then x :: ReplaceOrInsert rest item
    else item :: rest

/-- Removal `Delete(key)` of the item equal to the key, if there is one. -/
def Delete : BTree → Nat → BTree
  | [], _ => []
  | x :: rest, key =>
    if x.HighBits < key then x :: Delete rest key
    else if key < x.HighBits then x :: rest
    else rest

/-- First item `Min()`, `none` for `nil`. -/
def Min (t : BTree) : Option keyedBitmap := t.head?

/-- Last item `Max()`, `none` for `nil`. -/
def Max (t : BTree) : Option keyedBitmap := t.getLast?

/-- Item count `Len()`. -/
def Len (t : BTree) : Nat := t.length

/-- Traversal `Ascend(iterator)`: the callback sees the items in ascending
order, threads its captured variables `σ`, and stops the walk by returning
`false`. -/
def Ascend {σ : Type} (callback : σ → keyedBitmap → σ × Bool) : BTree → σ → σ
  | [], st => st
  | x :: rest, st =>
    match callback st x with
    | (st1, true) => Ascend callback rest st1
    | (st1, false) => st1

/-- Traversal `Ascend(iterator)` by a callback that also writes through the
pointer it is handed: besides its captured variables the callback returns the
container as it leaves it, and the walk returns the items as they are left. -/
def AscendMut {σ : Type} (callback : σ → keyedBitmap → σ × roaring.Bitmap × Bool) :
    BTree → σ → σ × BTree
  | [], st => (st, [])
  | x :: rest, st =>
    match callback st x with
    | (st1, b, true) =>
      ((AscendMut callback rest st1).1, { x with Bitmap := b } :: (AscendMut callback rest st1).2)
    | (st1, b, false) => (st1, { x with Bitmap := b } :: rest)

/-- A write through the pointer that `Get(key)` returned: the container of the
item with that key is replaced by `f` of it. -/
def mutate (t : BTree) (key : Nat) (f : roaring.Bitmap → roaring.Bitmap) : BTree :=
  t.map (fun x => if x.HighBits = key then { x with Bitmap := f x.Bitmap } else x)

/-- The 64-bit values held by the items of an index, in the order of the index. -/
def values (t : BTree) : List Nat :=
  t.flatMap (fun x => x.Bitmap.vals.map (fun lo => joinHiLo x.HighBits lo))

/-- Invariant of the index: strictly ascending high keys. -/
def Ordered (t : BTree) : Prop := t.Pairwise (fun x y => x.HighBits < y.HighBits)

end btree

/-! ## `btreemap.go` -/

/-- The two implementations of the `serializer` interface. -/
inductive serializer where
  | cppSerializer
  | jvmSerializer
deriving DecidableEq, Repr

/-- The sharded set: an index of shards and the configured serializer. -/
structure BTreemap where
  tree : btree.BTree
  serializer : Option serializer
deriving DecidableEq, Repr

/-- A value of type `interface{}` as `Equals` tells them apart. -/
inductive Any where
  | treemap (tm : BTreemap)
  | other

namespace BTreemap

/-- Method `WithCppSerializer`. -/
def WithCppSerializer (tm : BTreemap) : BTreemap :=
  { tm with serializer := some serializer.cppSerializer }

/-- Method `WithJvmSerializer`. -/
def WithJvmSerializer (tm : BTreemap) : BTreemap :=
  { tm with serializer := some serializer.jvmSerializer }

/-- Method `get`. -/
def get (tm : BTreemap) (key : Nat) : Option keyedBitmap := btree.Get tm.tree key

/-- Method `forEachBitmap`. -/
def forEachBitmap {σ : Type} (tm : BTreemap) (callback : σ → keyedBitmap → σ × Bool)
    (st : σ) : σ :=
  btree.Ascend callback tm.tree st

/-- Method `Add`. -/
def Add (tm : BTreemap) (value : Nat) : BTreemap :=
  let hi := (splitHiLo value).1
  let lo := (splitHiLo value).2
  match tm.get hi with
  | some _ => { tm with tree := btree.mutate tm.tree hi (fun bm => bm.Add lo) }
  | none =>
    { tm with tree := btree.ReplaceOrInsert tm.tree
                        { Bitmap := roaring.Bitmap.BitmapOf [lo], HighBits := hi } }

/-- Method `AddMany`. -/
def AddMany (tm : BTreemap) (values : List Nat) : BTreemap := values.foldl Add tm

/-- Function `New`. -/
def New (values : List Nat) : BTreemap :=
  WithCppSerializer (AddMany { tree := [], serializer := none } values)

/-- Method `Contains`. -/
def Contains (tm : BTreemap) (value : Nat) : Bool :=
  match tm.get (splitHiLo value).1 with
  | none => false
  | some bm => bm.Bitmap.Contains (splitHiLo value).2

/-- Method `Remove`. -/
def Remove (tm : BTreemap) (value : Nat) : BTreemap :=
  let hi := (splitHiLo value).1
  let lo := (splitHiLo value).2
  match tm.get hi with
  | none => tm
  | some bm =>
    let tree1 := btree.mutate tm.tree hi (fun b => b.Remove lo)
    if (bm.Bitmap.Remove lo).IsEmpty then { tm with tree := btree.Delete tree1 hi }
    else { tm with tree := tree1 }

/-- Method `GetCardinality`, with its `uint64` accumulator. -/
def GetCardinality (tm : BTreemap) : Nat :=
  tm.forEachBitmap
    (fun card bm =>
      if bm.Bitmap.IsEmpty then (card, true)
      else ((card + bm.Bitmap.GetCardinality) % 2 ^ 64, true))
    0

/-- Method `ToArray`. -/
def ToArray (tm : BTreemap) : List Nat :=
  tm.forEachBitmap
    (fun res bm => (res ++ bm.Bitmap.Iterate.map (fun x => joinHiLo bm.HighBits x), true))
    []

/-- The callback of `And`; its captured variable is `toRemove`. -/
def AndCallback (other : BTreemap) (toRemove : List Nat) (bm : keyedBitmap) :
    List Nat × roaring.Bitmap × Bool :=
  match other.get bm.HighBits with
  | none => (toRemove ++ [bm.HighBits], bm.Bitmap, true)
  | some rbm =>
    if (bm.Bitmap.And rbm.Bitmap).IsEmpty then
      (toRemove ++ [bm.HighBits], bm.Bitmap.And rbm.Bitmap, true)
    else (toRemove, bm.Bitmap.And rbm.Bitmap, true)

/-- Method `And`. -/
def And (tm other : BTreemap) : BTreemap :=
  let r := btree.AscendMut (AndCallback other) tm.tree []
  { tm with tree := r.1.foldl btree.Delete r.2 }

/-- The callback of `Or`: the walk is over `other`, the captured variable is
the index of the receiver. -/
def OrCallback (t : btree.BTree) (bm : keyedBitmap) : btree.BTree × Bool :=
  match btree.Get t bm.HighBits with
  | none => (btree.ReplaceOrInsert t bm.ClonePtr, true)
  | some _ => (btree.mutate t bm.HighBits (fun cur => cur.Or bm.Bitmap), true)

/-- Method `Or`. -/
def Or (tm other : BTreemap) : BTreemap :=
  { tm with tree := other.forEachBitmap OrCallback tm.tree }

/-- The callback of `Xor`: the walk is over `other`, the captured variables are
the index of the receiver and `toRemove`. -/
def XorCallback (st : btree.BTree × List Nat) (bm : keyedBitmap) :
    (btree.BTree × List Nat) × Bool :=
  match btree.Get st.1 bm.HighBits with
  | none => ((btree.ReplaceOrInsert st.1 bm.ClonePtr, st.2), true)
  | some cur =>
    if (cur.Bitmap.Xor bm.Bitmap).IsEmpty then
      ((btree.mutate st.1 bm.HighBits (fun c => c.Xor bm.Bitmap), st.2 ++ [bm.HighBits]), true)
    else ((btree.mutate st.1 bm.HighBits (fun c => c.Xor bm.Bitmap), st.2), true)

/-- Method `Xor`. -/
def Xor (tm other : BTreemap) : BTreemap :=
  let r := other.forEachBitmap XorCallback (tm.tree, [])
  { tm with tree := r.2.foldl btree.Delete r.1 }

/-- The callback of `AndNot`; it captures no variable. -/
def AndNotCallback (other : BTreemap) (_ : Unit) (node : keyedBitmap) :
    Unit × roaring.Bitmap × Bool :=
  match other.get node.HighBits with
  | some obm => ((), node.Bitmap.AndNot obm.Bitmap, true)
  | none => ((), node.Bitmap, true)

/-- Method `AndNot`. -/
def AndNot (tm other : BTreemap) : BTreemap :=
  { tm with tree := (btree.AscendMut (AndNotCallback other) tm.tree ()).2 }

/-- Method `Rank`, with its `uint64` accumulator. -/
def Rank (tm : BTreemap) (value : Nat) : Nat :=
  let hi := (splitHiLo value).1
  let lo := (splitHiLo value).2
  tm.forEachBitmap
    (fun result bm =>
      if bm.HighBits > hi then (result, false)
      else if bm.HighBits < hi then ((result + bm.Bitmap.GetCardinality) % 2 ^ 64, true)
      else ((result + bm.Bitmap.Rank lo) % 2 ^ 64, false))
    0

/-- The variables that the callback of `Select` captures. -/
structure SelectVars where
  value : Nat
  result : Nat
  failed : Bool
deriving DecidableEq, Repr

/-- The walk of `Select`: the captured variables when the walk is over.  The
container is asked for `uint32(value)`. -/
def SelectWalk (tm : BTreemap) (value : Nat) : SelectVars :=
  tm.forEachBitmap
    (fun (st : SelectVars) bm =>
      if st.value ≥ bm.Bitmap.GetCardinality then
        ({ st with value := st.value - bm.Bitmap.GetCardinality }, true)
      else
        match bm.Bitmap.Select (st.value % 2 ^ 32) with
        | none => ({ st with failed := true }, false)
        | some v => ({ st with result := joinHiLo bm.HighBits v }, false))
    { value := value, result := 0, failed := false }

/-- The error of `Select`: the index and the cardinality of its message. -/
structure SelectError where
  index : Nat
  size : Nat
deriving DecidableEq, Repr

/-- Method `Select`. -/
def Select (tm : BTreemap) (value : Nat) : Except SelectError Nat :=
  let sz := tm.GetCardinality
  if sz ≤ value then .error { index := value, size := sz }
  else
    let st := tm.SelectWalk value
    if st.failed then .error { index := st.value, size := sz }
    else .ok st.result

/-- Method `CheckedAdd`: the new state of the receiver and the result. -/
def CheckedAdd (tm : BTreemap) (value : Nat) : BTreemap × Bool :=
  let hi := (splitHiLo value).1
  let lo := (splitHiLo value).2
  match tm.get hi with
  | some bm =>
    ({ tm with tree := btree.mutate tm.tree hi (fun b => (b.CheckedAdd lo).1) },
      (bm.Bitmap.CheckedAdd lo).2)
  | none =>
    ({ tm with tree := btree.ReplaceOrInsert tm.tree
                        { Bitmap := roaring.Bitmap.BitmapOf [lo], HighBits := hi } }, true)

/-- Method `CheckedRemove`: the new state of the receiver and the result;
`deleted != nil` holds when `Delete` found an item for the key. -/
def CheckedRemove (tm : BTreemap) (value : Nat) : BTreemap × Bool :=
  let hi := (splitHiLo value).1
  let lo := (splitHiLo value).2
  match tm.get hi with
  | none => (tm, false)
  | some bm =>
    let removed := (bm.Bitmap.CheckedRemove lo).2
    let tree1 := btree.mutate tm.tree hi (fun b => (b.CheckedRemove lo).1)
    if (bm.Bitmap.CheckedRemove lo).1.IsEmpty then
      ({ tm with tree := btree.Delete tree1 hi }, (btree.Get tree1 hi).isSome || removed)
    else ({ tm with tree := tree1 }, removed)

/-- The callback of `IsEmpty`; its captured variable is `isEmpty`. -/
def IsEmptyCallback (isEmpty : Bool) (bm : keyedBitmap) : Bool × Bool :=
  if bm.Bitmap.IsEmpty then (isEmpty, true) else (false, false)

/-- Method `IsEmpty`. -/
def IsEmpty (tm : BTreemap) : Bool := tm.forEachBitmap IsEmptyCallback true

/-- The callback of `Clear`; it captures no variable. -/
def ClearCallback (_ : Unit) (bm : keyedBitmap) : Unit × roaring.Bitmap × Bool :=
  ((), bm.Bitmap.Clear, true)

/-- Method `Clear`. -/
def Clear (tm : BTreemap) : BTreemap :=
  { tm with tree := (btree.AscendMut ClearCallback tm.tree ()).2 }

/-- Method `Minimum`; `none` stands for the panic of the container's
`Minimum()`. -/
def Minimum (tm : BTreemap) : Option Nat :=
  match btree.Min tm.tree with
  | none => some 0
  | some bm => bm.Bitmap.Minimum.map (fun lo => joinHiLo bm.HighBits lo)

/-- Method `Maximum`; `none` stands for the panic of the container's
`Maximum()`. -/
def Maximum (tm : BTreemap) : Option Nat :=
  match btree.Max tm.tree with
  | none => some 0
  | some bm => bm.Bitmap.Maximum.map (fun lo => joinHiLo bm.HighBits lo)

/-- The callback of `AndCardinality`: the walk is over `l`, the probes go to
`r`, the captured variable is `total`. -/
def AndCardinalityCallback (r : BTreemap) (total : Nat) (bm : keyedBitmap) : Nat × Bool :=
  match r.get bm.HighBits with
  | none => (total, true)
  | some rbm => ((total + rbm.Bitmap.AndCardinality bm.Bitmap) % 2 ^ 64, true)

/-- Method `AndCardinality`. -/
def AndCardinality (tm other : BTreemap) : Nat :=
  if btree.Len tm.tree < btree.Len other.tree then
    other.forEachBitmap (AndCardinalityCallback tm) 0
  else tm.forEachBitmap (AndCardinalityCallback other) 0

/-- The first callback of `OrCardinality`: the walk is over `other`, the
captured variables are `total` and the keys set in `seenKey`. -/
def OrCardinalityCallback (tm : BTreemap) (st : Nat × List Nat) (cbm : keyedBitmap) :
    (Nat × List Nat) × Bool :=
  match tm.get cbm.HighBits with
  | none => (((st.1 + cbm.Bitmap.GetCardinality) % 2 ^ 64, cbm.HighBits :: st.2), true)
  | some cur =>
    (((st.1 + cur.Bitmap.OrCardinality cbm.Bitmap) % 2 ^ 64, cbm.HighBits :: st.2), true)

/-- The second callback of `OrCardinality`: the walk is over the receiver. -/
def OrCardinalityRest (seenKey : List Nat) (total : Nat) (cbm : keyedBitmap) : Nat × Bool :=
  if cbm.HighBits ∈ seenKey then (total, true)
  else ((total + cbm.Bitmap.GetCardinality) % 2 ^ 64, true)

/-- Method `OrCardinality`. -/
def OrCardinality (tm other : BTreemap) : Nat :=
  let st := other.forEachBitmap (OrCardinalityCallback tm) (0, [])
  tm.forEachBitmap (OrCardinalityRest st.2) st.1

/-- The callback of `Clone`; its captured variable is the index of `cloned`. -/
def CloneCallback (t : btree.BTree) (bm : keyedBitmap) : btree.BTree × Bool :=
  (btree.ReplaceOrInsert t bm.ClonePtr, true)

/-- Method `Clone`. -/
def Clone (tm : BTreemap) : BTreemap :=
  { New [] with tree := tm.forEachBitmap CloneCallback (New []).tree }

/-- The callback of `Equals`; its captured variable is `equals`. -/
def EqualsCallback (other : BTreemap) (equals : Bool) (node : keyedBitmap) : Bool × Bool :=
  match other.get node.HighBits with
  | none => (false, false)
  | some obm => if !node.Bitmap.Equals obm.Bitmap then (false, false) else (equals, true)

/-- Method `Equals`. -/
def Equals (tm : BTreemap) (o : Any) : Bool :=
  match o with
  | Any.other => false
  | Any.treemap other =>
    if btree.Len other.tree ≠ btree.Len tm.tree then false
    else tm.forEachBitmap (EqualsCallback other) true

/-- Representation invariant: the index is ordered by 32-bit high keys and
every container is well formed. -/
def WF (tm : BTreemap) : Prop :=
  btree.Ordered tm.tree ∧ ∀ x ∈ tm.tree, x.HighBits < 2 ^ 32 ∧ x.Bitmap.WF

end BTreemap

/-- No shard of the index has a container without values. -/
def BTreemap.NoEmptyShard (tm : BTreemap) : Prop := ∀ x ∈ tm.tree, x.Bitmap.IsEmpty = false

/-- No two shards of the index have the same high key. -/
def BTreemap.UniqueKeys (tm : BTreemap) : Prop := (tm.tree.map (fun x => x.HighBits)).Nodup

/-! ## Ranges and statistics of `btreemap.go` -/

/-- Constant `math.MaxUint32`. -/
def math.MaxUint32 : Nat := 4294967295

/-- In-place `AddRange(rangeStart, rangeEnd)` of a container: the values of
`[rangeStart, rangeEnd)` are added.  The library panics when `rangeEnd - 1`
exceeds `MaxUint32`; every call made here has `rangeEnd ≤ MaxUint32`. -/
def roaring.Bitmap.AddRange (bm : roaring.Bitmap) (rangeStart rangeEnd : Nat) : roaring.Bitmap :=
  (List.range' rangeStart (rangeEnd - rangeStart)).foldl roaring.Bitmap.Add bm

/-- In-place `RemoveRange(rangeStart, rangeEnd)` of a container: the values of
`[rangeStart, rangeEnd)` are removed. -/
def roaring.Bitmap.RemoveRange (bm : roaring.Bitmap) (rangeStart rangeEnd : Nat) :
    roaring.Bitmap :=
  ⟨bm.vals.filter (fun y => !(decide (rangeStart ≤ y) && decide (y < rangeEnd)))⟩

/-- In-place `Flip(rangeStart, rangeEnd)` of a container: of the values of
`[rangeStart, rangeEnd)`, those it holds are removed and the others are added.
The library panics when `rangeEnd` exceeds `MaxUint32 + 1`; every call made
here has `rangeEnd ≤ MaxUint32`. -/
def roaring.Bitmap.Flip (bm : roaring.Bitmap) (rangeStart rangeEnd : Nat) : roaring.Bitmap :=
  if rangeStart ≥ rangeEnd then bm
  else
    ⟨bm.vals.filter (fun y => decide (y < rangeStart))
      ++ (List.range' rangeStart (rangeEnd - rangeStart)).filter (fun y => !bm.Contains y)
      ++ bm.vals.filter (fun y => decide (rangeEnd ≤ y))⟩

/-- The record `roaring.Statistics`; every field is a `uint64`. -/
structure roaring.Statistics where
  Cardinality : Nat
  Containers : Nat
  ArrayContainers : Nat
  ArrayContainerBytes : Nat
  ArrayContainerValues : Nat
  BitmapContainers : Nat
  BitmapContainerBytes : Nat
  BitmapContainerValues : Nat
  RunContainers : Nat
  RunContainerBytes : Nat
  RunContainerValues : Nat
deriving DecidableEq, Repr

/-- The statistics that the library reports for a container that keeps its
values in array containers, as every container of at most 4096 values per
chunk of `2 ^ 16` does: one array container per chunk, two bytes per value. -/
def roaring.Bitmap.arrayStats (bm : roaring.Bitmap) : roaring.Statistics :=
  { Cardinality := bm.vals.length
    Containers := (bm.vals.map (fun x => x / 2 ^ 16)).dedup.length
    ArrayContainers := (bm.vals.map (fun x => x / 2 ^ 16)).dedup.length
    ArrayContainerBytes := 2 * bm.vals.length
    ArrayContainerValues := bm.vals.length
    BitmapContainers := 0
    BitmapContainerBytes := 0
    BitmapContainerValues := 0
    RunContainers := 0
    RunContainerBytes := 0
    RunContainerValues := 0 }

namespace BTreemap

/-- Method `getOrInsert`: the receiver afterwards; the pointer it returns is
the item of the index with key `highBits`. -/
def getOrInsert (tm : BTreemap) (highBits : Nat) : BTreemap :=
  match tm.get highBits with
  | some _ => tm
  | none =>
    { tm with tree := btree.ReplaceOrInsert tm.tree
                        { Bitmap := roaring.Bitmap.New, HighBits := highBits } }

/-- A write through the pointer that `getOrInsert(highBits)` returns. -/
def atKey (tm : BTreemap) (highBits : Nat) (f : roaring.Bitmap → roaring.Bitmap) : BTreemap :=
  { tm.getOrInsert highBits with
    tree := btree.mutate (tm.getOrInsert highBits).tree highBits f }

/-- The high keys `cur` that the loop `for cur := hiStart+1; cur < loEnd-1; cur++`
of the range operations visits, in `uint32` arithmetic. -/
def rangeLoopKeys (hiStart loEnd : Nat) : List Nat :=
  List.range' ((hiStart + 1) % 2 ^ 32)
    ((loEnd + 2 ^ 32 - 1) % 2 ^ 32 - (hiStart + 1) % 2 ^ 32)

/-- Method `Flip`. -/
def Flip (tm : BTreemap) (rangeStart rangeEnd : Nat) : BTreemap :=
  let hiStart := (splitHiLo rangeStart).1
  let loStart := (splitHiLo rangeStart).2
  let hiEnd := (splitHiLo rangeEnd).1
  let loEnd := (splitHiLo rangeEnd).2
  if hiStart = hiEnd then tm.atKey hiStart (fun bm => bm.Flip loStart loEnd)
  else
    let tm1 := tm.atKey hiStart (fun bm => bm.Flip loStart math.MaxUint32)
    let tm2 := (rangeLoopKeys hiStart loEnd).foldl
      (fun t cur => t.atKey cur (fun cbm => cbm.Flip 0 math.MaxUint32)) tm1
    tm2.atKey hiEnd (fun ebm => ebm.Flip 0 loEnd)

/-- Method `AddRange`. -/
def AddRange (tm : BTreemap) (rangeStart rangeEnd : Nat) : BTreemap :=
  let hiStart := (splitHiLo rangeStart).1
  let loStart := (splitHiLo rangeStart).2
  let hiEnd := (splitHiLo rangeEnd).1
  let loEnd := (splitHiLo rangeEnd).2
  if hiStart = hiEnd then tm.atKey hiStart (fun bm => bm.AddRange loStart loEnd)
  else
    let tm1 := tm.atKey hiStart (fun bm => bm.AddRange loStart math.MaxUint32)
    let tm2 := (rangeLoopKeys hiStart loEnd).foldl
      (fun t cur => t.atKey cur (fun cbm => cbm.AddRange 0 math.MaxUint32)) tm1
    tm2.atKey hiEnd (fun ebm => ebm.AddRange 0 loEnd)

/-- Method `RemoveRange`. -/
def RemoveRange (tm : BTreemap) (rangeStart rangeEnd : Nat) : BTreemap :=
  let hiStart := (splitHiLo rangeStart).1
  let loStart := (splitHiLo rangeStart).2
  let hiEnd := (splitHiLo rangeEnd).1
  let loEnd := (splitHiLo rangeEnd).2
  if hiStart = hiEnd then
    let tm1 := tm.atKey hiStart (fun bm => bm.RemoveRange loStart loEnd)
    match tm1.get hiStart with
    | some bm => if bm.Bitmap.IsEmpty then { tm1 with tree := btree.Delete tm1.tree hiStart } else tm1
    | none => tm1
  else
    let tm1 := tm.atKey hiStart (fun bm => bm.RemoveRange loStart math.MaxUint32)
    let tm2 := (rangeLoopKeys hiStart loEnd).foldl
      (fun t cur => t.atKey cur (fun cbm => cbm.RemoveRange 0 math.MaxUint32)) tm1
    tm2.atKey hiEnd (fun ebm => ebm.RemoveRange 0 loEnd)

/-- The callback of `Stats`; its captured variable is `stats`, and `bmStats`
is the method `Stats` of the container library. -/
def StatsCallback (bmStats : roaring.Bitmap → roaring.Statistics) (stats : roaring.Statistics)
    (bm : keyedBitmap) : roaring.Statistics × Bool :=
  let st := bmStats bm.Bitmap
  ({ Cardinality := (stats.Cardinality + st.Cardinality) % 2 ^ 64
     Containers := (stats.Containers + st.Containers) % 2 ^ 64
     ArrayContainers := (stats.ArrayContainers + st.ArrayContainerBytes) % 2 ^ 64
     ArrayContainerBytes := (stats.ArrayContainerBytes + st.ArrayContainerBytes) % 2 ^ 64
     ArrayContainerValues := (stats.ArrayContainerValues + st.ArrayContainerValues) % 2 ^ 64
     BitmapContainers := (stats.BitmapContainers + st.BitmapContainers) % 2 ^ 64
     BitmapContainerBytes := (stats.BitmapContainerBytes + st.BitmapContainerBytes) % 2 ^ 64
     BitmapContainerValues := (stats.BitmapContainerValues + st.BitmapContainerValues) % 2 ^ 64
     RunContainers := (stats.RunContainers + st.RunContainers) % 2 ^ 64
     RunContainerBytes := (stats.RunContainerBytes + st.RunContainerBytes) % 2 ^ 64
     RunContainerValues := (stats.RunContainerValues + st.RunContainerValues) % 2 ^ 64 }, true)

/-- Method `Stats`; the named result `stats` starts as the zero record. -/
def Stats (tm : BTreemap) (bmStats : roaring.Bitmap → roaring.Statistics) : roaring.Statistics :=
  tm.forEachBitmap (StatsCallback bmStats) ⟨0, 0, 0, 0, 0, 0, 0, 0, 0, 0, 0⟩

end BTreemap

/-- The states reached from `New()` by the mutating calls of `btreemap.go`.
The flag is `true` when `Clear`, `AndNot`, `Flip`, `AddRange` or `RemoveRange`
was called on the way, on the receiver or on an argument, and no later `And`
went over the index. -/
inductive Reachable : Bool → BTreemap → Prop
  | New (values : List Nat) : Reachable false (BTreemap.New values)
  | Add {c : Bool} {tm : BTreemap} (h : Reachable c tm) (value : Nat) :
      Reachable c (tm.Add value)
  | CheckedAdd {c : Bool} {tm : BTreemap} (h : Reachable c tm) (value : Nat) :
      Reachable c (tm.CheckedAdd value).1
  | AddMany {c : Bool} {tm : BTreemap} (h : Reachable c tm) (values : List Nat) :
      Reachable c (tm.AddMany values)
  | Remove {c : Bool} {tm : BTreemap} (h : Reachable c tm) (value : Nat) :
      Reachable c (tm.Remove value)
  | CheckedRemove {c : Bool} {tm : BTreemap} (h : Reachable c tm) (value : Nat) :
      Reachable c (tm.CheckedRemove value).1
  | And {c d : Bool} {tm other : BTreemap} (h : Reachable c tm) (ho : Reachable d other) :
      Reachable false (tm.And other)
  | Or {c d : Bool} {tm other : BTreemap} (h : Reachable c tm) (ho : Reachable d other) :
      Reachable (c || d) (tm.Or other)
  | Xor {c d : Bool} {tm other : BTreemap} (h : Reachable c tm) (ho : Reachable d other) :
      Reachable (c || d) (tm.Xor other)
  | Clear {c : Bool} {tm : BTreemap} (h : Reachable c tm) : Reachable true tm.Clear
  | AndNot {c d : Bool} {tm other : BTreemap} (h : Reachable c tm) (ho : Reachable d other) :
      Reachable true (tm.AndNot other)
  | Flip {c : Bool} {tm : BTreemap} (h : Reachable c tm) (rangeStart rangeEnd : Nat) :
      Reachable true (tm.Flip rangeStart rangeEnd)
  | AddRange {c : Bool} {tm : BTreemap} (h : Reachable c tm) (rangeStart rangeEnd : Nat) :
      Reachable true (tm.AddRange rangeStart rangeEnd)
  | RemoveRange {c : Bool} {tm : BTreemap} (h : Reachable c tm) (rangeStart rangeEnd : Nat) :
      Reachable true (tm.RemoveRange rangeStart rangeEnd)

/-! ## `iterator.go` -/

namespace btree

/-- A `btree.Cursor`: the items of the tree it walks, in ascending order, and
the index of the item it stands on (`none`: on no item). -/
structure Cursor where
  items : BTree
  pos : Option Nat
deriving DecidableEq, Repr

/-- Method `Cursor()` of the tree: a cursor that stands on no item yet. -/
def BTree.Cursor (t : BTree) : Cursor := ⟨t, none⟩

namespace Cursor

/-- Method `First()`: move to the first item and return it, `none` for `nil`. -/
def First (c : Cursor) : Cursor × Option keyedBitmap :=
  match c.items[0]? with
  | some x => ({ c with pos := some 0 }, some x)
  | none => ({ c with pos := none }, none)

/-- Method `Last()`: move to the last item and return it. -/
def Last (c : Cursor) : Cursor × Option keyedBitmap :=
  match c.items[c.items.length - 1]? with
  | some x => ({ c with pos := some (c.items.length - 1) }, some x)
  | none => ({ c with pos := none }, none)

/-- Method `Next()`: move to the next item and return it, `nil` after the last. -/
def Next (c : Cursor) : Cursor × Option keyedBitmap :=
  match c.pos with
  | none => (c, none)
  | some i =>
    match c.items[i + 1]? with
    | some x => ({ c with pos := some (i + 1) }, some x)
    | none => ({ c with pos := none }, none)

/-- Method `Prev()`: move to the previous item and return it, `nil` before the
first. -/
def Prev (c : Cursor) : Cursor × Option keyedBitmap :=
  match c.pos with
  | none => (c, none)
  | some 0 => ({ c with pos := none }, none)
  | some (i + 1) =>
    match c.items[i]? with
    | some x => ({ c with pos := some i }, some x)
    | none => ({ c with pos := none }, none)

/-- Method `Seek(key)`: move to the item with the key, or else to the next
item after it, and return that item. -/
def Seek (c : Cursor) (key : Nat) : Cursor × Option keyedBitmap :=
  match c.items[(c.items.takeWhile (fun x => decide (x.HighBits < key))).length]? with
  | some x =>
    ({ c with pos := some (c.items.takeWhile (fun x => decide (x.HighBits < key))).length },
      some x)
  | none => ({ c with pos := none }, none)

end Cursor

end btree

namespace roaring

/-- An iterator of a container (`IntPeekable`, `IntIterable` or
`ManyIntIterable`): the values it has yet to produce, in its order. -/
structure intIterator where
  rest : List Nat
deriving DecidableEq, Repr

/-- Method `Iterator()` of a container. -/
def Bitmap.Iterator (bm : Bitmap) : intIterator := ⟨bm.vals⟩

/-- Method `ReverseIterator()` of a container. -/
def Bitmap.ReverseIterator (bm : Bitmap) : intIterator := ⟨bm.vals.reverse⟩

/-- Method `ManyIterator()` of a container. -/
def Bitmap.ManyIterator (bm : Bitmap) : intIterator := ⟨bm.vals⟩

namespace intIterator

/-- Method `HasNext()`. -/
def HasNext (it : intIterator) : Bool := !it.rest.isEmpty

/-- Method `Next()`: the value and the iterator afterwards; `none` when there
is no next value. -/
def Next (it : intIterator) : Option (Nat × intIterator) :=
  match it.rest with
  | [] => none
  | x :: rest => some (x, ⟨rest⟩)

/-- Method `PeekNext()`; `none` when there is no next value. -/
def PeekNext (it : intIterator) : Option Nat := it.rest.head?

/-- Method `AdvanceIfNeeded(minval)`: skip the values below `minval`. -/
def AdvanceIfNeeded (it : intIterator) (minval : Nat) : intIterator :=
  ⟨it.rest.dropWhile (fun x => decide (x < minval))⟩

/-- Method `NextMany(buf)` for a buffer of length `len`: the values written to
the front of the buffer and the iterator afterwards. -/
def NextMany (it : intIterator) (len : Nat) : List Nat × intIterator :=
  (it.rest.take len, ⟨it.rest.drop len⟩)

end intIterator

end roaring

/-- The struct `u64Iterator`; `none` is `nil`. -/
structure u64Iterator where
  next : Option keyedBitmap
  hiIter : btree.Cursor
  loIter : Option roaring.intIterator
deriving DecidableEq, Repr

/-- Method `Iterator` of `BTreemap`. -/
def BTreemap.Iterator (tm : BTreemap) : u64Iterator :=
  match (btree.BTree.Cursor tm.tree).First with
  | (hiIter, some nxt) => { next := some nxt, hiIter := hiIter, loIter := some nxt.Bitmap.Iterator }
  | (hiIter, none) => { next := none, hiIter := hiIter, loIter := none }

namespace u64Iterator

/-- Method `PeekNext`; `none` stands for the run-time panic of a `nil`
dereference or of the container iterator. -/
def PeekNext (u : u64Iterator) : Option Nat :=
  match u.loIter with
  | none => some 0
  | some peekable =>
    match u.next with
    | none => none
    | some nxt => peekable.PeekNext.map (joinHiLo nxt.HighBits)

/-- Method `AdvanceIfNeeded`: the receiver afterwards; `none` stands for the
run-time panic of a `nil` dereference. -/
def AdvanceIfNeeded (u : u64Iterator) (minval : Nat) : Option u64Iterator :=
  let hi := (splitHiLo minval).1
  let lo := (splitHiLo minval).2
  match u.next with
  | none => none
  | some nxt =>
    if nxt.HighBits > hi then some u
    else
      match u.hiIter.Seek hi with
      | (hiIter, none) => some { u with hiIter := hiIter }
      | (hiIter, some candidate) =>
        if candidate.HighBits ≠ hi then some { u with hiIter := hiIter }
        else
          some { next := some candidate, hiIter := hiIter,
                 loIter := some (candidate.Bitmap.Iterator.AdvanceIfNeeded lo) }

/-- Method `HasNext`; `none` stands for the run-time panic of a `nil`
dereference. -/
def HasNext (u : u64Iterator) : Option Bool :=
  match u.next with
  | none => some false
  | some _ => u.loIter.map (fun lo => lo.HasNext)

/-- Method `Next`: the result and the receiver afterwards; `none` stands for
the run-time panic of a `nil` dereference or of the container iterator. -/
def Next (u : u64Iterator) : Option (Nat × u64Iterator) :=
  match u.next, u.loIter with
  | some nxt, some lo =>
    match lo.Next with
    | none => none
    | some (x, lo1) =>
      if !lo1.HasNext then
        match u.hiIter.Next with
        | (hiIter, none) =>
          some (joinHiLo nxt.HighBits x, { next := none, hiIter := hiIter, loIter := some lo1 })
        | (hiIter, some nx) =>
          some (joinHiLo nxt.HighBits x,
            { next := some nx, hiIter := hiIter, loIter := some nx.Bitmap.Iterator })
      else some (joinHiLo nxt.HighBits x, { u with loIter := some lo1 })
  | _, _ => none

/-- The loop `for u.HasNext() { out = append(out, u.Next()) }` of a caller, with
at most `fuel` rounds: the values produced and the iterator afterwards; `none`
when a call panics. -/
def collect : Nat → u64Iterator → Option (List Nat × u64Iterator)
  | 0, u => some ([], u)
  | fuel + 1, u =>
    match u.HasNext with
    | none => none
    | some false => some ([], u)
    | some true =>
      match u.Next with
      | none => none
      | some (x, u1) => (collect fuel u1).map (fun r => (x :: r.1, r.2))

end u64Iterator

/-- The struct `u64ReverseIterator`; `none` is `nil`. -/
structure u64ReverseIterator where
  next : Option keyedBitmap
  hiIter : btree.Cursor
  loIter : Option roaring.intIterator
deriving DecidableEq, Repr

/-- Method `ReverseIterator` of `BTreemap`. -/
def BTreemap.ReverseIterator (tm : BTreemap) : u64ReverseIterator :=
  match (btree.BTree.Cursor tm.tree).First with
  | (hiIter, some nxt) => { next := some nxt, hiIter := hiIter, loIter := some nxt.Bitmap.Iterator }
  | (hiIter, none) => { next := none, hiIter := hiIter, loIter := none }

namespace u64ReverseIterator

/-- Method `HasNext`; `none` stands for the run-time panic of a `nil`
dereference. -/
def HasNext (u : u64ReverseIterator) : Option Bool :=
  match u.next with
  | none => some false
  | some _ => u.loIter.map (fun lo => lo.HasNext)

/-- Method `Next`: the result and the receiver afterwards; `none` stands for
the run-time panic of a `nil` dereference or of the container iterator. -/
def Next (u : u64ReverseIterator) : Option (Nat × u64ReverseIterator) :=
  match u.next, u.loIter with
  | some nxt, some lo =>
    match lo.Next with
    | none => none
    | some (x, lo1) =>
      if !lo1.HasNext then
        match u.hiIter.Prev with
        | (hiIter, none) =>
          some (joinHiLo nxt.HighBits x, { next := none, hiIter := hiIter, loIter := some lo1 })
        | (hiIter, some nx) =>
          some (joinHiLo nxt.HighBits x,
            { next := some nx, hiIter := hiIter, loIter := some nx.Bitmap.ReverseIterator })
      else some (joinHiLo nxt.HighBits x, { u with loIter := some lo1 })
  | _, _ => none

/-- The loop `for u.HasNext() { out = append(out, u.Next()) }` of a caller, with
at most `fuel` rounds: the values produced and the iterator afterwards; `none`
when a call panics. -/
def collect : Nat → u64ReverseIterator → Option (List Nat × u64ReverseIterator)
  | 0, u => some ([], u)
  | fuel + 1, u =>
    match u.HasNext with
    | none => none
    | some false => some ([], u)
    | some true =>
      match u.Next with
      | none => none
      | some (x, u1) => (collect fuel u1).map (fun r => (x :: r.1, r.2))

end u64ReverseIterator

/-- The struct `u64ManyIterator`; `none` is `nil`.  `hiIter` and `loIter` hold
pointers: the fields are the objects they point to. -/
structure u64ManyIterator where
  next : Option keyedBitmap
  hiIter : btree.Cursor
  loIter : Option roaring.intIterator
deriving DecidableEq, Repr

/-- Method `ManyIterator` of `BTreemap`. -/
def BTreemap.ManyIterator (tm : BTreemap) : u64ManyIterator :=
  match (btree.BTree.Cursor tm.tree).First with
  | (hiIter, some nxt) =>
    { next := some nxt, hiIter := hiIter, loIter := some nxt.Bitmap.ManyIterator }
  | (hiIter, none) => { next := none, hiIter := hiIter, loIter := none }

namespace u64ManyIterator

/-- The variables of the loop of `NextMany`: `n`, the local buffer `uint32s`,
the copy `u` of the receiver (its `hiIter` is the caller's cursor object), and
`loIter0`, the container iterator that the caller's `loIter` points to; `fresh`
tells that `u.loIter` was set in this call and no longer points to it. -/
structure Vars where
  n : Nat
  uint32s : List Nat
  u : u64ManyIterator
  loIter0 : Option roaring.intIterator
  fresh : Bool
deriving DecidableEq, Repr

/-- The loop `for n < ln` of `NextMany` with at most `fuel` rounds; `none`
stands for running out of rounds or for the panic of a `nil` dereference. -/
def NextManyLoop (ln : Nat) : Nat → Vars → Option Vars
  | 0, _ => none
  | fuel + 1, v =>
    if v.n < ln then
      match v.u.next with
      | none => some v
      | some _ =>
        match v.u.loIter with
        | none => none
        | some lo =>
          let nn := (lo.NextMany (ln - v.n)).1.length
          let v1 : Vars :=
            { n := v.n + nn
              uint32s := v.uint32s.take v.n ++ (lo.NextMany (ln - v.n)).1
                ++ v.uint32s.drop (v.n + nn)
              u := { v.u with loIter := some (lo.NextMany (ln - v.n)).2 }
              loIter0 := if v.fresh then v.loIter0 else some (lo.NextMany (ln - v.n)).2
              fresh := v.fresh }
          if nn = 0 then
            match v1.u.hiIter.Next with
            | (hiIter, none) => some { v1 with u := { v1.u with hiIter := hiIter } }
            | (hiIter, some nx) =>
              NextManyLoop ln fuel
                { v1 with
                  u := { next := some nx, hiIter := hiIter, loIter := some nx.Bitmap.ManyIterator }
                  fresh := true }
          else NextManyLoop ln fuel v1
    else some v

/-- Method `NextMany` with at most `fuel` rounds of its loop: the result `n`,
the buffer `uint64s` afterwards, and the receiver afterwards.  The receiver is
passed by value: of the changes made to the copy, only those made through the
pointers `hiIter` and `loIter` reach the caller. -/
def NextMany (fuel : Nat) (u : u64ManyIterator) (uint64s : List Nat) :
    Option (Nat × List Nat × u64ManyIterator) :=
  (NextManyLoop uint64s.length fuel
      { n := 0, uint32s := List.replicate uint64s.length 0, u := u, loIter0 := u.loIter,
        fresh := false }).map
    (fun v => (v.n, uint64s, { next := u.next, hiIter := v.u.hiIter, loIter := v.loIter0 }))

end u64ManyIterator

/-! ## `serialization.go` -/

/-- The errors of a stream and of a container read. -/
inductive StreamError where
  | EOF
  | ErrUnexpectedEOF
  | ErrShortWrite
  | ErrContainer
deriving DecidableEq, Repr

/-- An `io.Writer`: the bytes it has taken and the number of bytes it still
takes, `none` for a writer that never fails. -/
structure Writer where
  buf : List Nat
  room : Option Nat
deriving DecidableEq, Repr

/-- Method `Write` of an `io.Writer`: the writer afterwards, the number of
bytes it took and the error. -/
def Writer.Write (w : Writer) (p : List Nat) : Writer × Nat × Option StreamError :=
  match w.room with
  | none => ({ w with buf := w.buf ++ p }, p.length, none)
  | some k =>
    if p.length ≤ k then ({ buf := w.buf ++ p, room := some (k - p.length) }, p.length, none)
    else ({ buf := w.buf ++ p.take k, room := some 0 }, k, some StreamError.ErrShortWrite)

/-- Conversion to `int64`: the representative in `[-2 ^ 63, 2 ^ 63)`. -/
def int64 (x : Int) : Int := (x + 2 ^ 63) % 2 ^ 64 - 2 ^ 63

namespace binary

/-- A `binary.ByteOrder`: the bytes of a value in a given width, and the value
of a byte sequence. -/
structure ByteOrder where
  put : Nat → Nat → List Nat
  get : List Nat → Nat

/-- The `width` low bytes of `v`, least significant first. -/
def putLittleEndian : Nat → Nat → List Nat
  | 0, _ => []
  | width + 1, v => v % 256 :: putLittleEndian width (v / 256)

/-- The value of a byte sequence read least significant first. -/
def getLittleEndian : List Nat → Nat
  | [] => 0
  | b :: bs => b + 256 * getLittleEndian bs

/-- Byte order `binary.LittleEndian`. -/
def LittleEndian : ByteOrder := ⟨putLittleEndian, getLittleEndian⟩

/-- Byte order `binary.BigEndian`. -/
def BigEndian : ByteOrder :=
  ⟨fun width v => (putLittleEndian width v).reverse, fun bs => getLittleEndian bs.reverse⟩

/-- Function `binary.Write` of a fixed-size value given by its bytes. -/
def Write (w : Writer) (data : List Nat) : Writer × Option StreamError :=
  ((w.Write data).1, (w.Write data).2.2)

/-- Function `binary.Read` of a fixed-size value: the `size` next bytes of the
reader and the reader after them, or the error of `io.ReadFull`. -/
def Read (r : List Nat) (size : Nat) : Except StreamError (List Nat × List Nat) :=
  if size ≤ r.length then Except.ok (r.take size, r.drop size)
  else Except.error (if r.isEmpty then StreamError.EOF else StreamError.ErrUnexpectedEOF)

end binary

/-- What the serializers need of a byte order: a value written in `width`
bytes takes `width` bytes and is read back modulo `256 ^ width`. -/
def binary.ByteOrder.Lawful (o : binary.ByteOrder) : Prop :=
  ∀ width v, (o.put width v).length = width ∧ o.get (o.put width v) = v % 256 ^ width

/-- The serialization of the container library `roaring`: the bytes that a
container writes, the container and the number of bytes that a read takes
from the front of a reader, and the two size reports. -/
structure roaring.Format where
  encode : roaring.Bitmap → List Nat
  decode : List Nat → Except StreamError (roaring.Bitmap × Nat)
  GetSerializedSizeInBytes : roaring.Bitmap → Nat
  GetSizeInBytes : roaring.Bitmap → Nat

/-- Method `WriteTo` of a container: the writer afterwards, the byte count and
the error. -/
def roaring.Bitmap.WriteTo (f : roaring.Format) (bm : roaring.Bitmap) (w : Writer) :
    Writer × Int × Option StreamError :=
  ((w.Write (f.encode bm)).1, int64 (w.Write (f.encode bm)).2.1, (w.Write (f.encode bm)).2.2)

/-- Method `ReadFrom` of a fresh container: the container, the reader
afterwards and the byte count, or the error. -/
def roaring.Bitmap.ReadFrom (f : roaring.Format) (r : List Nat) :
    Except StreamError (roaring.Bitmap × List Nat × Int) :=
  match f.decode r with
  | Except.error e => Except.error e
  | Except.ok (bm, k) => Except.ok (bm, r.drop k, int64 k)

/-- The callback of both `WriteTo`; its captured variables are the writer, `n`
and `err`. -/
def WriteToCallback (f : roaring.Format) (order : binary.ByteOrder)
    (st : Writer × Int × Option StreamError) (bm : keyedBitmap) :
    (Writer × Int × Option StreamError) × Bool :=
  match binary.Write st.1 (order.put 4 bm.HighBits) with
  | (w1, some e) => ((w1, st.2.1, some e), false)
  | (w1, none) =>
    match roaring.Bitmap.WriteTo f bm.Bitmap w1 with
    | (w2, _, some er) => ((w2, int64 (st.2.1 + 4), some er), false)
    | (w2, nn, none) => ((w2, int64 (int64 (st.2.1 + 4) + nn), none), true)

/-- The loop of both `ReadFrom` with `sz - i` rounds to go: the local index
`tm`, `n` and `err` at the return. -/
def ReadFromLoop (f : roaring.Format) (order : binary.ByteOrder) :
    Nat → List Nat → btree.BTree → Int → btree.BTree × Int × Option StreamError
  | 0, _, tm, n => (tm, n, none)
  | togo + 1, r, tm, n =>
    match binary.Read r 4 with
    | Except.error e => (tm, n, some e)
    | Except.ok (highBits, r1) =>
      match roaring.Bitmap.ReadFrom f r1 with
      | Except.error e => (tm, int64 (n + 4), some e)
      | Except.ok (bm, r2, nn) =>
        ReadFromLoop f order togo r2
          (btree.ReplaceOrInsert tm { Bitmap := bm, HighBits := order.get highBits })
          (int64 (int64 (n + 4) + nn))

/-- Method `WriteTo` of `cppSerializer`: the writer afterwards, `n` and `err`. -/
def cppSerializer.WriteTo (f : roaring.Format) (tm : BTreemap) (w : Writer) :
    Writer × Int × Option StreamError :=
  match binary.Write w (binary.LittleEndian.put 8 (btree.Len tm.tree % 2 ^ 64)) with
  | (w1, some err) => (w1, 0, some err)
  | (w1, none) => tm.forEachBitmap (WriteToCallback f binary.LittleEndian) (w1, 8, none)

/-- Method `ReadFrom` of `cppSerializer`: the receiver afterwards, `n` and
`err`. -/
def cppSerializer.ReadFrom (f : roaring.Format) (tm : BTreemap) (r : List Nat) :
    BTreemap × Int × Option StreamError :=
  match binary.Read r 8 with
  | Except.error err => (tm, 0, some err)
  | Except.ok (sz, r1) =>
    match ReadFromLoop f binary.LittleEndian (binary.LittleEndian.get sz) r1 [] 8 with
    | (_, n, some err) => (tm, n, some err)
    | (tree, n, none) => ({ tm with tree := tree }, n, none)

/-- Method `WriteTo` of `jvmSerializer`: the writer afterwards, `n` and `err`. -/
def jvmSerializer.WriteTo (f : roaring.Format) (tm : BTreemap) (w : Writer) :
    Writer × Int × Option StreamError :=
  match binary.Write w [0] with
  | (w1, some err) => (w1, 0, some err)
  | (w1, none) =>
    match binary.Write w1 (binary.BigEndian.put 4 (btree.Len tm.tree % 2 ^ 32)) with
    | (w2, some err) => (w2, 1, some err)
    | (w2, none) => tm.forEachBitmap (WriteToCallback f binary.BigEndian) (w2, int64 (1 + 4), none)

/-- Method `ReadFrom` of `jvmSerializer`: the receiver afterwards, `n` and
`err`. -/
def jvmSerializer.ReadFrom (f : roaring.Format) (tm : BTreemap) (r : List Nat) :
    BTreemap × Int × Option StreamError :=
  match binary.Read r 1 with
  | Except.error err => (tm, 0, some err)
  | Except.ok (_, r1) =>
    match binary.Read r1 4 with
    | Except.error err => (tm, 0, some err)
    | Except.ok (sz, r2) =>
      match ReadFromLoop f binary.BigEndian (binary.BigEndian.get sz) r2 [] 8 with
      | (_, n, some err) => (tm, n, some err)
      | (tree, n, none) => ({ tm with tree := tree }, n, none)

namespace BTreemap

/-- Method `WriteTo`; `none` when the serializer is `nil`. -/
def WriteTo (tm : BTreemap) (f : roaring.Format) (stream : Writer) :
    Option (Writer × Int × Option StreamError) :=
  match tm.serializer with
  | none => none
  | some serializer.cppSerializer => some (cppSerializer.WriteTo f tm stream)
  | some serializer.jvmSerializer => some (jvmSerializer.WriteTo f tm stream)

/-- Method `ReadFrom`; `none` when the serializer is `nil`. -/
def ReadFrom (tm : BTreemap) (f : roaring.Format) (reader : List Nat) :
    Option (BTreemap × Int × Option StreamError) :=
  match tm.serializer with
  | none => none
  | some serializer.cppSerializer => some (cppSerializer.ReadFrom f tm reader)
  | some serializer.jvmSerializer => some (jvmSerializer.ReadFrom f tm reader)

/-- The callback of `GetSizeInBytes`; its captured variable is `n`. -/
def GetSizeInBytesCallback (f : roaring.Format) (n : Nat) (bm : keyedBitmap) : Nat × Bool :=
  ((n + f.GetSizeInBytes bm.Bitmap % 2 ^ 64) % 2 ^ 64, true)

/-- Method `GetSizeInBytes`. -/
def GetSizeInBytes (tm : BTreemap) (f : roaring.Format) : Nat :=
  tm.forEachBitmap (GetSizeInBytesCallback f)
    ((8 + btree.Len tm.tree % 2 ^ 64 * 4 % 2 ^ 64) % 2 ^ 64)

/-- The callback of `GetSerializedSizeInBytes`; its captured variable is `n`. -/
def GetSerializedSizeInBytesCallback (f : roaring.Format) (n : Nat) (bm : keyedBitmap) :
    Nat × Bool :=
  ((n + f.GetSerializedSizeInBytes bm.Bitmap % 2 ^ 64) % 2 ^ 64, true)

/-- Method `GetSerializedSizeInBytes`. -/
def GetSerializedSizeInBytes (tm : BTreemap) (f : roaring.Format) : Nat :=
  tm.forEachBitmap (GetSerializedSizeInBytesCallback f)
    ((8 + btree.Len tm.tree % 2 ^ 64 * 4 % 2 ^ 64) % 2 ^ 64)

end BTreemap

/-- Spec side: the bytes of the shards of an index, high key then container. -/
def shardBytes (f : roaring.Format) (order : binary.ByteOrder) (t : btree.BTree) : List Nat :=
  t.flatMap (fun x => order.put 4 x.HighBits ++ f.encode x.Bitmap)

/-- Spec side: four bytes of high key and the bytes of the container, per shard. -/
def shardCost (f : roaring.Format) (t : btree.BTree) : Nat :=
  (t.map (fun x => 4 + (f.encode x.Bitmap).length)).sum

/-- The `k` values of four bytes each at the front of a byte sequence. -/
def roaring.Format.plainValues : Nat → List Nat → List Nat
  | 0, _ => []
  | k + 1, r => binary.getLittleEndian (r.take 4) :: roaring.Format.plainValues k (r.drop 4)

/-- A container format for the examples: the number of values in eight bytes,
then each value in four bytes. -/
def roaring.Format.plain : roaring.Format where
  encode bm :=
    binary.putLittleEndian 8 bm.vals.length ++ bm.vals.flatMap (binary.putLittleEndian 4)
  decode r :=
    if 8 ≤ r.length then
      if 4 * binary.getLittleEndian (r.take 8) ≤ (r.drop 8).length then
        Except.ok (⟨roaring.Format.plainValues (binary.getLittleEndian (r.take 8)) (r.drop 8)⟩,
          8 + 4 * binary.getLittleEndian (r.take 8))
      else Except.error StreamError.ErrUnexpectedEOF
    else Except.error StreamError.ErrUnexpectedEOF
  GetSerializedSizeInBytes bm := 8 + 4 * bm.vals.length
  GetSizeInBytes bm := 8 + 4 * bm.vals.length

/-! ## `fastaggregation.go` -/

/-- Function `FastAnd`. -/
def FastAnd (bitmaps : List BTreemap) : BTreemap :=
  match bitmaps with
  | [] => BTreemap.New []
  | [b] => b.Clone
  | _ => bitmaps.foldl (fun answer bm => answer.And bm) (BTreemap.New [])

/-- Function `FastOr`. -/
def FastOr (bitmaps : List BTreemap) : BTreemap :=
  match bitmaps with
  | [] => BTreemap.New []
  | [b] => b.Clone
  | _ => bitmaps.foldl (fun answer bm => answer.Or bm) (BTreemap.New [])

/-- The struct `item` of the priority queue. -/
structure item where
  value : BTreemap
  index : Int
deriving DecidableEq, Repr

/-- The type `priorityQueue`, a slice of items. -/
abbrev priorityQueue := List item

namespace priorityQueue

/-- Method `Len`. -/
def Len (pq : priorityQueue) : Nat := pq.length

/-- Method `Less`; `none` stands for the run-time panic of an index out of
range. -/
def Less (f : roaring.Format) (pq : priorityQueue) (i j : Nat) : Option Bool :=
  match pq[i]?, pq[j]? with
  | some a, some b => some (decide (a.value.GetSizeInBytes f < b.value.GetSizeInBytes f))
  | _, _ => none

/-- Method `Swap`; `none` stands for the run-time panic of an index out of
range. -/
def Swap (pq : priorityQueue) (i j : Nat) : Option priorityQueue :=
  match pq[i]?, pq[j]? with
  | some a, some b => some ((pq.set i { b with index := i }).set j { a with index := j })
  | _, _ => none

/-- Method `Push`. -/
def Push (pq : priorityQueue) (x : item) : priorityQueue :=
  pq ++ [{ x with index := pq.length }]

/-- Method `Pop`: the item and the queue afterwards; `none` stands for the
run-time panic on the empty queue. -/
def Pop (pq : priorityQueue) : Option (item × priorityQueue) :=
  match pq.getLast? with
  | none => none
  | some x => some ({ x with index := -1 }, pq.dropLast)

end priorityQueue

/-- Spec side: two queues of the same length that hold the same sets. -/
def priorityQueue.SameValues (pq pq1 : priorityQueue) : Prop :=
  pq1.length = pq.length ∧ ∀ b : BTreemap, (∃ x ∈ pq1, x.value = b) ↔ ∃ x ∈ pq, x.value = b

/-! The functions of the package `container/heap` on a `priorityQueue`.  Their
loops run for at most `fuel` rounds; `none` stands for running out of rounds or
for a run-time panic. -/

namespace heap

/-- Function `up`. -/
def up (f : roaring.Format) : Nat → priorityQueue → Nat → Option priorityQueue
  | 0, _, _ => none
  | fuel + 1, h, j =>
    if (j - 1) / 2 = j then some h
    else
      match h.Less f j ((j - 1) / 2) with
      | none => none
      | some false => some h
      | some true =>
        match h.Swap ((j - 1) / 2) j with
        | none => none
        | some h1 => up f fuel h1 ((j - 1) / 2)

/-- Function `down`, without its result, which `Init` and `Pop` do not use. -/
def down (f : roaring.Format) : Nat → priorityQueue → Nat → Nat → Option priorityQueue
  | 0, _, _, _ => none
  | fuel + 1, h, i, n =>
    if 2 * i + 1 ≥ n then some h
    else
      match (if 2 * i + 2 < n then h.Less f (2 * i + 2) (2 * i + 1) else some false) with
      | none => none
      | some lt =>
        match h.Less f (if lt then 2 * i + 2 else 2 * i + 1) i with
        | none => none
        | some false => some h
        | some true =>
          match h.Swap i (if lt then 2 * i + 2 else 2 * i + 1) with
          | none => none
          | some h1 => down f fuel h1 (if lt then 2 * i + 2 else 2 * i + 1) n

/-- The loop `for i := n/2 - 1; i >= 0; i--` of `Init`, with `i + 1 = k`. -/
def initLoop (f : roaring.Format) (fuel n : Nat) : Nat → priorityQueue → Option priorityQueue
  | 0, h => some h
  | i + 1, h =>
    match down f fuel h i n with
    | none => none
    | some h1 => initLoop f fuel n i h1

/-- Function `heap.Init`. -/
def Init (f : roaring.Format) (fuel : Nat) (h : priorityQueue) : Option priorityQueue :=
  initLoop f fuel h.Len (h.Len / 2) h

/-- Function `heap.Push`. -/
def Push (f : roaring.Format) (fuel : Nat) (h : priorityQueue) (x : item) :
    Option priorityQueue :=
  up f fuel (h.Push x) ((h.Push x).Len - 1)

/-- Function `heap.Pop`: the item and the queue afterwards. -/
def Pop (f : roaring.Format) (fuel : Nat) (h : priorityQueue) :
    Option (item × priorityQueue) :=
  if h.Len = 0 then none
  else
    match h.Swap 0 (h.Len - 1) with
    | none => none
    | some h1 =>
      match down f fuel h1 0 (h.Len - 1) with
      | none => none
      | some h2 => h2.Pop

end heap

/-- The loop `for pq.Len() > 1` of `HeapOr` with at most `fuel` rounds, the
loops of the heap functions running for at most `fuel0` rounds. -/
def HeapOrLoop (f : roaring.Format) (fuel0 : Nat) : Nat → priorityQueue → Option priorityQueue
  | 0, _ => none
  | fuel + 1, pq =>
    if pq.Len > 1 then
      match heap.Pop f fuel0 pq with
      | none => none
      | some (x1, pq1) =>
        match heap.Pop f fuel0 pq1 with
        | none => none
        | some (x2, pq2) =>
          match heap.Push f fuel0 pq2 { value := FastOr [x1.value, x2.value], index := 0 } with
          | none => none
          | some pq3 => HeapOrLoop f fuel0 fuel pq3
    else some pq

/-- Function `HeapOr`, every loop running for at most `fuel` rounds; `none`
stands for running out of rounds or for a run-time panic. -/
def HeapOr (fuel : Nat) (f : roaring.Format) (bitmaps : List BTreemap) : Option BTreemap :=
  if bitmaps.length = 0 then some (BTreemap.New [])
  else
    match heap.Init f fuel
        (List.zipWith (fun bm (i : Nat) => ({ value := bm, index := i } : item)) bitmaps
          (List.range bitmaps.length)) with
    | none => none
    | some pq =>
      match HeapOrLoop f fuel fuel pq with
      | none => none
      | some pq1 => (heap.Pop f fuel pq1).map (fun r => r.1.value)

/-- The container of the 32-bit values below `m`. -/
def roaring.Bitmap.below (m : Nat) : roaring.Bitmap := ⟨List.range m⟩

/-- The set of the values whose high half is below `n` and whose low half is
below `m`, one shard per high key; `below (2 ^ 32) (2 ^ 32)` holds every 64-bit
value. -/
def BTreemap.below (n m : Nat) : BTreemap :=
  { tree := (List.range n).map (fun hi => { Bitmap := roaring.Bitmap.below m, HighBits := hi })
    serializer := some serializer.cppSerializer }

/-- Number of 64-bit values that satisfy `p`. -/
def count64 (p : Nat → Prop) [DecidablePred p] : Nat :=
  ((Finset.range (2 ^ 64)).filter p).card

/-! ## Several instances

The binary operations take a second instance by pointer.  `Heap` maps
addresses to instances, so that "distinct instances" are distinct addresses
and what a call leaves at the address of its argument can be stated. -/

/-- The instances of a program, by address. -/
abbrev Heap := Nat → BTreemap

namespace Heap

/-- Store an instance at an address. -/
def set (h : Heap) (p : Nat) (tm : BTreemap) : Heap := fun q => if q = p then tm else h q

/-- Call `a.And(b)`. -/
def And (h : Heap) (a b : Nat) : Heap := h.set a ((h a).And (h b))

/-- Call `a.Or(b)`. -/
def Or (h : Heap) (a b : Nat) : Heap := h.set a ((h a).Or (h b))

/-- Call `a.Xor(b)`. -/
def Xor (h : Heap) (a b : Nat) : Heap := h.set a ((h a).Xor (h b))

/-- Call `a.AndNot(b)`. -/
def AndNot (h : Heap) (a b : Nat) : Heap := h.set a ((h a).AndNot (h b))

/-- Call `a.AndCardinality(b)`: the heap after the call and the result. -/
def AndCardinality (h : Heap) (a b : Nat) : Heap × Nat := (h, (h a).AndCardinality (h b))

/-- Call `a.OrCardinality(b)`: the heap after the call and the result. -/
def OrCardinality (h : Heap) (a b : Nat) : Heap × Nat := (h, (h a).OrCardinality (h b))

/-- Call `FastOr(bitmaps...)` on the instances at the given addresses: the heap
after the call and the result, a new instance. -/
def FastOr (h : Heap) (bitmaps : List Nat) : Heap × BTreemap :=
  (h, Roaring64.FastOr (bitmaps.map h))

/-- The heap with `x` at address `0` and `y` at every other address. -/
def ofPair (x y : BTreemap) : Heap := fun p => if p = 0 then x else y

end Heap

/-! ## Sanity checks on the tests of `treemap_test.go` -/

example : (BTreemap.New [100, 20, 1, 15, 2 ^ 64 - 1, 4, 10]).ToArray
    = [1, 4, 10, 15, 20, 100, 2 ^ 64 - 1] := by decide

example : (BTreemap.New [1, 2 ^ 64 - 1]).GetCardinality = 2 := by decide

example : (BTreemap.below 2 3).ToArray = [0, 1, 2, 2 ^ 32, 2 ^ 32 + 1, 2 ^ 32 + 2] := by decide

example : ((BTreemap.New [2 ^ 64 - 1]).And (BTreemap.New [2 ^ 64 - 1, 25])).ToArray
    = [2 ^ 64 - 1] := by decide

example : ((BTreemap.New [15]).Or (BTreemap.New [25])).ToArray = [15, 25] := by decide

example : ((BTreemap.New [15, 25]).Xor (BTreemap.New [25, 35])).ToArray = [15, 35] := by decide

example : ((BTreemap.New [15, 25, 2 ^ 64 - 11]).AndNot (BTreemap.New [25, 35])).ToArray
    = [15, 2 ^ 64 - 11] := by decide

example : (BTreemap.New [joinHiLo 1 1, joinHiLo 3 3, joinHiLo 5 5]).Rank (joinHiLo 3 3) = 2 := by
  decide

example : (BTreemap.New [joinHiLo 0 0, joinHiLo 2 2, joinHiLo 4 4]).Select 1
    = .ok (joinHiLo 2 2) := by rfl

example : (BTreemap.New [joinHiLo 0 0, joinHiLo 2 2, joinHiLo 4 4]).Select 3
    = .error { index := 3, size := 3 } := by rfl

example : ((BTreemap.New [joinHiLo 120 120, joinHiLo 1000 1000]).Minimum,
    (BTreemap.New [joinHiLo 64 64, joinHiLo 1000 1000]).Maximum)
    = (some (joinHiLo 120 120), some (joinHiLo 1000 1000)) := by decide

example : ((BTreemap.New [10, 20, 2 ^ 32 - 1, 2 ^ 64 - 1]).Equals
      (Any.treemap (BTreemap.New [2 ^ 32 - 1, 2 ^ 64 - 1, 10, 20])),
    (BTreemap.New [10, 20, 2 ^ 32 - 1, 2 ^ 64 - 1]).Equals (Any.treemap (BTreemap.New [10, 20])),
    (BTreemap.New []).Equals (Any.treemap (BTreemap.New [])))
    = (true, false, true) := by decide

example : ((BTreemap.New [25]).AndCardinality (BTreemap.New [1, 21, 22, 25, 2 ^ 40]),
    (BTreemap.New [25]).OrCardinality (BTreemap.New [1, 21, 22, 25, 2 ^ 40]),
    (BTreemap.New [1, 21, 22, 25, 2 ^ 40]).OrCardinality (BTreemap.New [25]))
    = (1, 5, 5) := by decide

example : ((BTreemap.New [1, 2 ^ 64 - 1]).Clear.IsEmpty, (BTreemap.New []).IsEmpty,
    (BTreemap.New [2 ^ 64 - 1]).IsEmpty) = (true, true, false) := by decide

example : (cppSerializer.WriteTo roaring.Format.plain (BTreemap.New [1, 2 ^ 32 + 7]) ⟨[], none⟩)
    = (⟨[2, 0, 0, 0, 0, 0, 0, 0,
         0, 0, 0, 0, 1, 0, 0, 0, 0, 0, 0, 0, 1, 0, 0, 0,
         1, 0, 0, 0, 1, 0, 0, 0, 0, 0, 0, 0, 7, 0, 0, 0], none⟩, 40, none) := by decide

example : (jvmSerializer.WriteTo roaring.Format.plain (BTreemap.New [2 ^ 32 + 7]) ⟨[], none⟩)
    = (⟨[0, 0, 0, 0, 1, 0, 0, 0, 1, 1, 0, 0, 0, 0, 0, 0, 0, 7, 0, 0, 0], none⟩, 21, none) := by
  decide

example : (jvmSerializer.WriteTo roaring.Format.plain (BTreemap.New [2 ^ 32 + 7]) ⟨[], some 6⟩)
    = (⟨[0, 0, 0, 0, 1, 0], some 0⟩, 5, some StreamError.ErrShortWrite) := by decide

example : ((BTreemap.New []).ReadFrom roaring.Format.plain
      [1, 0, 0, 0, 0, 0, 0, 0, 1, 0, 0, 0, 1, 0, 0, 0, 0, 0, 0, 0, 7, 0, 0, 0]).map
        (fun res => (res.1.ToArray, res.2))
    = some ([2 ^ 32 + 7], 24, none) := by decide

example : (((BTreemap.New [5]).Or
      ((BTreemap.New [1, 2, 3, 4, 5, 100, 1000]).And (BTreemap.New [3, 4, 1000]))).Iterator.collect
        10).map (fun r => r.1) = some [3, 4, 5, 1000] := by decide

example : ((BTreemap.New []).AddRange 3 7).ToArray = [3, 4, 5, 6] := by decide

example : ((BTreemap.New [7, 9]).RemoveRange 5 8).ToArray = [9] := by decide

example : (HeapOr 5 roaring.Format.plain
      [BTreemap.New [1, 2, 3], BTreemap.New [2 ^ 40], BTreemap.New [7, 8],
        BTreemap.New [2 ^ 40, 9]]).map BTreemap.ToArray
    = some [1, 2, 3, 7, 8, 9, 2 ^ 40] := by decide

example : (FastOr [BTreemap.New [15], BTreemap.New [25]]).ToArray = [15, 25] := by decide

example : ((BTreemap.New [3, 4, 9]).Flip 3 7).ToArray = [5, 6, 9] := by decide

example : ((BTreemap.New [2 ^ 32 - 2]).Flip (2 ^ 32 - 3) (2 ^ 32 + 2)).ToArray
    = [2 ^ 32 - 3, 2 ^ 32, 2 ^ 32 + 1] := by decide

/-! ## Splitting and joining 64-bit values -/

theorem splitHiLo_fst (v : Nat) (hv : v < 2 ^ 64) : (splitHiLo v).1 = v / 2 ^ 32 := by
  simp only [splitHiLo, Nat.shiftRight_eq_div_pow]
  apply Nat.mod_eq_of_lt
  omega

theorem splitHiLo_snd (v : Nat) : (splitHiLo v).2 = v % 2 ^ 32 := rfl

theorem splitHiLo_fst_lt (v : Nat) : (splitHiLo v).1 < 2 ^ 32 := by
  simp only [splitHiLo]; omega

theorem splitHiLo_snd_lt (v : Nat) : (splitHiLo v).2 < 2 ^ 32 := by
  simp only [splitHiLo]; omega

theorem joinHiLo_eq (hi lo : Nat) (hhi : hi < 2 ^ 32) (hlo : lo < 2 ^ 32) :
    joinHiLo hi lo = hi * 2 ^ 32 + lo := by
  unfold joinHiLo
  rw [Nat.shiftLeft_eq, Nat.mod_eq_of_lt (by omega), Nat.mul_comm,
    ← Nat.mul_add_lt_is_or hlo]

theorem joinHiLo_splitHiLo (v : Nat) (hv : v < 2 ^ 64) :
    joinHiLo (splitHiLo v).1 (splitHiLo v).2 = v := by
  rw [joinHiLo_eq _ _ (splitHiLo_fst_lt v) (splitHiLo_snd_lt v), splitHiLo_fst v hv,
    splitHiLo_snd]
  omega

theorem splitHiLo_joinHiLo (hi lo : Nat) (hhi : hi < 2 ^ 32) (hlo : lo < 2 ^ 32) :
    splitHiLo (joinHiLo hi lo) = (hi, lo) := by
  have h : joinHiLo hi lo < 2 ^ 64 := by rw [joinHiLo_eq _ _ hhi hlo]; omega
  apply Prod.ext
  · rw [splitHiLo_fst _ h, joinHiLo_eq _ _ hhi hlo]; simp only; omega
  · rw [splitHiLo_snd, joinHiLo_eq _ _ hhi hlo]; simp only; omega

theorem splitHiLo_inj (v w : Nat) (hv : v < 2 ^ 64) (hw : w < 2 ^ 64)
    (h1 : (splitHiLo v).1 = (splitHiLo w).1) (h2 : (splitHiLo v).2 = (splitHiLo w).2) :
    v = w := by
  rw [← joinHiLo_splitHiLo v hv, ← joinHiLo_splitHiLo w hw, h1, h2]

/-! ## Containers and the shard index -/

namespace roaring.Bitmap

theorem mem_insertVal (x y : Nat) (l : List Nat) : y ∈ insertVal x l ↔ y = x ∨ y ∈ l := by
  induction l with
  | nil => simp [insertVal]
  | cons z zs ih =>
    unfold insertVal
    split_ifs with h1 h2
    · simp
    · subst h2; simp
    · simp only [List.mem_cons, ih]; tauto

theorem pairwise_insertVal (x : Nat) (l : List Nat) (h : l.Pairwise (· < ·)) :
    (insertVal x l).Pairwise (· < ·) := by
  induction l with
  | nil => simp [insertVal]
  | cons z zs ih =>
    unfold insertVal
    rw [List.pairwise_cons] at h
    split_ifs with h1 h2
    · rw [List.pairwise_cons]
      refine ⟨?_, List.pairwise_cons.2 h⟩
      intro a ha
      rcases List.mem_cons.1 ha with rfl | ha
      · exact h1
      · exact lt_trans h1 (h.1 a ha)
    · exact List.pairwise_cons.2 h
    · rw [List.pairwise_cons]
      refine ⟨?_, ih h.2⟩
      intro a ha
      rcases (mem_insertVal x a zs).1 ha with rfl | ha
      · omega
      · exact h.1 a ha

theorem Contains_iff_mem (bm : Bitmap) (x : Nat) : bm.Contains x = true ↔ x ∈ bm.vals := by
  simp [Contains]

theorem mem_Add (bm : Bitmap) (x y : Nat) : y ∈ (bm.Add x).vals ↔ y = x ∨ y ∈ bm.vals :=
  mem_insertVal x y bm.vals

theorem WF_Add_val (bm : Bitmap) (x : Nat) (h : bm.WF) (hx : x < 2 ^ 32) : (bm.Add x).WF := by
  refine ⟨pairwise_insertVal x _ h.1, ?_⟩
  intro y hy
  rcases (mem_Add bm x y).1 hy with rfl | hy
  · exact hx
  · exact h.2 y hy

theorem mem_BitmapOf_single (x y : Nat) : y ∈ (BitmapOf [x]).vals ↔ y = x := by
  simp [BitmapOf, Add, New, insertVal]

theorem WF_BitmapOf_single (x : Nat) (hx : x < 2 ^ 32) : (BitmapOf [x]).WF := by
  refine ⟨by simp [BitmapOf, Add, New, insertVal], ?_⟩
  intro y hy
  rw [(mem_BitmapOf_single x y).1 hy]; exact hx

theorem mem_Remove (bm : Bitmap) (x y : Nat) : y ∈ (bm.Remove x).vals ↔ y ≠ x ∧ y ∈ bm.vals := by
  simp [Remove, and_comm]

theorem WF_filter (bm : Bitmap) (p : Nat → Bool) (h : bm.WF) : WF ⟨bm.vals.filter p⟩ :=
  ⟨h.1.filter p, fun x hx => h.2 x (List.mem_of_mem_filter hx)⟩

theorem WF_Remove (bm : Bitmap) (x : Nat) (h : bm.WF) : (bm.Remove x).WF := WF_filter bm _ h

theorem mem_And (bm other : Bitmap) (y : Nat) :
    y ∈ (bm.And other).vals ↔ y ∈ bm.vals ∧ y ∈ other.vals := by
  simp [And, Contains]

theorem WF_And (bm other : Bitmap) (h : bm.WF) : (bm.And other).WF := WF_filter bm _ h

theorem mem_AndNot (bm other : Bitmap) (y : Nat) :
    y ∈ (bm.AndNot other).vals ↔ y ∈ bm.vals ∧ y ∉ other.vals := by
  simp [AndNot, Contains]

theorem WF_AndNot_vals (bm other : Bitmap) (h : bm.WF) : (bm.AndNot other).WF := WF_filter bm _ h

theorem mem_foldl_Add (l : List Nat) (bm : Bitmap) (y : Nat) :
    y ∈ (l.foldl Add bm).vals ↔ y ∈ bm.vals ∨ y ∈ l := by
  induction l generalizing bm with
  | nil => simp
  | cons z zs ih =>
    rw [List.foldl_cons, ih, mem_Add, List.mem_cons]; tauto

theorem WF_foldl_Add (l : List Nat) (bm : Bitmap) (h : bm.WF) (hl : ∀ x ∈ l, x < 2 ^ 32) :
    (l.foldl Add bm).WF := by
  induction l generalizing bm with
  | nil => exact h
  | cons z zs ih =>
    rw [List.foldl_cons]
    exact ih _ (WF_Add_val bm z h (hl z (List.mem_cons_self _ _)))
      (fun x hx => hl x (List.mem_cons_of_mem _ hx))

theorem mem_Or (bm other : Bitmap) (y : Nat) :
    y ∈ (bm.Or other).vals ↔ y ∈ bm.vals ∨ y ∈ other.vals := mem_foldl_Add _ _ _

theorem WF_Or (bm other : Bitmap) (h : bm.WF) (ho : other.WF) : (bm.Or other).WF :=
  WF_foldl_Add _ _ h ho.2

theorem mem_Xor (bm other : Bitmap) (y : Nat) :
    y ∈ (bm.Xor other).vals ↔ (y ∈ bm.vals ∧ y ∉ other.vals) ∨ (y ∈ other.vals ∧ y ∉ bm.vals) := by
  rw [Xor, mem_Or, mem_AndNot, mem_AndNot]

theorem WF_Xor (bm other : Bitmap) (h : bm.WF) (ho : other.WF) : (bm.Xor other).WF :=
  WF_Or _ _ (WF_AndNot_vals _ _ h) (WF_AndNot_vals _ _ ho)

theorem IsEmpty_iff (bm : Bitmap) : bm.IsEmpty = true ↔ bm.vals = [] := by
  simp [IsEmpty, List.isEmpty_iff]

end roaring.Bitmap

namespace btree

theorem Get_key {t : BTree} {k : Nat} {x : keyedBitmap} (h : Get t k = some x) :
    x.HighBits = k := by
  induction t with
  | nil => simp [Get] at h
  | cons y rest ih =>
    unfold Get at h
    split_ifs at h with h1 h2
    · exact ih h
    · cases h; omega

theorem Get_mem {t : BTree} {k : Nat} {x : keyedBitmap} (h : Get t k = some x) : x ∈ t := by
  induction t with
  | nil => simp [Get] at h
  | cons y rest ih =>
    unfold Get at h
    split_ifs at h with h1 h2
    · exact List.mem_cons_of_mem _ (ih h)
    · cases h; exact List.mem_cons_self _ _

theorem Get_of_mem {t : BTree} (ht : Ordered t) {x : keyedBitmap} (hx : x ∈ t) :
    Get t x.HighBits = some x := by
  induction t with
  | nil => simp at hx
  | cons y rest ih =>
    have hp := List.pairwise_cons.1 ht
    unfold Get
    rcases List.mem_cons.1 hx with rfl | hx
    · simp
    · have := hp.1 x hx
      rw [if_pos this]
      exact ih hp.2 hx

theorem Get_eq_none_of_lt {t : BTree} {k : Nat} (h : ∀ x ∈ t, k < x.HighBits) :
    Get t k = none := by
  cases t with
  | nil => rfl
  | cons y rest =>
    have := h y (List.mem_cons_self _ _)
    unfold Get
    rw [if_neg (by omega), if_pos this]

theorem Get_map (t : BTree) (g : keyedBitmap → keyedBitmap)
    (hg : ∀ x, (g x).HighBits = x.HighBits) (k : Nat) :
    Get (t.map g) k = (Get t k).map g := by
  induction t with
  | nil => rfl
  | cons y rest ih =>
    simp only [List.map_cons, Get, hg]
    split_ifs
    · exact ih
    · rfl
    · rfl

theorem Get_mutate (t : BTree) (key : Nat) (f : roaring.Bitmap → roaring.Bitmap) (k : Nat) :
    Get (mutate t key f) k =
      if k = key then (Get t k).map (fun x => { x with Bitmap := f x.Bitmap }) else Get t k := by
  unfold mutate
  rw [Get_map]
  · cases h : Get t k with
    | none => simp
    | some x =>
      have hk := Get_key h
      simp only [Option.map_some', hk]
      split_ifs <;> rfl
  · intro x; split_ifs <;> rfl

theorem Get_ReplaceOrInsert (t : BTree) (item : keyedBitmap) (k : Nat) :
    Get (ReplaceOrInsert t item) k = if k = item.HighBits then some item else Get t k := by
  induction t with
  | nil =>
    simp only [ReplaceOrInsert, Get]
    split_ifs <;> first | rfl | omega
  | cons y rest ih =>
    simp only [ReplaceOrInsert]
    split_ifs with h1 h2 h3 h4 h5
    all_goals simp only [Get, ih]
    all_goals split_ifs
    all_goals first | rfl | omega

theorem Get_Delete (t : BTree) (ht : Ordered t) (key k : Nat) :
    Get (Delete t key) k = if k = key then none else Get t k := by
  induction t with
  | nil => simp [Delete, Get]
  | cons y rest ih =>
    have hp := List.pairwise_cons.1 ht
    have hlt : ∀ x ∈ rest, y.HighBits < x.HighBits := hp.1
    by_cases h1 : y.HighBits < key
    · simp only [Delete, if_pos h1, Get, ih hp.2]
      split_ifs <;> first | rfl | omega
    · by_cases h2 : key < y.HighBits
      · simp only [Delete, if_neg h1, if_pos h2, Get]
        split_ifs <;> first | rfl | omega
      · simp only [Delete, if_neg h1, if_neg h2, Get]
        have hk : y.HighBits = key := by omega
        by_cases h3 : k = key
        · rw [if_pos h3]
          apply Get_eq_none_of_lt
          intro x hx; have := hlt x hx; omega
        · rw [if_neg h3]
          by_cases h4 : y.HighBits < k
          · rw [if_pos h4]
          · rw [if_neg h4, if_pos (by omega)]
            apply Get_eq_none_of_lt
            intro x hx; have := hlt x hx; omega

end btree

/-! ## `Contains` after `Add` -/

namespace BTreemap

theorem Contains_iff (tm : BTreemap) (w : Nat) :
    tm.Contains w = true ↔
      ∃ bm, btree.Get tm.tree (splitHiLo w).1 = some bm ∧ (splitHiLo w).2 ∈ bm.Bitmap.vals := by
  unfold Contains get
  cases h : btree.Get tm.tree (splitHiLo w).1 with
  | none => simp
  | some bm => simp [roaring.Bitmap.Contains_iff_mem]

theorem Contains_Add_iff (s : BTreemap) (v w : Nat) (hv : v < 2 ^ 64) (hw : w < 2 ^ 64) :
    (s.Add v).Contains w = true ↔ w = v ∨ s.Contains w = true := by
  have hsplit : w = v ↔ (splitHiLo w).1 = (splitHiLo v).1 ∧ (splitHiLo w).2 = (splitHiLo v).2 :=
    ⟨fun h => by subst h; exact ⟨rfl, rfl⟩, fun h => splitHiLo_inj w v hw hv h.1 h.2⟩
  rw [Contains_iff, Contains_iff, hsplit]
  cases hg : btree.Get s.tree (splitHiLo v).1 with
  | some cur =>
    simp only [Add, get, hg, btree.Get_mutate]
    by_cases hk : (splitHiLo w).1 = (splitHiLo v).1
    · rw [if_pos hk, hk, hg]
      simp [roaring.Bitmap.mem_Add, hk]
    · rw [if_neg hk]
      simp [hk]
  | none =>
    simp only [Add, get, hg, btree.Get_ReplaceOrInsert]
    by_cases hk : (splitHiLo w).1 = (splitHiLo v).1
    · rw [if_pos hk, hk, hg]
      simp [roaring.Bitmap.mem_BitmapOf_single]
    · rw [if_neg hk]
      simp [hk]

/-- C1. `New()` contains no value, and after `s.Add(v)` a 64-bit value `w` is
contained exactly when `w = v` or `w` was contained before, for every state `s`
(reachable or not) and wherever the high 32 bits of `v` fall. -/
theorem Add_Contains (s : BTreemap) (v w : Nat) (hv : v < 2 ^ 64) (hw : w < 2 ^ 64) :
    (New []).Contains w = false ∧
      ((s.Add v).Contains w = true ↔ w = v ∨ s.Contains w = true) :=
  ⟨rfl, Contains_Add_iff s v w hv hw⟩

theorem Add_Contains_witness :
    (New []).Contains (2 ^ 32) = false ∧
      (((New [3, 2 ^ 32 - 1]).Add (2 ^ 32)).Contains (2 ^ 32) = true ↔
        2 ^ 32 = 2 ^ 32 ∨ (New [3, 2 ^ 32 - 1]).Contains (2 ^ 32) = true) :=
  Add_Contains (New [3, 2 ^ 32 - 1]) (2 ^ 32) (2 ^ 32) (by decide) (by decide)

end BTreemap

/-! ## The order of the index; `Contains` after `Remove` -/

namespace btree

theorem Ordered_map {t : BTree} (ht : Ordered t) (g : keyedBitmap → keyedBitmap)
    (hg : ∀ x, (g x).HighBits = x.HighBits) : Ordered (t.map g) := by
  unfold Ordered
  rw [List.pairwise_map]
  exact ht.imp (fun {a b} h => by rw [hg, hg]; exact h)

theorem Ordered_mutate {t : BTree} (ht : Ordered t) (key : Nat)
    (f : roaring.Bitmap → roaring.Bitmap) : Ordered (mutate t key f) :=
  Ordered_map ht _ (fun x => by split_ifs <;> rfl)

theorem mem_mutate {t : BTree} {key : Nat} {f : roaring.Bitmap → roaring.Bitmap}
    {x : keyedBitmap} (hx : x ∈ mutate t key f) :
    ∃ y ∈ t, x.HighBits = y.HighBits ∧ (x.Bitmap = y.Bitmap ∨ x.Bitmap = f y.Bitmap) := by
  unfold mutate at hx
  obtain ⟨y, hy, rfl⟩ := List.mem_map.1 hx
  refine ⟨y, hy, ?_⟩
  split_ifs
  · exact ⟨rfl, Or.inr rfl⟩
  · exact ⟨rfl, Or.inl rfl⟩

theorem mem_ReplaceOrInsert {t : BTree} {item x : keyedBitmap}
    (hx : x ∈ ReplaceOrInsert t item) : x = item ∨ x ∈ t := by
  induction t with
  | nil => simpa [ReplaceOrInsert] using hx
  | cons y rest ih =>
    unfold ReplaceOrInsert at hx
    split_ifs at hx with h1 h2
    · simpa using hx
    · rcases List.mem_cons.1 hx with rfl | hx
      · exact Or.inr (List.mem_cons_self _ _)
      · rcases ih hx with h | h
        · exact Or.inl h
        · exact Or.inr (List.mem_cons_of_mem _ h)
    · rcases List.mem_cons.1 hx with rfl | hx
      · exact Or.inl rfl
      · exact Or.inr (List.mem_cons_of_mem _ hx)

theorem Ordered_ReplaceOrInsert {t : BTree} (ht : Ordered t) (item : keyedBitmap) :
    Ordered (ReplaceOrInsert t item) := by
  induction t with
  | nil => simp [ReplaceOrInsert, Ordered]
  | cons y rest ih =>
    have hp := List.pairwise_cons.1 ht
    unfold ReplaceOrInsert
    split_ifs with h1 h2
    · refine List.pairwise_cons.2 ⟨?_, ht⟩
      intro a ha
      rcases List.mem_cons.1 ha with rfl | ha
      · exact h1
      · exact lt_trans h1 (hp.1 a ha)
    · refine List.pairwise_cons.2 ⟨?_, ih hp.2⟩
      intro a ha
      rcases mem_ReplaceOrInsert ha with rfl | ha
      · exact h2
      · exact hp.1 a ha
    · refine List.pairwise_cons.2 ⟨?_, hp.2⟩
      intro a ha
      have := hp.1 a ha
      omega

theorem Delete_sublist (t : BTree) (key : Nat) : (Delete t key).Sublist t := by
  induction t with
  | nil => exact List.Sublist.refl _
  | cons y rest ih =>
    unfold Delete
    split_ifs
    · exact ih.cons₂ y
    · exact List.Sublist.refl _
    · exact List.sublist_cons_self y rest

theorem Ordered_Delete {t : BTree} (ht : Ordered t) (key : Nat) : Ordered (Delete t key) :=
  List.Pairwise.sublist (Delete_sublist t key) ht

theorem foldl_Delete_sublist (rm : List Nat) (t : BTree) : (rm.foldl Delete t).Sublist t := by
  induction rm generalizing t with
  | nil => exact List.Sublist.refl _
  | cons k ks ih => exact (ih (Delete t k)).trans (Delete_sublist t k)

theorem Ordered_foldl_Delete {t : BTree} (ht : Ordered t) (rm : List Nat) :
    Ordered (rm.foldl Delete t) :=
  List.Pairwise.sublist (foldl_Delete_sublist rm t) ht

theorem Get_foldl_Delete (rm : List Nat) (t : BTree) (ht : Ordered t) (k : Nat) :
    Get (rm.foldl Delete t) k = if k ∈ rm then none else Get t k := by
  induction rm generalizing t with
  | nil => simp
  | cons r rs ih =>
    rw [List.foldl_cons, ih _ (Ordered_Delete ht r), Get_Delete t ht]
    by_cases h1 : k ∈ rs
    · simp [h1]
    · by_cases h2 : k = r
      · simp [h2]
      · simp [h1, h2]

end btree

namespace BTreemap

theorem WF_Add (s : BTreemap) (v : Nat) (h : s.WF) : (s.Add v).WF := by
  have hhi := splitHiLo_fst_lt v
  have hlo := splitHiLo_snd_lt v
  cases hg : btree.Get s.tree (splitHiLo v).1 with
  | some cur =>
    simp only [Add, get, hg, WF]
    refine ⟨btree.Ordered_mutate h.1 _ _, ?_⟩
    intro x hx
    obtain ⟨y, hy, hk, hb⟩ := btree.mem_mutate hx
    rw [hk]
    refine ⟨(h.2 y hy).1, ?_⟩
    rcases hb with hb | hb <;> rw [hb]
    · exact (h.2 y hy).2
    · exact roaring.Bitmap.WF_Add_val _ _ (h.2 y hy).2 hlo
  | none =>
    simp only [Add, get, hg, WF]
    refine ⟨btree.Ordered_ReplaceOrInsert h.1 _, ?_⟩
    intro x hx
    rcases btree.mem_ReplaceOrInsert hx with rfl | hx
    · exact ⟨hhi, roaring.Bitmap.WF_BitmapOf_single _ hlo⟩
    · exact h.2 x hx

theorem WF_AddMany (s : BTreemap) (vs : List Nat) (h : s.WF) : (s.AddMany vs).WF := by
  induction vs generalizing s with
  | nil => exact h
  | cons v rest ih => exact ih _ (WF_Add s v h)

theorem WF_New (vs : List Nat) : (New vs).WF := by
  have h0 : WF { tree := [], serializer := none } := ⟨List.Pairwise.nil, by simp⟩
  exact WF_AddMany _ vs h0

theorem Remove_of_absent (s : BTreemap) (v : Nat) (h : s.get (splitHiLo v).1 = none) :
    s.Remove v = s := by
  simp only [Remove, h]

theorem Contains_Remove_iff (s : BTreemap) (v w : Nat) (hs : s.WF) (hv : v < 2 ^ 64)
    (hw : w < 2 ^ 64) :
    (s.Remove v).Contains w = true ↔ w ≠ v ∧ s.Contains w = true := by
  have hsplit : w = v ↔ (splitHiLo w).1 = (splitHiLo v).1 ∧ (splitHiLo w).2 = (splitHiLo v).2 :=
    ⟨fun h => by subst h; exact ⟨rfl, rfl⟩, fun h => splitHiLo_inj w v hw hv h.1 h.2⟩
  rw [Contains_iff, Contains_iff, Ne, hsplit]
  cases hg : btree.Get s.tree (splitHiLo v).1 with
  | none =>
    simp only [Remove, get, hg]
    constructor
    · rintro ⟨bm, h1, h2⟩
      refine ⟨?_, bm, h1, h2⟩
      rintro ⟨h3, -⟩
      rw [h3, hg] at h1; cases h1
    · rintro ⟨-, h⟩; exact h
  | some cur =>
    simp only [Remove, get, hg]
    by_cases hk : (splitHiLo w).1 = (splitHiLo v).1
    · split_ifs with he
      · simp only [btree.Get_Delete _ (btree.Ordered_mutate hs.1 _ _), hk, if_true]
        rw [roaring.Bitmap.IsEmpty_iff] at he
        constructor
        · rintro ⟨bm, h1, -⟩; cases h1
        · rintro ⟨h1, bm, h2, h3⟩
          rw [hg] at h2
          rw [← Option.some.inj h2] at h3
          have : (splitHiLo w).2 ∈ (cur.Bitmap.Remove (splitHiLo v).2).vals :=
            (roaring.Bitmap.mem_Remove _ _ _).2 ⟨fun h => h1 ⟨trivial, h⟩, h3⟩
          rw [he] at this; cases this
      · simp only [btree.Get_mutate, hk, if_true, hg, Option.map_some']
        simp [roaring.Bitmap.mem_Remove]
    · split_ifs with he
      · simp only [btree.Get_Delete _ (btree.Ordered_mutate hs.1 _ _), btree.Get_mutate,
          if_neg hk]
        simp [hk]
      · simp only [btree.Get_mutate, if_neg hk]
        simp [hk]

/-- C2. After `s.Remove(v)` a 64-bit value `w` is contained exactly when `w ≠ v`
and `w` was contained before; when the index has no shard for the high bits of
`v` the call leaves `s` as it was. -/
theorem Remove_Contains (s : BTreemap) (v w : Nat) (hs : s.WF) (hv : v < 2 ^ 64)
    (hw : w < 2 ^ 64) :
    ((s.Remove v).Contains w = true ↔ w ≠ v ∧ s.Contains w = true) ∧
      (s.get (splitHiLo v).1 = none → s.Remove v = s) :=
  ⟨Contains_Remove_iff s v w hs hv hw, Remove_of_absent s v⟩

end BTreemap

/-! ## `ToArray`, `GetCardinality` and counting members -/

namespace btree

theorem Ascend_eq_foldl {σ : Type} (f : σ → keyedBitmap → σ) (t : BTree) (st : σ) :
    Ascend (fun s x => (f s x, true)) t st = t.foldl f st := by
  induction t generalizing st with
  | nil => rfl
  | cons y rest ih => simp only [Ascend, List.foldl_cons, ih]

theorem values_nil : values [] = [] := rfl

theorem values_cons (x : keyedBitmap) (t : BTree) :
    values (x :: t) = x.Bitmap.vals.map (fun lo => joinHiLo x.HighBits lo) ++ values t := by
  simp [values]

theorem foldl_append_values (t : BTree) (res : List Nat) :
    t.foldl (fun r bm => r ++ bm.Bitmap.Iterate.map (fun x => joinHiLo bm.HighBits x)) res
      = res ++ values t := by
  induction t generalizing res with
  | nil => simp [values_nil]
  | cons y rest ih =>
    rw [List.foldl_cons, ih, values_cons, List.append_assoc]
    rfl

theorem foldl_card (t : BTree) (card : Nat) (hc : card < 2 ^ 64) :
    t.foldl (fun c bm =>
        if bm.Bitmap.IsEmpty then c else (c + bm.Bitmap.GetCardinality) % 2 ^ 64) card
      = (card + (values t).length) % 2 ^ 64 := by
  induction t generalizing card with
  | nil =>
    simp only [List.foldl_nil, values_nil, List.length_nil, Nat.add_zero]
    exact (Nat.mod_eq_of_lt hc).symm
  | cons y rest ih =>
    rw [List.foldl_cons, values_cons, List.length_append, List.length_map]
    by_cases he : y.Bitmap.IsEmpty = true
    · rw [if_pos he, ih card hc]
      rw [roaring.Bitmap.IsEmpty_iff] at he
      simp [he]
    · rw [if_neg he, ih _ (Nat.mod_lt _ (by norm_num))]
      simp only [roaring.Bitmap.GetCardinality]
      rw [Nat.mod_add_mod, Nat.add_assoc]

end btree

namespace BTreemap

theorem ToArray_eq (s : BTreemap) : s.ToArray = btree.values s.tree := by
  unfold ToArray forEachBitmap
  rw [btree.Ascend_eq_foldl (fun r bm =>
    r ++ bm.Bitmap.Iterate.map (fun x => joinHiLo bm.HighBits x)), btree.foldl_append_values]
  rfl

theorem GetCardinality_eq (s : BTreemap) :
    s.GetCardinality = (btree.values s.tree).length % 2 ^ 64 := by
  unfold GetCardinality forEachBitmap
  have h : (fun (card : Nat) (bm : keyedBitmap) =>
      if bm.Bitmap.IsEmpty = true then (card, true)
      else ((card + bm.Bitmap.GetCardinality) % 2 ^ 64, true))
      = (fun card bm => ((if bm.Bitmap.IsEmpty then card
          else (card + bm.Bitmap.GetCardinality) % 2 ^ 64), true)) := by
    funext card bm
    split_ifs <;> rfl
  rw [h, btree.Ascend_eq_foldl (fun card bm => if bm.Bitmap.IsEmpty then card
          else (card + bm.Bitmap.GetCardinality) % 2 ^ 64), btree.foldl_card _ _ (by norm_num)]
  simp

theorem mem_values (s : BTreemap) (hs : s.WF) (w : Nat) :
    w ∈ btree.values s.tree ↔ w < 2 ^ 64 ∧ s.Contains w = true := by
  rw [Contains_iff]
  unfold btree.values
  rw [List.mem_flatMap]
  constructor
  · rintro ⟨x, hx, hw⟩
    obtain ⟨lo, hlo, rfl⟩ := List.mem_map.1 hw
    have hxk := (hs.2 x hx).1
    have hlo32 := (hs.2 x hx).2.2 lo hlo
    have hsp := splitHiLo_joinHiLo x.HighBits lo hxk hlo32
    refine ⟨by rw [joinHiLo_eq _ _ hxk hlo32]; omega, x, ?_, ?_⟩
    · rw [hsp]; exact btree.Get_of_mem hs.1 hx
    · rw [hsp]; exact hlo
  · rintro ⟨hw, bm, hg, hlo⟩
    refine ⟨bm, btree.Get_mem hg, List.mem_map.2 ⟨(splitHiLo w).2, hlo, ?_⟩⟩
    rw [btree.Get_key hg]
    exact joinHiLo_splitHiLo w hw

theorem joinHiLo_lt_of_key_lt {k1 k2 a b : Nat} (hk : k1 < k2) (h2 : k2 < 2 ^ 32)
    (ha : a < 2 ^ 32) (hb : b < 2 ^ 32) : joinHiLo k1 a < joinHiLo k2 b := by
  rw [joinHiLo_eq _ _ (by omega) ha, joinHiLo_eq _ _ h2 hb]
  omega

theorem values_sorted (s : BTreemap) (hs : s.WF) :
    (btree.values s.tree).Pairwise (· < ·) := by
  unfold btree.values
  rw [List.pairwise_flatMap]
  constructor
  · intro x hx
    rw [List.pairwise_map]
    have hw := (hs.2 x hx)
    refine List.Pairwise.imp_of_mem ?_ hw.2.1
    intro a b ha hb hab
    rw [joinHiLo_eq _ _ hw.1 (hw.2.2 a ha), joinHiLo_eq _ _ hw.1 (hw.2.2 b hb)]
    omega
  · refine List.Pairwise.imp_of_mem ?_ hs.1
    intro x y hx hy hxy a ha b hb
    obtain ⟨lo1, hlo1, rfl⟩ := List.mem_map.1 ha
    obtain ⟨lo2, hlo2, rfl⟩ := List.mem_map.1 hb
    exact joinHiLo_lt_of_key_lt hxy (hs.2 y hy).1 ((hs.2 x hx).2.2 _ hlo1)
      ((hs.2 y hy).2.2 _ hlo2)

theorem values_nodup (s : BTreemap) (hs : s.WF) : (btree.values s.tree).Nodup :=
  (values_sorted s hs).imp (fun h => Nat.ne_of_lt h)

theorem count64_eq (s : BTreemap) (hs : s.WF) (p : Nat → Prop) [DecidablePred p] :
    count64 (fun w => s.Contains w = true ∧ p w)
      = ((btree.values s.tree).filter (fun w => decide (p w))).length := by
  have hfin : (Finset.range (2 ^ 64)).filter (fun w => s.Contains w = true ∧ p w)
      = ((btree.values s.tree).filter (fun w => decide (p w))).toFinset := by
    ext w
    simp only [Finset.mem_filter, Finset.mem_range, List.mem_toFinset, List.mem_filter,
      mem_values s hs, decide_eq_true_eq]
    tauto
  rw [← List.toFinset_card_of_nodup ((values_nodup s hs).filter _), ← hfin]
  rfl

theorem Contains_AddMany_iff (s : BTreemap) (vs : List Nat) (w : Nat)
    (hvs : ∀ v ∈ vs, v < 2 ^ 64) (hw : w < 2 ^ 64) :
    (s.AddMany vs).Contains w = true ↔ w ∈ vs ∨ s.Contains w = true := by
  induction vs generalizing s with
  | nil => simp [AddMany]
  | cons v rest ih =>
    have h1 := ih (s.Add v) (fun x hx => hvs x (List.mem_cons_of_mem _ hx))
    unfold AddMany at h1 ⊢
    rw [List.foldl_cons, h1, Contains_Add_iff s v w (hvs v (List.mem_cons_self _ _)) hw,
      List.mem_cons]
    tauto

theorem Contains_New_iff (vs : List Nat) (w : Nat)
    (hvs : ∀ v ∈ vs, v < 2 ^ 64) (hw : w < 2 ^ 64) :
    (New vs).Contains w = true ↔ w ∈ vs := by
  have h := Contains_AddMany_iff { tree := [], serializer := none } vs w hvs hw
  have h0 : Contains { tree := [], serializer := none } w = false := rfl
  rw [h0] at h
  simpa using h

/-- C3. For a list of 64-bit values with fewer than `2 ^ 64` distinct elements,
`GetCardinality()` of `New(values...)` is the number of distinct values. -/
theorem GetCardinality_New (values : List Nat) (hvs : ∀ v ∈ values, v < 2 ^ 64)
    (hd : values.toFinset.card < 2 ^ 64) :
    (New values).GetCardinality = values.toFinset.card := by
  have hwf := WF_New values
  have hset : (btree.values (New values).tree).toFinset = values.toFinset := by
    ext w
    rw [List.mem_toFinset, List.mem_toFinset, mem_values _ hwf]
    constructor
    · rintro ⟨hw, hc⟩; exact (Contains_New_iff values w hvs hw).1 hc
    · intro hw; exact ⟨hvs w hw, (Contains_New_iff values w hvs (hvs w hw)).2 hw⟩
  rw [GetCardinality_eq, ← List.toFinset_card_of_nodup (values_nodup _ hwf), hset,
    Nat.mod_eq_of_lt hd]

theorem GetCardinality_New_witness :
    (New [1, 2 ^ 64 - 1, 1, 2 ^ 32]).GetCardinality = [1, 2 ^ 64 - 1, 1, 2 ^ 32].toFinset.card :=
  GetCardinality_New [1, 2 ^ 64 - 1, 1, 2 ^ 32] (by decide) (by decide)

end BTreemap

/-! ## `Rank` -/

theorem length_le_of_sorted_lt {l : List Nat} {n : Nat} (hs : l.Pairwise (· < ·))
    (hb : ∀ x ∈ l, x < n) : l.length ≤ n := by
  have hnd : l.Nodup := hs.imp (fun h => Nat.ne_of_lt h)
  rw [← List.toFinset_card_of_nodup hnd]
  calc l.toFinset.card ≤ (Finset.range n).card :=
        Finset.card_le_card (fun x hx => Finset.mem_range.2 (hb x (List.mem_toFinset.1 hx)))
    _ = n := Finset.card_range n

theorem filter_lt_length_of_getElem? {l : List Nat} (hs : l.Pairwise (· < ·)) {k v : Nat}
    (hk : l[k]? = some v) : (l.filter (fun w => decide (w < v))).length = k := by
  induction l generalizing k with
  | nil => simp at hk
  | cons a rest ih =>
    have hp := List.pairwise_cons.1 hs
    cases k with
    | zero =>
      simp only [List.getElem?_cons_zero, Option.some.injEq] at hk
      subst hk
      rw [List.filter_cons_of_neg (by simp)]
      rw [List.length_eq_zero, List.filter_eq_nil_iff]
      intro x hx
      have := hp.1 x hx
      simp only [decide_eq_true_eq]; omega
    | succ j =>
      simp only [List.getElem?_cons_succ] at hk
      have hv : v ∈ rest := List.getElem?_mem hk
      have := hp.1 v hv
      rw [List.filter_cons_of_pos (by simpa using this), List.length_cons, ih hp.2 hk]

theorem filter_le_length_of_getElem? {l : List Nat} (hs : l.Pairwise (· < ·)) {k v : Nat}
    (hk : l[k]? = some v) : (l.filter (fun w => decide (w ≤ v))).length = k + 1 := by
  induction l generalizing k with
  | nil => simp at hk
  | cons a rest ih =>
    have hp := List.pairwise_cons.1 hs
    cases k with
    | zero =>
      simp only [List.getElem?_cons_zero, Option.some.injEq] at hk
      subst hk
      rw [List.filter_cons_of_pos (by simp), List.length_cons]
      have : rest.filter (fun w => decide (w ≤ a)) = [] := by
        rw [List.filter_eq_nil_iff]
        intro x hx
        have := hp.1 x hx
        simp only [decide_eq_true_eq]; omega
      rw [this]; rfl
    | succ j =>
      simp only [List.getElem?_cons_succ] at hk
      have hv : v ∈ rest := List.getElem?_mem hk
      have := hp.1 v hv
      rw [List.filter_cons_of_pos (by simp only [decide_eq_true_eq]; omega), List.length_cons,
        ih hp.2 hk]

namespace btree

/-- Items of an index satisfy the bounds of the representation invariant. -/
theorem values_filter_le_of_key_gt (t : BTree) (hi : Nat) {v : Nat} (hv : v < (hi + 1) * 2 ^ 32)
    (ht : ∀ x ∈ t, hi < x.HighBits ∧ x.HighBits < 2 ^ 32 ∧ x.Bitmap.WF) :
    (values t).filter (fun w => decide (w ≤ v)) = [] := by
  rw [List.filter_eq_nil_iff]
  intro w hw
  unfold values at hw
  obtain ⟨x, hx, hw⟩ := List.mem_flatMap.1 hw
  obtain ⟨lo, hlo, rfl⟩ := List.mem_map.1 hw
  have h := ht x hx
  rw [joinHiLo_eq _ _ h.2.1 (h.2.2.2 lo hlo)]
  simp only [decide_eq_true_eq, not_le]
  calc v < (hi + 1) * 2 ^ 32 := hv
    _ ≤ x.HighBits * 2 ^ 32 := Nat.mul_le_mul_right _ h.1
    _ ≤ x.HighBits * 2 ^ 32 + lo := Nat.le_add_right _ _

end btree

namespace BTreemap

theorem Rank_walk (hi lo : Nat) (hlo : lo < 2 ^ 32) (t : btree.BTree) (ht : btree.Ordered t)
    (hw : ∀ x ∈ t, x.HighBits < 2 ^ 32 ∧ x.Bitmap.WF) (acc : Nat) (hacc : acc < 2 ^ 64) :
    btree.Ascend
      (fun result bm =>
        if bm.HighBits > hi then (result, false)
        else if bm.HighBits < hi then ((result + bm.Bitmap.GetCardinality) % 2 ^ 64, true)
        else ((result + bm.Bitmap.Rank lo) % 2 ^ 64, false)) t acc
      = (acc + ((btree.values t).filter (fun w => decide (w ≤ hi * 2 ^ 32 + lo))).length)
          % 2 ^ 64 := by
  induction t generalizing acc with
  | nil =>
    simp only [btree.Ascend, btree.values_nil, List.filter_nil, List.length_nil, Nat.add_zero]
    exact (Nat.mod_eq_of_lt hacc).symm
  | cons x rest ih =>
    have hp := List.pairwise_cons.1 ht
    have hx := hw x (List.mem_cons_self _ _)
    have hrest : ∀ y ∈ rest, y.HighBits < 2 ^ 32 ∧ y.Bitmap.WF :=
      fun y hy => hw y (List.mem_cons_of_mem _ hy)
    by_cases h1 : x.HighBits > hi
    · simp only [btree.Ascend, if_pos h1]
      rw [btree.values_filter_le_of_key_gt (x :: rest) hi (by omega)]
      · simp only [List.length_nil, Nat.add_zero]
        exact (Nat.mod_eq_of_lt hacc).symm
      · intro y hy
        rcases List.mem_cons.1 hy with rfl | hy
        · exact ⟨h1, hx⟩
        · exact ⟨lt_trans h1 (hp.1 y hy), hrest y hy⟩
    · by_cases h2 : x.HighBits < hi
      · simp only [btree.Ascend, if_neg h1, if_pos h2]
        rw [ih hp.2 hrest _ (Nat.mod_lt _ (by norm_num)), btree.values_cons, List.filter_append,
          List.length_append]
        have hall : (x.Bitmap.vals.map (fun lo => joinHiLo x.HighBits lo)).filter
            (fun w => decide (w ≤ hi * 2 ^ 32 + lo))
            = x.Bitmap.vals.map (fun lo => joinHiLo x.HighBits lo) := by
          rw [List.filter_eq_self]
          intro w hw
          obtain ⟨l, hl, rfl⟩ := List.mem_map.1 hw
          rw [joinHiLo_eq _ _ hx.1 (hx.2.2 l hl)]
          have := hx.2.2 l hl
          simp only [decide_eq_true_eq]
          calc x.HighBits * 2 ^ 32 + l ≤ x.HighBits * 2 ^ 32 + 2 ^ 32 := by omega
            _ = (x.HighBits + 1) * 2 ^ 32 := by ring
            _ ≤ hi * 2 ^ 32 := Nat.mul_le_mul_right _ h2
            _ ≤ hi * 2 ^ 32 + lo := Nat.le_add_right _ _
        rw [hall, List.length_map, roaring.Bitmap.GetCardinality, Nat.mod_add_mod, Nat.add_assoc]
      · have hk : x.HighBits = hi := by omega
        simp only [btree.Ascend, if_neg h1, if_neg h2]
        rw [btree.values_cons, List.filter_append, List.length_append]
        rw [btree.values_filter_le_of_key_gt rest hi (by omega)
          (fun y hy => ⟨by have := hp.1 y hy; omega, hrest y hy⟩)]
        have hsame : ((x.Bitmap.vals.map (fun lo => joinHiLo x.HighBits lo)).filter
            (fun w => decide (w ≤ hi * 2 ^ 32 + lo))).length = x.Bitmap.Rank lo := by
          rw [List.filter_map, List.length_map]
          unfold roaring.Bitmap.Rank
          congr 1
          apply List.filter_congr
          intro l hl
          simp only [Function.comp, decide_eq_decide]
          rw [joinHiLo_eq _ _ hx.1 (hx.2.2 l hl), hk]
          omega
        rw [hsame]; simp

theorem Rank_eq (s : BTreemap) (hs : s.WF) (v : Nat) (hv : v < 2 ^ 64) :
    s.Rank v = ((btree.values s.tree).filter (fun w => decide (w ≤ v))).length % 2 ^ 64 := by
  unfold Rank forEachBitmap
  simp only
  rw [Rank_walk _ _ (splitHiLo_snd_lt v) s.tree hs.1 hs.2 0 (by norm_num)]
  have : (splitHiLo v).1 * 2 ^ 32 + (splitHiLo v).2 = v := by
    rw [← joinHiLo_eq _ _ (splitHiLo_fst_lt v) (splitHiLo_snd_lt v)]
    exact joinHiLo_splitHiLo v hv
  rw [this, Nat.zero_add]

theorem Rank_eq_count (s : BTreemap) (hs : s.WF) (v : Nat) (hv : v < 2 ^ 64) :
    s.Rank v = count64 (fun w => s.Contains w = true ∧ w ≤ v) % 2 ^ 64 := by
  rw [Rank_eq s hs v hv, count64_eq s hs]

end BTreemap

/-! ## `Select` -/

namespace BTreemap

theorem Select_walk (t : btree.BTree) (hw : ∀ x ∈ t, x.HighBits < 2 ^ 32 ∧ x.Bitmap.WF)
    (st : SelectVars) (hk : st.value < (btree.values t).length) :
    ∃ v r, btree.Ascend
      (fun (st : SelectVars) bm =>
        if st.value ≥ bm.Bitmap.GetCardinality then
          ({ st with value := st.value - bm.Bitmap.GetCardinality }, true)
        else
          match bm.Bitmap.Select (st.value % 2 ^ 32) with
          | none => ({ st with failed := true }, false)
          | some v => ({ st with result := joinHiLo bm.HighBits v }, false)) t st
        = { value := r, result := v, failed := st.failed } ∧
      (btree.values t)[st.value]? = some v ∧ r < 2 ^ 32 := by
  induction t generalizing st with
  | nil => simp [btree.values_nil] at hk
  | cons x rest ih =>
    have hx := hw x (List.mem_cons_self _ _)
    have hrest : ∀ y ∈ rest, y.HighBits < 2 ^ 32 ∧ y.Bitmap.WF :=
      fun y hy => hw y (List.mem_cons_of_mem _ hy)
    rw [btree.values_cons, List.length_append, List.length_map] at hk
    by_cases h1 : st.value ≥ x.Bitmap.GetCardinality
    · simp only [btree.Ascend, if_pos h1]
      unfold roaring.Bitmap.GetCardinality at h1
      obtain ⟨v, r, h2, h3, h4⟩ := ih hrest
        { st with value := st.value - x.Bitmap.GetCardinality }
        (by simp only [roaring.Bitmap.GetCardinality]; omega)
      refine ⟨v, r, h2, ?_, h4⟩
      rw [btree.values_cons, List.getElem?_append_right (by simpa using h1), List.length_map]
      exact h3
    · simp only [btree.Ascend, if_neg h1]
      unfold roaring.Bitmap.GetCardinality at h1
      have hlen : x.Bitmap.vals.length ≤ 2 ^ 32 := length_le_of_sorted_lt hx.2.1 hx.2.2
      have hlt : st.value < x.Bitmap.vals.length := by omega
      have hmod : st.value % 2 ^ 32 = st.value := Nat.mod_eq_of_lt (by omega)
      have hsel : x.Bitmap.Select (st.value % 2 ^ 32) = some (x.Bitmap.vals[st.value]) := by
        rw [hmod]; unfold roaring.Bitmap.Select
        exact List.getElem?_eq_getElem hlt
      rw [hsel]
      refine ⟨joinHiLo x.HighBits (x.Bitmap.vals[st.value]), st.value, rfl, ?_, by omega⟩
      rw [btree.values_cons, List.getElem?_append_left (by simpa using hlt), List.getElem?_map,
        List.getElem?_eq_getElem hlt]
      rfl

theorem SelectWalk_eq (s : BTreemap) (hs : s.WF) (k : Nat)
    (hk : k < (btree.values s.tree).length) :
    ∃ v r, s.SelectWalk k = { value := r, result := v, failed := false } ∧
      (btree.values s.tree)[k]? = some v ∧ r < 2 ^ 32 :=
  Select_walk s.tree hs.2 { value := k, result := 0, failed := false } hk

theorem GetCardinality_le (s : BTreemap) : s.GetCardinality ≤ (btree.values s.tree).length := by
  rw [GetCardinality_eq]; exact Nat.mod_le _ _

theorem GetCardinality_lt (s : BTreemap) : s.GetCardinality < 2 ^ 64 := by
  rw [GetCardinality_eq]; exact Nat.mod_lt _ (by norm_num)

theorem Select_ok (s : BTreemap) (hs : s.WF) (k : Nat) (hk : k < s.GetCardinality) :
    ∃ v, s.Select k = .ok v ∧ (btree.values s.tree)[k]? = some v ∧
      (s.SelectWalk k).value < 2 ^ 32 := by
  obtain ⟨v, r, h1, h2, h3⟩ := SelectWalk_eq s hs k (lt_of_lt_of_le hk (GetCardinality_le s))
  refine ⟨v, ?_, h2, by rw [h1]; exact h3⟩
  unfold Select
  simp only [if_neg (not_le.2 hk), h1]
  rfl

/-- C9. `s.Select(k)` is an error exactly when `k ≥ s.GetCardinality()`;
otherwise it returns the element at index `k` of `s.ToArray()`, which is a
member with exactly `k` members below it, and the residual index that the walk
hands to the container is unchanged by the `uint32` conversion. -/
theorem Select_spec (s : BTreemap) (hs : s.WF) (k : Nat) :
    ((∃ e, s.Select k = .error e) ↔ s.GetCardinality ≤ k) ∧
      (k < s.GetCardinality →
        ∃ v, s.Select k = .ok v ∧ s.ToArray[k]? = some v ∧
          s.Contains v = true ∧ count64 (fun w => s.Contains w = true ∧ w < v) = k ∧
          (s.SelectWalk k).value % 2 ^ 32 = (s.SelectWalk k).value) := by
  constructor
  · constructor
    · rintro ⟨e, he⟩
      by_contra hlt
      obtain ⟨v, hv, -⟩ := Select_ok s hs k (not_le.1 hlt)
      rw [hv] at he; cases he
    · intro hle
      refine ⟨{ index := k, size := s.GetCardinality }, ?_⟩
      unfold Select
      simp only [if_pos hle]
  · intro hk
    obtain ⟨v, h1, h2, h3⟩ := Select_ok s hs k hk
    refine ⟨v, h1, by rw [ToArray_eq]; exact h2, ?_, ?_, Nat.mod_eq_of_lt h3⟩
    · exact ((mem_values s hs v).1 (List.getElem?_mem h2)).2
    · rw [count64_eq s hs]
      exact filter_lt_length_of_getElem? (values_sorted s hs) h2

theorem Select_spec_witness :
    ((∃ e, (New [joinHiLo 0 0, joinHiLo 2 2, joinHiLo 4 4]).Select 1 = .error e) ↔
        (New [joinHiLo 0 0, joinHiLo 2 2, joinHiLo 4 4]).GetCardinality ≤ 1) ∧
      (1 < (New [joinHiLo 0 0, joinHiLo 2 2, joinHiLo 4 4]).GetCardinality →
        ∃ v, (New [joinHiLo 0 0, joinHiLo 2 2, joinHiLo 4 4]).Select 1 = .ok v ∧
          (New [joinHiLo 0 0, joinHiLo 2 2, joinHiLo 4 4]).ToArray[1]? = some v ∧
          (New [joinHiLo 0 0, joinHiLo 2 2, joinHiLo 4 4]).Contains v = true ∧
          count64 (fun w =>
            (New [joinHiLo 0 0, joinHiLo 2 2, joinHiLo 4 4]).Contains w = true ∧ w < v) = 1 ∧
          ((New [joinHiLo 0 0, joinHiLo 2 2, joinHiLo 4 4]).SelectWalk 1).value % 2 ^ 32
            = ((New [joinHiLo 0 0, joinHiLo 2 2, joinHiLo 4 4]).SelectWalk 1).value) :=
  Select_spec (New [joinHiLo 0 0, joinHiLo 2 2, joinHiLo 4 4]) (WF_New _) 1

/-- C10, amended. For `k < s.GetCardinality()`, `s.Select(k)` returns a value
`v` with `s.Rank(v) = k + 1`. -/
theorem Rank_Select (s : BTreemap) (hs : s.WF) (k : Nat) (hk : k < s.GetCardinality) :
    ∃ v, s.Select k = .ok v ∧ s.Rank v = k + 1 := by
  obtain ⟨v, h1, h2, -⟩ := Select_ok s hs k hk
  refine ⟨v, h1, ?_⟩
  have hv : v < 2 ^ 64 := ((mem_values s hs v).1 (List.getElem?_mem h2)).1
  rw [Rank_eq s hs v hv, filter_le_length_of_getElem? (values_sorted s hs) h2]
  have := GetCardinality_lt s
  exact Nat.mod_eq_of_lt (by omega)

theorem Rank_Select_witness :
    ∃ v, (New [5, 2 ^ 40]).Select 1 = .ok v ∧ (New [5, 2 ^ 40]).Rank v = 1 + 1 :=
  Rank_Select (New [5, 2 ^ 40]) (WF_New _) 1 (by decide)

theorem Rank_Select_counterexample :
    0 < (New [5]).GetCardinality ∧ (New [5]).Select 0 = .ok 5 ∧ (New [5]).Rank 5 ≠ 0 := by
  refine ⟨by decide, rfl, by decide⟩

end BTreemap

/-! ## `And` -/

namespace btree

theorem AscendMut_marks {cb : List Nat → keyedBitmap → List Nat × roaring.Bitmap × Bool}
    (r : keyedBitmap → Bool) (g : keyedBitmap → roaring.Bitmap)
    (hcb : ∀ st x, cb st x = (if r x then st ++ [x.HighBits] else st, g x, true))
    (t : BTree) (acc : List Nat) :
    AscendMut cb t acc
      = (acc ++ (t.filter r).map (fun x => x.HighBits),
          t.map (fun x => { x with Bitmap := g x })) := by
  induction t generalizing acc with
  | nil => simp [AscendMut]
  | cons x rest ih =>
    simp only [AscendMut, hcb, ih, List.map_cons]
    by_cases hr : r x = true
    · simp [hr]
    · simp [hr]

theorem AscendMut_unit {cb : Unit → keyedBitmap → Unit × roaring.Bitmap × Bool}
    (g : keyedBitmap → roaring.Bitmap) (hcb : ∀ st x, cb st x = ((), g x, true))
    (t : BTree) (st : Unit) :
    (AscendMut cb t st).2 = t.map (fun x => { x with Bitmap := g x }) := by
  induction t generalizing st with
  | nil => simp [AscendMut]
  | cons x rest ih => simp only [AscendMut, hcb, ih, List.map_cons]

theorem Ordered_map_bitmap {t : BTree} (ht : Ordered t) (g : keyedBitmap → roaring.Bitmap) :
    Ordered (t.map (fun x => { x with Bitmap := g x })) :=
  Ordered_map ht (fun x => { x with Bitmap := g x }) (fun _ => rfl)

theorem Get_map_bitmap (t : BTree) (g : keyedBitmap → roaring.Bitmap) (k : Nat) :
    Get (t.map (fun x => { x with Bitmap := g x })) k
      = (Get t k).map (fun x => { x with Bitmap := g x }) :=
  Get_map t (fun x => { x with Bitmap := g x }) (fun _ => rfl) k

theorem eq_of_mem_of_key {t : BTree} (ht : Ordered t) {x y : keyedBitmap} (hx : x ∈ t)
    (hy : y ∈ t) (h : x.HighBits = y.HighBits) : x = y := by
  have h1 := Get_of_mem ht hx
  have h2 := Get_of_mem ht hy
  rw [h, h2] at h1
  exact (Option.some.inj h1).symm

end btree

namespace BTreemap

/-- Whether `And` marks an item of the receiver for removal. -/
theorem AndCallback_eq (other : BTreemap) (st : List Nat) (x : keyedBitmap) :
    AndCallback other st x
      = (if (match other.get x.HighBits with
              | none => true
              | some rbm => (x.Bitmap.And rbm.Bitmap).IsEmpty) = true
          then st ++ [x.HighBits] else st,
         (match other.get x.HighBits with
          | none => x.Bitmap
          | some rbm => x.Bitmap.And rbm.Bitmap), true) := by
  unfold AndCallback
  cases other.get x.HighBits with
  | none => rfl
  | some rbm =>
    simp only
    split_ifs <;> rfl

theorem Contains_And_iff (a b : BTreemap) (ha : a.WF) (w : Nat) :
    (a.And b).Contains w = true ↔ a.Contains w = true ∧ b.Contains w = true := by
  rw [Contains_iff, Contains_iff, Contains_iff]
  unfold And
  simp only [btree.AscendMut_marks _ _ (AndCallback_eq b), List.nil_append]
  rw [btree.Get_foldl_Delete _ _ (btree.Ordered_map_bitmap ha.1 _), btree.Get_map_bitmap]
  cases hga : btree.Get a.tree (splitHiLo w).1 with
  | none => simp
  | some x =>
    have hxk := btree.Get_key hga
    have hxm := btree.Get_mem hga
    have hmark : (splitHiLo w).1 ∈ (a.tree.filter (fun x =>
          match b.get x.HighBits with
          | none => true
          | some rbm => (x.Bitmap.And rbm.Bitmap).IsEmpty)).map (fun x => x.HighBits)
        ↔ (match b.get x.HighBits with
          | none => true
          | some rbm => (x.Bitmap.And rbm.Bitmap).IsEmpty) = true := by
      rw [List.mem_map]
      constructor
      · rintro ⟨y, hy, hyk⟩
        rw [List.mem_filter] at hy
        rw [← btree.eq_of_mem_of_key ha.1 hy.1 hxm (by rw [hyk, hxk])]
        exact hy.2
      · intro h
        exact ⟨x, List.mem_filter.2 ⟨hxm, h⟩, hxk⟩
    have hgb' : b.get x.HighBits = btree.Get b.tree (splitHiLo w).1 := by rw [hxk]; rfl
    rw [hgb'] at hmark
    cases hgb : btree.Get b.tree (splitHiLo w).1 with
    | none =>
      rw [hgb] at hmark
      rw [if_pos (hmark.2 rfl)]
      simp
    | some rbm =>
      rw [hgb] at hmark
      simp only at hmark
      by_cases he : (x.Bitmap.And rbm.Bitmap).IsEmpty = true
      · rw [if_pos (hmark.2 he)]
        rw [roaring.Bitmap.IsEmpty_iff] at he
        simp only [Option.some.injEq, exists_eq_left']
        constructor
        · rintro ⟨bm, h1, -⟩; cases h1
        · rintro ⟨h1, h2⟩
          have := (roaring.Bitmap.mem_And x.Bitmap rbm.Bitmap _).2 ⟨h1, h2⟩
          rw [he] at this; cases this
      · rw [if_neg (fun h => he (hmark.1 h))]
        simp only [Option.map_some', hgb', hgb, Option.some.injEq, exists_eq_left']
        exact roaring.Bitmap.mem_And _ _ _

end BTreemap

namespace Heap

theorem set_same (h : Heap) (p : Nat) (tm : BTreemap) : h.set p tm p = tm := by
  simp [set]

theorem set_other (h : Heap) (p q : Nat) (tm : BTreemap) (hne : q ≠ p) : h.set p tm q = h q := by
  simp [set, hne]

/-- C4. For distinct instances `a` and `b`: after `a.And(b)`, `a` contains `v`
exactly when both contained it before, and the membership of `b` is unchanged. -/
theorem And_Contains (h : Heap) (a b : Nat) (hab : a ≠ b) (ha : (h a).WF) (v : Nat) :
    ((h.And a b a).Contains v = true ↔ (h a).Contains v = true ∧ (h b).Contains v = true) ∧
      (h.And a b b).Contains v = (h b).Contains v := by
  unfold And
  rw [set_same, set_other _ _ _ _ (Ne.symm hab)]
  exact ⟨BTreemap.Contains_And_iff _ _ ha v, rfl⟩

end Heap

/-! ## `Or` -/

namespace BTreemap

/-- Membership of a low value in the shard of a high key. -/
theorem Get_exists_iff_of_mem (t : btree.BTree) (ht : btree.Ordered t) (hi lo : Nat) :
    (∃ bm, btree.Get t hi = some bm ∧ lo ∈ bm.Bitmap.vals)
      ↔ ∃ y ∈ t, y.HighBits = hi ∧ lo ∈ y.Bitmap.vals := by
  constructor
  · rintro ⟨bm, h1, h2⟩
    exact ⟨bm, btree.Get_mem h1, btree.Get_key h1, h2⟩
  · rintro ⟨y, h1, h2, h3⟩
    exact ⟨y, by rw [← h2]; exact btree.Get_of_mem ht h1, h3⟩

theorem OrCallback_snd (t : btree.BTree) (y : keyedBitmap) : (OrCallback t y).2 = true := by
  unfold OrCallback
  cases btree.Get t y.HighBits <;> rfl

theorem OrCallback_Get (t : btree.BTree) (y : keyedBitmap) (hi lo : Nat) :
    (∃ bm, btree.Get (OrCallback t y).1 hi = some bm ∧ lo ∈ bm.Bitmap.vals)
      ↔ (∃ bm, btree.Get t hi = some bm ∧ lo ∈ bm.Bitmap.vals)
        ∨ (y.HighBits = hi ∧ lo ∈ y.Bitmap.vals) := by
  unfold OrCallback
  cases hg : btree.Get t y.HighBits with
  | none =>
    simp only [btree.Get_ReplaceOrInsert]
    by_cases hk : hi = y.HighBits
    · subst hk
      simp [hg, keyedBitmap.ClonePtr, roaring.Bitmap.Clone]
    · have hk2 : ¬ y.HighBits = hi := fun h => hk h.symm
      simp [hk, hk2, keyedBitmap.ClonePtr]
  | some cur =>
    simp only [btree.Get_mutate]
    by_cases hk : hi = y.HighBits
    · subst hk
      simp [hg, roaring.Bitmap.mem_Or]
    · have hk2 : ¬ y.HighBits = hi := fun h => hk h.symm
      simp [hk, hk2]

theorem Or_walk (l t : btree.BTree) (hi lo : Nat) :
    (∃ bm, btree.Get (btree.Ascend OrCallback l t) hi = some bm ∧ lo ∈ bm.Bitmap.vals)
      ↔ (∃ bm, btree.Get t hi = some bm ∧ lo ∈ bm.Bitmap.vals)
        ∨ ∃ y ∈ l, y.HighBits = hi ∧ lo ∈ y.Bitmap.vals := by
  induction l generalizing t with
  | nil => simp [btree.Ascend]
  | cons y rest ih =>
    have h2 := OrCallback_snd t y
    rcases hc : OrCallback t y with ⟨t1, c⟩
    rw [hc] at h2
    simp only at h2
    subst h2
    have h1 := OrCallback_Get t y hi lo
    rw [hc] at h1
    simp only [btree.Ascend, hc]
    rw [ih, h1, List.exists_mem_cons_iff, or_assoc]

theorem Contains_Or_iff (a b : BTreemap) (hb : b.WF) (w : Nat) :
    (a.Or b).Contains w = true ↔ a.Contains w = true ∨ b.Contains w = true := by
  rw [Contains_iff, Contains_iff, Contains_iff]
  unfold Or forEachBitmap
  simp only
  rw [Or_walk, Get_exists_iff_of_mem b.tree hb.1]

end BTreemap

namespace Heap

/-- C5. For distinct instances `a` and `b`: after `a.Or(b)`, `a` contains `v`
exactly when `a` or `b` contained it before, and `b` is left as it was. -/
theorem Or_Contains (h : Heap) (a b : Nat) (hab : a ≠ b) (hb : (h b).WF) (v : Nat) :
    ((h.Or a b a).Contains v = true ↔ (h a).Contains v = true ∨ (h b).Contains v = true) ∧
      (h.Or a b b = h b) ∧ ∀ w, (h.Or a b b).Contains w = (h b).Contains w := by
  unfold Or
  rw [set_same, set_other _ _ _ _ (Ne.symm hab)]
  exact ⟨BTreemap.Contains_Or_iff _ _ hb v, rfl, fun _ => rfl⟩

end Heap

/-! ## `Xor` -/

namespace BTreemap

theorem xor_step (A B C D E : Prop) (h1 : D ↔ (A ∧ ¬B) ∨ (¬A ∧ B))
    (h2 : E ↔ (D ∧ ¬C) ∨ (¬D ∧ C)) (hex : ¬(B ∧ C)) :
    E ↔ (A ∧ ¬(B ∨ C)) ∨ (¬A ∧ (B ∨ C)) := by
  rw [h2, h1]
  by_cases hA : A <;> by_cases hB : B <;> by_cases hC : C <;> simp [hA, hB, hC] at hex ⊢

theorem XorCallback_snd (st : btree.BTree × List Nat) (y : keyedBitmap) :
    (XorCallback st y).2 = true := by
  unfold XorCallback
  cases btree.Get st.1 y.HighBits with
  | none => rfl
  | some cur => simp only; split_ifs <;> rfl

theorem XorCallback_tree (st : btree.BTree × List Nat) (y : keyedBitmap) :
    (XorCallback st y).1.1 =
      match btree.Get st.1 y.HighBits with
      | none => btree.ReplaceOrInsert st.1 y.ClonePtr
      | some _ => btree.mutate st.1 y.HighBits (fun c => c.Xor y.Bitmap) := by
  unfold XorCallback
  cases btree.Get st.1 y.HighBits with
  | none => rfl
  | some cur => simp only; split_ifs <;> rfl

theorem XorCallback_marks (st : btree.BTree × List Nat) (y : keyedBitmap) (k : Nat)
    (hk : k ∈ (XorCallback st y).1.2) :
    k ∈ st.2 ∨ (k = y.HighBits ∧
      ∃ cur, btree.Get st.1 y.HighBits = some cur ∧ (cur.Bitmap.Xor y.Bitmap).vals = []) := by
  unfold XorCallback at hk
  cases hg : btree.Get st.1 y.HighBits with
  | none => rw [hg] at hk; exact Or.inl hk
  | some cur =>
    rw [hg] at hk
    simp only at hk
    split_ifs at hk with he
    · rcases List.mem_append.1 hk with h | h
      · exact Or.inl h
      · exact Or.inr ⟨List.mem_singleton.1 h, cur, rfl, (roaring.Bitmap.IsEmpty_iff _).1 he⟩
    · exact Or.inl hk

theorem XorCallback_Ordered (st : btree.BTree × List Nat) (y : keyedBitmap)
    (ht : btree.Ordered st.1) : btree.Ordered (XorCallback st y).1.1 := by
  rw [XorCallback_tree]
  cases btree.Get st.1 y.HighBits with
  | none => exact btree.Ordered_ReplaceOrInsert ht _
  | some cur => exact btree.Ordered_mutate ht _ _

theorem XorCallback_Get_other (st : btree.BTree × List Nat) (y : keyedBitmap) (k : Nat)
    (hk : k ≠ y.HighBits) : btree.Get (XorCallback st y).1.1 k = btree.Get st.1 k := by
  rw [XorCallback_tree]
  cases btree.Get st.1 y.HighBits with
  | none =>
    simp only [btree.Get_ReplaceOrInsert, keyedBitmap.ClonePtr, if_neg hk]
  | some cur =>
    simp only [btree.Get_mutate, if_neg hk]

theorem XorCallback_Get (st : btree.BTree × List Nat) (y : keyedBitmap) (hi lo : Nat) :
    (∃ bm, btree.Get (XorCallback st y).1.1 hi = some bm ∧ lo ∈ bm.Bitmap.vals)
      ↔ ((∃ bm, btree.Get st.1 hi = some bm ∧ lo ∈ bm.Bitmap.vals)
            ∧ ¬(y.HighBits = hi ∧ lo ∈ y.Bitmap.vals))
        ∨ (¬(∃ bm, btree.Get st.1 hi = some bm ∧ lo ∈ bm.Bitmap.vals)
            ∧ (y.HighBits = hi ∧ lo ∈ y.Bitmap.vals)) := by
  rw [XorCallback_tree]
  cases hg : btree.Get st.1 y.HighBits with
  | none =>
    simp only [btree.Get_ReplaceOrInsert]
    by_cases hk : hi = y.HighBits
    · subst hk
      simp [hg, keyedBitmap.ClonePtr, roaring.Bitmap.Clone]
    · have hk2 : ¬ y.HighBits = hi := fun h => hk h.symm
      simp [hk, hk2, keyedBitmap.ClonePtr]
  | some cur =>
    simp only [btree.Get_mutate]
    by_cases hk : hi = y.HighBits
    · subst hk
      simp only [hg, roaring.Bitmap.mem_Xor, if_true, Option.map_some', Option.some.injEq,
        exists_eq_left', true_and]
      rw [and_comm (a := lo ∈ y.Bitmap.vals)]
    · have hk2 : ¬ y.HighBits = hi := fun h => hk h.symm
      simp [hk, hk2]

theorem Xor_walk (l : btree.BTree) (hl : btree.Ordered l) (st : btree.BTree × List Nat)
    (ht : btree.Ordered st.1) (hfresh : ∀ k ∈ st.2, ∀ y ∈ l, y.HighBits ≠ k)
    (hinv : ∀ k ∈ st.2, ∀ bm, btree.Get st.1 k = some bm → bm.Bitmap.vals = []) :
    btree.Ordered (btree.Ascend XorCallback l st).1 ∧
      (∀ k ∈ (btree.Ascend XorCallback l st).2, ∀ bm,
        btree.Get (btree.Ascend XorCallback l st).1 k = some bm → bm.Bitmap.vals = []) ∧
      ∀ hi lo,
        ((∃ bm, btree.Get (btree.Ascend XorCallback l st).1 hi = some bm ∧ lo ∈ bm.Bitmap.vals)
          ↔ ((∃ bm, btree.Get st.1 hi = some bm ∧ lo ∈ bm.Bitmap.vals)
                ∧ ¬(∃ y ∈ l, y.HighBits = hi ∧ lo ∈ y.Bitmap.vals))
            ∨ (¬(∃ bm, btree.Get st.1 hi = some bm ∧ lo ∈ bm.Bitmap.vals)
                ∧ (∃ y ∈ l, y.HighBits = hi ∧ lo ∈ y.Bitmap.vals))) := by
  induction l generalizing st with
  | nil =>
    refine ⟨ht, hinv, ?_⟩
    intro hi lo
    simp [btree.Ascend]
  | cons y rest ih =>
    have hp := List.pairwise_cons.1 hl
    have h2 := XorCallback_snd st y
    have hord := XorCallback_Ordered st y ht
    have hget := XorCallback_Get st y
    have hoth := XorCallback_Get_other st y
    have hmk := XorCallback_marks st y
    rcases hc : XorCallback st y with ⟨st1, c⟩
    rw [hc] at h2 hord hget hoth hmk
    simp only at h2 hord hget hoth hmk
    subst h2
    have hfresh1 : ∀ k ∈ st1.2, ∀ z ∈ rest, z.HighBits ≠ k := by
      intro k hk z hz
      rcases hmk k hk with h | ⟨h, -⟩
      · exact hfresh k h z (List.mem_cons_of_mem _ hz)
      · have := hp.1 z hz
        omega
    have hinv1 : ∀ k ∈ st1.2, ∀ bm, btree.Get st1.1 k = some bm → bm.Bitmap.vals = [] := by
      intro k hk bm hbm
      rcases hmk k hk with h | ⟨h, cur, hcur, he⟩
      · have hne : k ≠ y.HighBits := fun e => hfresh k h y (List.mem_cons_self _ _) e.symm
        rw [hoth k hne] at hbm
        exact hinv k h bm hbm
      · subst h
        have := XorCallback_tree st y
        rw [hc, hcur] at this
        simp only at this
        rw [this, btree.Get_mutate, if_pos rfl, hcur] at hbm
        simp only [Option.map_some', Option.some.injEq] at hbm
        rw [← hbm]
        exact he
    obtain ⟨i1, i2, i3⟩ := ih hp.2 st1 hord hfresh1 hinv1
    simp only [btree.Ascend, hc]
    refine ⟨i1, i2, ?_⟩
    intro hi lo
    have hex : ¬((y.HighBits = hi ∧ lo ∈ y.Bitmap.vals)
        ∧ ∃ z ∈ rest, z.HighBits = hi ∧ lo ∈ z.Bitmap.vals) := by
      rintro ⟨⟨h1, -⟩, z, hz, h3, -⟩
      have := hp.1 z hz
      omega
    have := xor_step _ _ _ _ _ (hget hi lo) (i3 hi lo) hex
    rw [this, List.exists_mem_cons_iff]

theorem Contains_Xor_iff (a b : BTreemap) (ha : a.WF) (hb : b.WF) (w : Nat) :
    (a.Xor b).Contains w = true ↔
      (a.Contains w = true ∧ ¬ b.Contains w = true) ∨
        (¬ a.Contains w = true ∧ b.Contains w = true) := by
  rw [Contains_iff, Contains_iff, Contains_iff]
  obtain ⟨h1, h2, h3⟩ := Xor_walk b.tree hb.1 (a.tree, []) ha.1 (by simp) (by simp)
  unfold Xor forEachBitmap
  simp only
  rw [btree.Get_foldl_Delete _ _ h1, Get_exists_iff_of_mem b.tree hb.1, ← h3]
  split_ifs with hm
  · constructor
    · rintro ⟨bm, h, -⟩; cases h
    · rintro ⟨bm, h, hlo⟩
      rw [h2 _ hm bm h] at hlo
      cases hlo
  · rfl

end BTreemap

namespace Heap

/-- C6. For distinct instances `a` and `b`: after `a.Xor(b)`, `a` contains `v`
exactly when exactly one of `a` and `b` contained it before; `b` is left as it
was. -/
theorem Xor_Contains (h : Heap) (a b : Nat) (hab : a ≠ b) (ha : (h a).WF) (hb : (h b).WF)
    (v : Nat) :
    ((h.Xor a b a).Contains v = true ↔
      ((h a).Contains v = true ∧ ¬ (h b).Contains v = true) ∨
        (¬ (h a).Contains v = true ∧ (h b).Contains v = true)) ∧
    (h.Xor a b b = h b) := by
  unfold Xor
  rw [set_same, set_other _ _ _ _ (Ne.symm hab)]
  exact ⟨BTreemap.Contains_Xor_iff _ _ ha hb v, rfl⟩

end Heap

/-! ## `AndNot`; the set of all 64-bit values -/

theorem count64_congr (p q : Nat → Prop) [DecidablePred p] [DecidablePred q]
    (h : ∀ w, w < 2 ^ 64 → (p w ↔ q w)) : count64 p = count64 q := by
  unfold count64
  rw [Finset.filter_congr (fun w hw => h w (Finset.mem_range.1 hw))]

namespace BTreemap

theorem AndNotCallback_eq (other : BTreemap) (st : Unit) (x : keyedBitmap) :
    AndNotCallback other st x
      = ((), (match other.get x.HighBits with
              | some obm => x.Bitmap.AndNot obm.Bitmap
              | none => x.Bitmap), true) := by
  unfold AndNotCallback
  cases other.get x.HighBits <;> rfl

theorem AndNot_tree (a b : BTreemap) :
    (a.AndNot b).tree = a.tree.map (fun x => { x with Bitmap :=
        (match b.get x.HighBits with
          | some obm => x.Bitmap.AndNot obm.Bitmap
          | none => x.Bitmap) }) := by
  unfold AndNot
  simp only [btree.AscendMut_unit _ (AndNotCallback_eq b)]

theorem WF_AndNot (a b : BTreemap) (ha : a.WF) : (a.AndNot b).WF := by
  unfold WF
  rw [AndNot_tree]
  refine ⟨btree.Ordered_map_bitmap ha.1 _, ?_⟩
  intro x hx
  obtain ⟨y, hy, rfl⟩ := List.mem_map.1 hx
  refine ⟨(ha.2 y hy).1, ?_⟩
  simp only
  cases b.get y.HighBits with
  | none => exact (ha.2 y hy).2
  | some obm => exact roaring.Bitmap.WF_AndNot_vals _ _ (ha.2 y hy).2

theorem Contains_AndNot_iff (a b : BTreemap) (w : Nat) :
    (a.AndNot b).Contains w = true ↔ a.Contains w = true ∧ ¬ b.Contains w = true := by
  rw [Contains_iff, Contains_iff, Contains_iff, AndNot_tree, btree.Get_map_bitmap]
  cases hga : btree.Get a.tree (splitHiLo w).1 with
  | none => simp
  | some x =>
    have hxk := btree.Get_key hga
    have hgb' : b.get x.HighBits = btree.Get b.tree (splitHiLo w).1 := by rw [hxk]; rfl
    simp only [Option.map_some', Option.some.injEq, exists_eq_left', hgb']
    cases hgb : btree.Get b.tree (splitHiLo w).1 with
    | none => simp
    | some obm =>
      simp only [Option.some.injEq, exists_eq_left']
      exact roaring.Bitmap.mem_AndNot _ _ _

theorem count64_Contains (s : BTreemap) (hs : s.WF) :
    count64 (fun w => s.Contains w = true) = (btree.values s.tree).length := by
  have h := count64_eq s hs (fun _ => True)
  have hf : (btree.values s.tree).filter (fun w => decide ((fun _ => True) w))
      = btree.values s.tree := by
    rw [List.filter_eq_self]; intro a _; simp
  rw [hf] at h
  rw [← h]
  exact count64_congr _ _ (fun w _ => by simp)

theorem GetCardinality_AndNot (a b : BTreemap) (ha : a.WF) :
    (a.AndNot b).GetCardinality
      = count64 (fun w => a.Contains w = true ∧ ¬ b.Contains w = true) % 2 ^ 64 := by
  rw [GetCardinality_eq, ← count64_Contains _ (WF_AndNot a b ha),
    count64_congr _ _ (fun w _ => Contains_AndNot_iff a b w)]

/-! ### The set of all 64-bit values -/

theorem tree_below (n m : Nat) :
    (below n m).tree
      = (List.range n).map (fun hi => { Bitmap := roaring.Bitmap.below m, HighBits := hi }) :=
  rfl

theorem WF_below (n m : Nat) (hn : n ≤ 2 ^ 32) (hm : m ≤ 2 ^ 32) : (below n m).WF := by
  unfold WF
  rw [tree_below]
  constructor
  · unfold btree.Ordered
    rw [List.pairwise_map]
    exact List.pairwise_lt_range n
  · intro x hx
    obtain ⟨hi, hhi, rfl⟩ := List.mem_map.1 hx
    rw [List.mem_range] at hhi
    refine ⟨by simp only; omega, ?_, ?_⟩
    · exact List.pairwise_lt_range m
    · intro y hy
      have : y < m := List.mem_range.1 hy
      omega

theorem values_length_below (n m : Nat) : (btree.values (below n m).tree).length = n * m := by
  rw [tree_below]
  unfold btree.values
  rw [List.length_flatMap, List.map_map]
  have : (List.length ∘ (fun x : keyedBitmap =>
        x.Bitmap.vals.map (fun lo => joinHiLo x.HighBits lo)))
      ∘ (fun hi => ({ Bitmap := roaring.Bitmap.below m, HighBits := hi } : keyedBitmap))
      = fun _ => m := by
    funext hi
    simp [roaring.Bitmap.below]
  rw [this, List.map_const', List.sum_replicate, List.length_range, smul_eq_mul]

theorem count64_below : count64 (fun w => (below (2 ^ 32) (2 ^ 32)).Contains w = true) = 2 ^ 64 := by
  rw [count64_Contains _ (WF_below _ _ le_rfl le_rfl), values_length_below]
  norm_num

end BTreemap

/-! ## `Rank` and `GetCardinality` wrap at `2 ^ 64`; instances of the theorems -/

namespace BTreemap

theorem Remove_Contains_witness :
    (((New [2 ^ 64 - 1, 7]).Remove (2 ^ 64 - 1)).Contains 7 = true ↔
        7 ≠ 2 ^ 64 - 1 ∧ (New [2 ^ 64 - 1, 7]).Contains 7 = true) ∧
      ((New [2 ^ 64 - 1, 7]).get (splitHiLo (2 ^ 64 - 1)).1 = none →
        (New [2 ^ 64 - 1, 7]).Remove (2 ^ 64 - 1) = New [2 ^ 64 - 1, 7]) :=
  Remove_Contains (New [2 ^ 64 - 1, 7]) (2 ^ 64 - 1) 7 (WF_New _) (by decide) (by decide)

/-- C8, amended. `s.Rank(v)` is the number of members of `s` that are at most
`v`, reduced modulo `2 ^ 64`; it is that number whenever the number is below
`2 ^ 64`. -/
theorem Rank_spec (s : BTreemap) (hs : s.WF) (v : Nat) (hv : v < 2 ^ 64) :
    s.Rank v = count64 (fun w => s.Contains w = true ∧ w ≤ v) % 2 ^ 64 ∧
      (count64 (fun w => s.Contains w = true ∧ w ≤ v) < 2 ^ 64 →
        s.Rank v = count64 (fun w => s.Contains w = true ∧ w ≤ v)) := by
  have h := Rank_eq_count s hs v hv
  exact ⟨h, fun hlt => by rw [h, Nat.mod_eq_of_lt hlt]⟩

theorem Rank_spec_witness :
    (New [joinHiLo 1 1, joinHiLo 3 3, joinHiLo 5 5]).Rank (joinHiLo 3 3)
        = count64 (fun w =>
            (New [joinHiLo 1 1, joinHiLo 3 3, joinHiLo 5 5]).Contains w = true
              ∧ w ≤ joinHiLo 3 3) % 2 ^ 64 ∧
      (count64 (fun w =>
            (New [joinHiLo 1 1, joinHiLo 3 3, joinHiLo 5 5]).Contains w = true
              ∧ w ≤ joinHiLo 3 3) < 2 ^ 64 →
        (New [joinHiLo 1 1, joinHiLo 3 3, joinHiLo 5 5]).Rank (joinHiLo 3 3)
          = count64 (fun w =>
              (New [joinHiLo 1 1, joinHiLo 3 3, joinHiLo 5 5]).Contains w = true
                ∧ w ≤ joinHiLo 3 3)) :=
  Rank_spec (New [joinHiLo 1 1, joinHiLo 3 3, joinHiLo 5 5]) (WF_New _) (joinHiLo 3 3)
    (by decide)

theorem Rank_counterexample :
    (below (2 ^ 32) (2 ^ 32)).WF ∧
      (below (2 ^ 32) (2 ^ 32)).Rank (2 ^ 64 - 1) = 0 ∧
      count64 (fun w => (below (2 ^ 32) (2 ^ 32)).Contains w = true ∧ w ≤ 2 ^ 64 - 1)
        = 2 ^ 64 ∧
      (below (2 ^ 32) (2 ^ 32)).Rank (2 ^ 64 - 1)
        ≠ count64 (fun w => (below (2 ^ 32) (2 ^ 32)).Contains w = true ∧ w ≤ 2 ^ 64 - 1) := by
  have hw := WF_below (2 ^ 32) (2 ^ 32) le_rfl le_rfl
  have hc : count64 (fun w => (below (2 ^ 32) (2 ^ 32)).Contains w = true ∧ w ≤ 2 ^ 64 - 1)
      = 2 ^ 64 :=
    (count64_congr _ _ (fun w hw => ⟨fun h => h.1, fun h => ⟨h, by omega⟩⟩)).trans count64_below
  have hr : (below (2 ^ 32) (2 ^ 32)).Rank (2 ^ 64 - 1) = 0 := by
    rw [Rank_eq_count _ hw _ (by norm_num), hc]
    norm_num
  refine ⟨hw, hr, hc, ?_⟩
  rw [hr, hc]
  norm_num

end BTreemap

namespace Heap

theorem ofPair_zero (x y : BTreemap) : ofPair x y 0 = x := rfl

theorem ofPair_one (x y : BTreemap) : ofPair x y 1 = y := rfl

theorem And_Contains_witness :
    (((ofPair (BTreemap.New [2 ^ 64 - 1, 7]) (BTreemap.New [2 ^ 64 - 1, 25])).And 0 1
          0).Contains (2 ^ 64 - 1) = true ↔
        (ofPair (BTreemap.New [2 ^ 64 - 1, 7]) (BTreemap.New [2 ^ 64 - 1, 25]) 0).Contains
            (2 ^ 64 - 1) = true ∧
          (ofPair (BTreemap.New [2 ^ 64 - 1, 7]) (BTreemap.New [2 ^ 64 - 1, 25]) 1).Contains
            (2 ^ 64 - 1) = true) ∧
      ((ofPair (BTreemap.New [2 ^ 64 - 1, 7]) (BTreemap.New [2 ^ 64 - 1, 25])).And 0 1
          1).Contains (2 ^ 64 - 1)
        = (ofPair (BTreemap.New [2 ^ 64 - 1, 7]) (BTreemap.New [2 ^ 64 - 1, 25]) 1).Contains
            (2 ^ 64 - 1) :=
  And_Contains (ofPair (BTreemap.New [2 ^ 64 - 1, 7]) (BTreemap.New [2 ^ 64 - 1, 25])) 0 1
    (by decide) (BTreemap.WF_New _) (2 ^ 64 - 1)

theorem Or_Contains_witness :
    (((ofPair (BTreemap.New [15]) (BTreemap.New [25])).Or 0 1 0).Contains 25 = true ↔
        (ofPair (BTreemap.New [15]) (BTreemap.New [25]) 0).Contains 25 = true ∨
          (ofPair (BTreemap.New [15]) (BTreemap.New [25]) 1).Contains 25 = true) ∧
      ((ofPair (BTreemap.New [15]) (BTreemap.New [25])).Or 0 1 1
        = ofPair (BTreemap.New [15]) (BTreemap.New [25]) 1) ∧
      ∀ w, ((ofPair (BTreemap.New [15]) (BTreemap.New [25])).Or 0 1 1).Contains w
        = (ofPair (BTreemap.New [15]) (BTreemap.New [25]) 1).Contains w :=
  Or_Contains (ofPair (BTreemap.New [15]) (BTreemap.New [25])) 0 1 (by decide)
    (BTreemap.WF_New _) 25

theorem Xor_Contains_witness :
    (((ofPair (BTreemap.New [15, 25]) (BTreemap.New [25, 35])).Xor 0 1 0).Contains 25 = true ↔
        ((ofPair (BTreemap.New [15, 25]) (BTreemap.New [25, 35]) 0).Contains 25 = true ∧
            ¬ (ofPair (BTreemap.New [15, 25]) (BTreemap.New [25, 35]) 1).Contains 25 = true) ∨
          (¬ (ofPair (BTreemap.New [15, 25]) (BTreemap.New [25, 35]) 0).Contains 25 = true ∧
            (ofPair (BTreemap.New [15, 25]) (BTreemap.New [25, 35]) 1).Contains 25 = true)) ∧
      ((ofPair (BTreemap.New [15, 25]) (BTreemap.New [25, 35])).Xor 0 1 1
        = ofPair (BTreemap.New [15, 25]) (BTreemap.New [25, 35]) 1) :=
  Xor_Contains (ofPair (BTreemap.New [15, 25]) (BTreemap.New [25, 35])) 0 1 (by decide)
    (BTreemap.WF_New _) (BTreemap.WF_New _) 25

/-- C7, amended. For distinct instances `a` and `b`: after `a.AndNot(b)`, `a`
contains `v` exactly when `a` contained it and `b` did not, `b` is left as it
was, and `GetCardinality()` of `a` is the number of such values reduced modulo
`2 ^ 64`; it is that number whenever the number is below `2 ^ 64`. -/
theorem AndNot_spec (h : Heap) (a b : Nat) (hab : a ≠ b) (ha : (h a).WF) (v : Nat) :
    ((h.AndNot a b a).Contains v = true ↔
        (h a).Contains v = true ∧ ¬ (h b).Contains v = true) ∧
      (h.AndNot a b a).GetCardinality
        = count64 (fun w => (h a).Contains w = true ∧ ¬ (h b).Contains w = true) % 2 ^ 64 ∧
      (count64 (fun w => (h a).Contains w = true ∧ ¬ (h b).Contains w = true) < 2 ^ 64 →
        (h.AndNot a b a).GetCardinality
          = count64 (fun w => (h a).Contains w = true ∧ ¬ (h b).Contains w = true)) ∧
      (h.AndNot a b b = h b) := by
  unfold AndNot
  rw [set_same, set_other _ _ _ _ (Ne.symm hab)]
  have hc := BTreemap.GetCardinality_AndNot (h a) (h b) ha
  exact ⟨BTreemap.Contains_AndNot_iff _ _ v, hc,
    fun hlt => by rw [hc, Nat.mod_eq_of_lt hlt], rfl⟩

theorem AndNot_spec_witness :
    (((ofPair (BTreemap.New [15, 25, 2 ^ 64 - 11]) (BTreemap.New [25, 35])).AndNot 0 1
          0).Contains 25 = true ↔
        (ofPair (BTreemap.New [15, 25, 2 ^ 64 - 11]) (BTreemap.New [25, 35]) 0).Contains 25
            = true ∧
          ¬ (ofPair (BTreemap.New [15, 25, 2 ^ 64 - 11]) (BTreemap.New [25, 35]) 1).Contains 25
            = true) ∧
      ((ofPair (BTreemap.New [15, 25, 2 ^ 64 - 11]) (BTreemap.New [25, 35])).AndNot 0 1
          0).GetCardinality
        = count64 (fun w =>
            (ofPair (BTreemap.New [15, 25, 2 ^ 64 - 11]) (BTreemap.New [25, 35]) 0).Contains w
              = true ∧
            ¬ (ofPair (BTreemap.New [15, 25, 2 ^ 64 - 11]) (BTreemap.New [25, 35]) 1).Contains w
              = true) % 2 ^ 64 ∧
      (count64 (fun w =>
            (ofPair (BTreemap.New [15, 25, 2 ^ 64 - 11]) (BTreemap.New [25, 35]) 0).Contains w
              = true ∧
            ¬ (ofPair (BTreemap.New [15, 25, 2 ^ 64 - 11]) (BTreemap.New [25, 35]) 1).Contains w
              = true) < 2 ^ 64 →
        ((ofPair (BTreemap.New [15, 25, 2 ^ 64 - 11]) (BTreemap.New [25, 35])).AndNot 0 1
            0).GetCardinality
          = count64 (fun w =>
              (ofPair (BTreemap.New [15, 25, 2 ^ 64 - 11]) (BTreemap.New [25, 35]) 0).Contains w
                = true ∧
              ¬ (ofPair (BTreemap.New [15, 25, 2 ^ 64 - 11]) (BTreemap.New [25, 35]) 1).Contains
                  w = true)) ∧
      ((ofPair (BTreemap.New [15, 25, 2 ^ 64 - 11]) (BTreemap.New [25, 35])).AndNot 0 1 1
        = ofPair (BTreemap.New [15, 25, 2 ^ 64 - 11]) (BTreemap.New [25, 35]) 1) :=
  AndNot_spec (ofPair (BTreemap.New [15, 25, 2 ^ 64 - 11]) (BTreemap.New [25, 35])) 0 1
    (by decide) (BTreemap.WF_New _) 25

theorem AndNot_counterexample :
    (ofPair (BTreemap.below (2 ^ 32) (2 ^ 32)) (BTreemap.New []) 0).WF ∧
      ((ofPair (BTreemap.below (2 ^ 32) (2 ^ 32)) (BTreemap.New [])).AndNot 0 1
          0).GetCardinality = 0 ∧
      count64 (fun w =>
          (ofPair (BTreemap.below (2 ^ 32) (2 ^ 32)) (BTreemap.New []) 0).Contains w = true ∧
          ¬ (ofPair (BTreemap.below (2 ^ 32) (2 ^ 32)) (BTreemap.New []) 1).Contains w = true)
        = 2 ^ 64 ∧
      ((ofPair (BTreemap.below (2 ^ 32) (2 ^ 32)) (BTreemap.New [])).AndNot 0 1
          0).GetCardinality
        ≠ count64 (fun w =>
            (ofPair (BTreemap.below (2 ^ 32) (2 ^ 32)) (BTreemap.New []) 0).Contains w = true ∧
            ¬ (ofPair (BTreemap.below (2 ^ 32) (2 ^ 32)) (BTreemap.New []) 1).Contains w
              = true) := by
  have hw := BTreemap.WF_below (2 ^ 32) (2 ^ 32) le_rfl le_rfl
  have hc : count64 (fun w =>
      (ofPair (BTreemap.below (2 ^ 32) (2 ^ 32)) (BTreemap.New []) 0).Contains w = true ∧
      ¬ (ofPair (BTreemap.below (2 ^ 32) (2 ^ 32)) (BTreemap.New []) 1).Contains w = true)
      = 2 ^ 64 := by
    refine (count64_congr _ _ ?_).trans BTreemap.count64_below
    intro w _
    rw [ofPair_zero, ofPair_one]
    have h0 : (BTreemap.New []).Contains w = false := rfl
    rw [h0]
    simp
  have hg : ((ofPair (BTreemap.below (2 ^ 32) (2 ^ 32)) (BTreemap.New [])).AndNot 0 1
      0).GetCardinality = 0 := by
    unfold AndNot
    rw [set_same,
      BTreemap.GetCardinality_AndNot
        (ofPair (BTreemap.below (2 ^ 32) (2 ^ 32)) (BTreemap.New []) 0)
        (ofPair (BTreemap.below (2 ^ 32) (2 ^ 32)) (BTreemap.New []) 1) hw, hc]
    norm_num
  refine ⟨hw, hg, hc, ?_⟩
  rw [hg, hc]
  norm_num

end Heap

namespace BTreemap

/-! ### The mutators preserve the representation invariant -/

theorem Remove_preserves_WF (s : BTreemap) (v : Nat) (h : s.WF) : (s.Remove v).WF := by
  cases hg : btree.Get s.tree (splitHiLo v).1 with
  | none => rw [Remove_of_absent s v hg]; exact h
  | some cur =>
    have hm : WF { s with tree := (btree.mutate s.tree (splitHiLo v).1
        (fun b => b.Remove (splitHiLo v).2)) } := by
      unfold WF
      simp only
      refine ⟨btree.Ordered_mutate h.1 _ _, ?_⟩
      intro x hx
      obtain ⟨y, hy, hk, hb⟩ := btree.mem_mutate hx
      rw [hk]
      refine ⟨(h.2 y hy).1, ?_⟩
      rcases hb with hb | hb <;> rw [hb]
      · exact (h.2 y hy).2
      · exact roaring.Bitmap.WF_Remove _ _ (h.2 y hy).2
    simp only [Remove, get, hg]
    split_ifs
    · exact ⟨btree.Ordered_Delete hm.1 _,
        fun x hx => hm.2 x ((btree.Delete_sublist _ _).subset hx)⟩
    · exact hm

theorem And_preserves_WF (a b : BTreemap) (ha : a.WF) : (a.And b).WF := by
  unfold And
  simp only [btree.AscendMut_marks _ _ (AndCallback_eq b), List.nil_append]
  have hm : ∀ x ∈ a.tree.map (fun x => ({ x with Bitmap :=
      (match b.get x.HighBits with
        | none => x.Bitmap
        | some rbm => x.Bitmap.And rbm.Bitmap) } : keyedBitmap)),
      x.HighBits < 2 ^ 32 ∧ x.Bitmap.WF := by
    intro x hx
    obtain ⟨y, hy, rfl⟩ := List.mem_map.1 hx
    refine ⟨(ha.2 y hy).1, ?_⟩
    simp only
    cases b.get y.HighBits with
    | none => exact (ha.2 y hy).2
    | some rbm => exact roaring.Bitmap.WF_And _ _ (ha.2 y hy).2
  exact ⟨btree.Ordered_foldl_Delete (btree.Ordered_map_bitmap ha.1 _) _,
    fun x hx => hm x ((btree.foldl_Delete_sublist _ _).subset hx)⟩

theorem OrCallback_WF (t : btree.BTree) (y : keyedBitmap)
    (ht : btree.Ordered t ∧ ∀ x ∈ t, x.HighBits < 2 ^ 32 ∧ x.Bitmap.WF)
    (hy : y.HighBits < 2 ^ 32 ∧ y.Bitmap.WF) :
    btree.Ordered (OrCallback t y).1 ∧
      ∀ x ∈ (OrCallback t y).1, x.HighBits < 2 ^ 32 ∧ x.Bitmap.WF := by
  cases hg : btree.Get t y.HighBits with
  | none =>
    simp only [OrCallback, hg]
    refine ⟨btree.Ordered_ReplaceOrInsert ht.1 _, ?_⟩
    intro x hx
    rcases btree.mem_ReplaceOrInsert hx with rfl | hx
    · exact hy
    · exact ht.2 x hx
  | some cur =>
    simp only [OrCallback, hg]
    refine ⟨btree.Ordered_mutate ht.1 _ _, ?_⟩
    intro x hx
    obtain ⟨z, hz, hk, hb⟩ := btree.mem_mutate hx
    rw [hk]
    refine ⟨(ht.2 z hz).1, ?_⟩
    rcases hb with hb | hb <;> rw [hb]
    · exact (ht.2 z hz).2
    · exact roaring.Bitmap.WF_Or _ _ (ht.2 z hz).2 hy.2

theorem Or_preserves_WF (a b : BTreemap) (ha : a.WF) (hb : b.WF) : (a.Or b).WF := by
  unfold Or forEachBitmap WF
  simp only
  have key : ∀ (l t : btree.BTree),
      (∀ y ∈ l, y.HighBits < 2 ^ 32 ∧ y.Bitmap.WF) →
      (btree.Ordered t ∧ ∀ x ∈ t, x.HighBits < 2 ^ 32 ∧ x.Bitmap.WF) →
      btree.Ordered (btree.Ascend OrCallback l t) ∧
        ∀ x ∈ btree.Ascend OrCallback l t, x.HighBits < 2 ^ 32 ∧ x.Bitmap.WF := by
    intro l
    induction l with
    | nil => intro t _ ht; exact ht
    | cons y rest ih =>
      intro t hl ht
      have h2 := OrCallback_snd t y
      have h1 := OrCallback_WF t y ht (hl y (List.mem_cons_self _ _))
      rcases hc : OrCallback t y with ⟨t1, c⟩
      rw [hc] at h1 h2
      simp only at h1 h2
      subst h2
      simp only [btree.Ascend, hc]
      exact ih t1 (fun z hz => hl z (List.mem_cons_of_mem _ hz)) h1
  exact key b.tree a.tree hb.2 ha

theorem Xor_preserves_WF (a b : BTreemap) (ha : a.WF) (hb : b.WF) : (a.Xor b).WF := by
  unfold Xor forEachBitmap
  simp only
  have key : ∀ (l : btree.BTree) (st : btree.BTree × List Nat),
      (∀ y ∈ l, y.HighBits < 2 ^ 32 ∧ y.Bitmap.WF) →
      (btree.Ordered st.1 ∧ ∀ x ∈ st.1, x.HighBits < 2 ^ 32 ∧ x.Bitmap.WF) →
      btree.Ordered (btree.Ascend XorCallback l st).1 ∧
        ∀ x ∈ (btree.Ascend XorCallback l st).1, x.HighBits < 2 ^ 32 ∧ x.Bitmap.WF := by
    intro l
    induction l with
    | nil => intro st _ ht; exact ht
    | cons y rest ih =>
      intro st hl ht
      have hy := hl y (List.mem_cons_self _ _)
      have h2 := XorCallback_snd st y
      have h1 : btree.Ordered (XorCallback st y).1.1 ∧
          ∀ x ∈ (XorCallback st y).1.1, x.HighBits < 2 ^ 32 ∧ x.Bitmap.WF := by
        rw [XorCallback_tree]
        cases btree.Get st.1 y.HighBits with
        | none =>
          refine ⟨btree.Ordered_ReplaceOrInsert ht.1 _, ?_⟩
          intro x hx
          rcases btree.mem_ReplaceOrInsert hx with rfl | hx
          · exact hy
          · exact ht.2 x hx
        | some cur =>
          refine ⟨btree.Ordered_mutate ht.1 _ _, ?_⟩
          intro x hx
          obtain ⟨z, hz, hk, hb⟩ := btree.mem_mutate hx
          rw [hk]
          refine ⟨(ht.2 z hz).1, ?_⟩
          rcases hb with hb | hb <;> rw [hb]
          · exact (ht.2 z hz).2
          · exact roaring.Bitmap.WF_Xor _ _ (ht.2 z hz).2 hy.2
      rcases hc : XorCallback st y with ⟨st1, c⟩
      rw [hc] at h1 h2
      simp only at h1 h2
      subst h2
      simp only [btree.Ascend, hc]
      exact ih st1 (fun z hz => hl z (List.mem_cons_of_mem _ hz)) h1
  have h := key b.tree (a.tree, []) hb.2 ha
  exact ⟨btree.Ordered_foldl_Delete h.1 _,
    fun x hx => h.2 x ((btree.foldl_Delete_sublist _ _).subset hx)⟩

end BTreemap

namespace BTreemap

/-- C13. For every list of 64-bit values, `New(xs...).ToArray()` is strictly
ascending and holds exactly the values of the list. -/
theorem ToArray_New (xs : List Nat) (hxs : ∀ x ∈ xs, x < 2 ^ 64) :
    (New xs).ToArray.Pairwise (· < ·) ∧ ∀ w, w ∈ (New xs).ToArray ↔ w ∈ xs := by
  have hwf := WF_New xs
  rw [ToArray_eq]
  refine ⟨values_sorted _ hwf, ?_⟩
  intro w
  rw [mem_values _ hwf]
  constructor
  · rintro ⟨hw, hc⟩; exact (Contains_New_iff xs w hxs hw).1 hc
  · intro hw; exact ⟨hxs w hw, (Contains_New_iff xs w hxs (hxs w hw)).2 hw⟩

theorem ToArray_New_witness :
    (New [100, 20, 1, 15, 2 ^ 64 - 1, 4, 10, 20]).ToArray.Pairwise (· < ·) ∧
      ∀ w, w ∈ (New [100, 20, 1, 15, 2 ^ 64 - 1, 4, 10, 20]).ToArray
        ↔ w ∈ [100, 20, 1, 15, 2 ^ 64 - 1, 4, 10, 20] :=
  ToArray_New [100, 20, 1, 15, 2 ^ 64 - 1, 4, 10, 20] (by decide)

theorem And_New_nil (other : BTreemap) : (New []).And other = New [] := rfl

theorem foldl_And_New_nil (bs : List BTreemap) :
    bs.foldl (fun answer bm => answer.And bm) (New []) = New [] := by
  induction bs with
  | nil => rfl
  | cons b rest ih => rw [List.foldl_cons, And_New_nil, ih]

end BTreemap

/-- C20. With two or more inputs `FastAnd` intersects into a fresh empty set,
so its result is empty whatever the inputs hold: `FastAnd(New(1), New(1))` does
not contain `1`. -/
theorem FastAnd_two_or_more :
    (FastAnd [BTreemap.New [1], BTreemap.New [1]]).Contains 1 = false ∧
      (BTreemap.New [1]).Contains 1 = true ∧
      ∀ (b1 b2 : BTreemap) (rest : List BTreemap),
        FastAnd (b1 :: b2 :: rest) = BTreemap.New [] := by
  refine ⟨by decide, by decide, ?_⟩
  intro b1 b2 rest
  exact BTreemap.foldl_And_New_nil (b1 :: b2 :: rest)

namespace BTreemap

/-- C14. After `Clear()` the index still holds the emptied shard, and
`Minimum()` and `Maximum()` ask that shard's container, which panics; the same
happens when `AndNot` empties the first or the last shard of a set that still
has members. -/
theorem Minimum_Maximum_empty_shard :
    (New [1]).Clear.IsEmpty = true ∧ (New [1]).Clear.GetCardinality = 0 ∧
      (New [1]).Clear.Minimum = none ∧ (New [1]).Clear.Maximum = none ∧
      ((New [1, 2 ^ 32 + 5]).AndNot (New [1])).Contains (2 ^ 32 + 5) = true ∧
      ((New [1, 2 ^ 32 + 5]).AndNot (New [1])).Minimum = none ∧
      ((New [1, 2 ^ 32 + 5]).AndNot (New [2 ^ 32 + 5])).Contains 1 = true ∧
      ((New [1, 2 ^ 32 + 5]).AndNot (New [2 ^ 32 + 5])).Maximum = none := by
  decide

end BTreemap

namespace roaring.Bitmap

theorem IsEmpty_eq_false_iff (bm : Bitmap) : bm.IsEmpty = false ↔ ∃ x, x ∈ bm.vals := by
  unfold IsEmpty
  cases h : bm.vals with
  | nil => simp
  | cons a l => simp

theorem IsEmpty_Add (bm : Bitmap) (x : Nat) : (bm.Add x).IsEmpty = false :=
  (IsEmpty_eq_false_iff _).2 ⟨x, (mem_Add bm x x).2 (Or.inl rfl)⟩

theorem IsEmpty_BitmapOf_single (x : Nat) : (BitmapOf [x]).IsEmpty = false :=
  (IsEmpty_eq_false_iff _).2 ⟨x, (mem_BitmapOf_single x x).2 rfl⟩

theorem IsEmpty_Or (bm other : Bitmap) (h : bm.IsEmpty = false) :
    (bm.Or other).IsEmpty = false := by
  obtain ⟨x, hx⟩ := (IsEmpty_eq_false_iff _).1 h
  exact (IsEmpty_eq_false_iff _).2 ⟨x, (mem_Or bm other x).2 (Or.inl hx)⟩

end roaring.Bitmap

namespace btree

theorem mem_iff_Get {t : BTree} (ht : Ordered t) (x : keyedBitmap) :
    x ∈ t ↔ Get t x.HighBits = some x :=
  ⟨fun h => Get_of_mem ht h, fun h => Get_mem h⟩

theorem mem_Delete {t : BTree} (ht : Ordered t) (key : Nat) (x : keyedBitmap) :
    x ∈ Delete t key ↔ x ∈ t ∧ x.HighBits ≠ key := by
  rw [mem_iff_Get (Ordered_Delete ht key), mem_iff_Get ht, Get_Delete t ht]
  by_cases h : x.HighBits = key
  · simp [h]
  · simp [h]

theorem mem_foldl_Delete {t : BTree} (ht : Ordered t) (rm : List Nat) (x : keyedBitmap) :
    x ∈ rm.foldl Delete t ↔ x ∈ t ∧ x.HighBits ∉ rm := by
  rw [mem_iff_Get (Ordered_foldl_Delete ht rm), mem_iff_Get ht, Get_foldl_Delete rm t ht]
  by_cases h : x.HighBits ∈ rm
  · simp [h]
  · simp [h]

theorem mem_mutate_iff {t : BTree} {key : Nat} {f : roaring.Bitmap → roaring.Bitmap}
    {x : keyedBitmap} :
    x ∈ mutate t key f ↔
      (x ∈ t ∧ x.HighBits ≠ key) ∨
        ∃ y ∈ t, y.HighBits = key ∧ x = { y with Bitmap := f y.Bitmap } := by
  unfold mutate
  rw [List.mem_map]
  constructor
  · rintro ⟨y, hy, rfl⟩
    by_cases hk : y.HighBits = key
    · rw [if_pos hk]; exact Or.inr ⟨y, hy, hk, rfl⟩
    · rw [if_neg hk]; exact Or.inl ⟨hy, hk⟩
  · rintro (⟨hx, hk⟩ | ⟨y, hy, hk, rfl⟩)
    · exact ⟨x, hx, by rw [if_neg hk]⟩
    · exact ⟨y, hy, by rw [if_pos hk]⟩

theorem Ordered_keys_nodup {t : BTree} (ht : Ordered t) :
    (t.map (fun x => x.HighBits)).Nodup := by
  unfold List.Nodup
  rw [List.pairwise_map]
  exact ht.imp (fun h => Nat.ne_of_lt h)

end btree

namespace BTreemap

theorem CheckedAdd_fst (tm : BTreemap) (v : Nat) : (tm.CheckedAdd v).1 = tm.Add v := by
  cases hg : tm.get (splitHiLo v).1 with
  | none => simp only [CheckedAdd, Add, hg]
  | some bm => simp only [CheckedAdd, Add, hg, roaring.Bitmap.CheckedAdd]

theorem CheckedRemove_fst (tm : BTreemap) (v : Nat) : (tm.CheckedRemove v).1 = tm.Remove v := by
  cases hg : tm.get (splitHiLo v).1 with
  | none => simp only [CheckedRemove, Remove, hg]
  | some bm =>
    simp only [CheckedRemove, Remove, hg, roaring.Bitmap.CheckedRemove]
    split_ifs <;> rfl

theorem Clear_tree (tm : BTreemap) :
    tm.Clear.tree = tm.tree.map (fun x => { x with Bitmap := roaring.Bitmap.Clear x.Bitmap }) := by
  unfold Clear
  exact btree.AscendMut_unit (fun x => roaring.Bitmap.Clear x.Bitmap) (fun _ _ => rfl) tm.tree ()

theorem Clear_preserves_WF (tm : BTreemap) (h : tm.WF) : tm.Clear.WF := by
  unfold WF
  rw [Clear_tree]
  refine ⟨btree.Ordered_map_bitmap h.1 _, ?_⟩
  intro x hx
  obtain ⟨y, hy, rfl⟩ := List.mem_map.1 hx
  exact ⟨(h.2 y hy).1, List.Pairwise.nil, by intro z hz; cases hz⟩

/-! ### Shards without values -/

theorem NoEmptyShard_Add (s : BTreemap) (v : Nat) (h : s.NoEmptyShard) :
    (s.Add v).NoEmptyShard := by
  intro x hx
  cases hg : btree.Get s.tree (splitHiLo v).1 with
  | some cur =>
    simp only [Add, get, hg] at hx
    obtain ⟨y, hy, -, hb⟩ := btree.mem_mutate hx
    rcases hb with hb | hb <;> rw [hb]
    · exact h y hy
    · exact roaring.Bitmap.IsEmpty_Add _ _
  | none =>
    simp only [Add, get, hg] at hx
    rcases btree.mem_ReplaceOrInsert hx with rfl | hx
    · exact roaring.Bitmap.IsEmpty_BitmapOf_single _
    · exact h x hx

theorem NoEmptyShard_AddMany (s : BTreemap) (vs : List Nat) (h : s.NoEmptyShard) :
    (s.AddMany vs).NoEmptyShard := by
  induction vs generalizing s with
  | nil => exact h
  | cons v rest ih => exact ih _ (NoEmptyShard_Add s v h)

theorem NoEmptyShard_New (vs : List Nat) : (New vs).NoEmptyShard := by
  have h0 : NoEmptyShard { tree := [], serializer := none } := by
    intro x hx; cases hx
  exact NoEmptyShard_AddMany _ vs h0

theorem NoEmptyShard_Remove (s : BTreemap) (v : Nat) (hs : s.WF) (h : s.NoEmptyShard) :
    (s.Remove v).NoEmptyShard := by
  cases hg : btree.Get s.tree (splitHiLo v).1 with
  | none => rw [Remove_of_absent s v hg]; exact h
  | some cur =>
    have hcur := btree.Get_mem hg
    have hmut : ∀ x ∈ btree.mutate s.tree (splitHiLo v).1
        (fun b => b.Remove (splitHiLo v).2),
        x.HighBits ≠ (splitHiLo v).1 → x.Bitmap.IsEmpty = false := by
      intro x hx hk
      rcases btree.mem_mutate_iff.1 hx with ⟨hx, -⟩ | ⟨y, -, hyk, rfl⟩
      · exact h x hx
      · exact absurd hyk hk
    intro x hx
    simp only [Remove, get, hg] at hx
    split_ifs at hx with he
    · simp only at hx
      rw [btree.mem_Delete (btree.Ordered_mutate hs.1 _ _)] at hx
      exact hmut x hx.1 hx.2
    · simp only at hx
      by_cases hk : x.HighBits = (splitHiLo v).1
      · rcases btree.mem_mutate_iff.1 hx with ⟨-, hne⟩ | ⟨y, hy, hyk, rfl⟩
        · exact absurd hk hne
        · have : y = cur := btree.eq_of_mem_of_key hs.1 hy hcur
            (by rw [hyk, btree.Get_key hg])
          subst this
          simpa using he
      · exact hmut x hx hk

theorem NoEmptyShard_And (a b : BTreemap) (ha : a.WF) : (a.And b).NoEmptyShard := by
  intro x hx
  unfold And at hx
  simp only [btree.AscendMut_marks _ _ (AndCallback_eq b), List.nil_append] at hx
  rw [btree.mem_foldl_Delete (btree.Ordered_map_bitmap ha.1 _)] at hx
  obtain ⟨hx1, hx2⟩ := hx
  obtain ⟨y, hy, rfl⟩ := List.mem_map.1 hx1
  simp only at hx2 ⊢
  by_contra hne
  apply hx2
  refine List.mem_map.2 ⟨y, List.mem_filter.2 ⟨hy, ?_⟩, rfl⟩
  cases hg : b.get y.HighBits with
  | none => rfl
  | some rbm =>
    rw [hg] at hne
    simpa using hne

theorem NoEmptyShard_Or (a b : BTreemap) (ha : a.NoEmptyShard) (hb : b.NoEmptyShard) :
    (a.Or b).NoEmptyShard := by
  unfold Or forEachBitmap NoEmptyShard
  simp only
  have key : ∀ (l t : btree.BTree),
      (∀ y ∈ l, y.Bitmap.IsEmpty = false) → (∀ x ∈ t, x.Bitmap.IsEmpty = false) →
        ∀ x ∈ btree.Ascend OrCallback l t, x.Bitmap.IsEmpty = false := by
    intro l
    induction l with
    | nil => intro t _ ht; exact ht
    | cons y rest ih =>
      intro t hl ht
      have hy := hl y (List.mem_cons_self _ _)
      have h1 : ∀ x ∈ (OrCallback t y).1, x.Bitmap.IsEmpty = false := by
        intro x hx
        cases hg : btree.Get t y.HighBits with
        | none =>
          simp only [OrCallback, hg] at hx
          rcases btree.mem_ReplaceOrInsert hx with rfl | hx
          · exact hy
          · exact ht x hx
        | some cur =>
          simp only [OrCallback, hg] at hx
          obtain ⟨z, hz, -, hb⟩ := btree.mem_mutate hx
          rcases hb with hb | hb <;> rw [hb]
          · exact ht z hz
          · exact roaring.Bitmap.IsEmpty_Or _ _ (ht z hz)
      have h2 := OrCallback_snd t y
      rcases hc : OrCallback t y with ⟨t1, c⟩
      rw [hc] at h1 h2
      simp only at h1 h2
      subst h2
      simp only [btree.Ascend, hc]
      exact ih t1 (fun z hz => hl z (List.mem_cons_of_mem _ hz)) h1
  exact key b.tree a.tree hb ha

end BTreemap

namespace BTreemap

theorem NoEmptyShard_Xor (a b : BTreemap) (ha : a.WF) (hne : a.NoEmptyShard)
    (hb : b.NoEmptyShard) : (a.Xor b).NoEmptyShard := by
  have key : ∀ (l : btree.BTree) (st : btree.BTree × List Nat),
      (∀ y ∈ l, y.Bitmap.IsEmpty = false) → btree.Ordered st.1 →
      (∀ x ∈ st.1, x.Bitmap.IsEmpty = true → x.HighBits ∈ st.2) →
      btree.Ordered (btree.Ascend XorCallback l st).1 ∧
        ∀ x ∈ (btree.Ascend XorCallback l st).1,
          x.Bitmap.IsEmpty = true → x.HighBits ∈ (btree.Ascend XorCallback l st).2 := by
    intro l
    induction l with
    | nil => intro st _ ho hi; exact ⟨ho, hi⟩
    | cons y rest ih =>
      intro st hl ho hi
      have hy := hl y (List.mem_cons_self _ _)
      have h2 := XorCallback_snd st y
      have h3 := XorCallback_Ordered st y ho
      have h1 : ∀ x ∈ (XorCallback st y).1.1,
          x.Bitmap.IsEmpty = true → x.HighBits ∈ (XorCallback st y).1.2 := by
        intro x hx hxe
        cases hg : btree.Get st.1 y.HighBits with
        | none =>
          simp only [XorCallback, hg] at hx ⊢
          rcases btree.mem_ReplaceOrInsert hx with rfl | hx
          · have hy2 : y.ClonePtr.Bitmap.IsEmpty = false := hy
            rw [hy2] at hxe; cases hxe
          · exact hi x hx hxe
        | some cur =>
          have hcur := btree.Get_mem hg
          have hm : x ∈ btree.mutate st.1 y.HighBits (fun c => c.Xor y.Bitmap) := by
            have := XorCallback_tree st y
            rw [hg] at this
            rw [this] at hx
            exact hx
          have hmarks : ∀ k, k ∈ st.2 ∨
              (k = y.HighBits ∧ (cur.Bitmap.Xor y.Bitmap).IsEmpty = true) →
              k ∈ (XorCallback st y).1.2 := by
            intro k hk
            simp only [XorCallback, hg]
            split_ifs with he
            · rcases hk with hk | ⟨hk, -⟩
              · exact List.mem_append_left _ hk
              · rw [hk]; exact List.mem_append_right _ (List.mem_singleton.2 rfl)
            · rcases hk with hk | ⟨-, hk⟩
              · exact hk
              · exact absurd hk he
          rcases btree.mem_mutate_iff.1 hm with ⟨hx0, -⟩ | ⟨z, hz, hzk, rfl⟩
          · exact hmarks _ (Or.inl (hi x hx0 hxe))
          · have : z = cur := btree.eq_of_mem_of_key ho hz hcur
              (by rw [hzk, btree.Get_key hg])
            subst this
            exact hmarks _ (Or.inr ⟨hzk, hxe⟩)
      rcases hc : XorCallback st y with ⟨st1, c⟩
      rw [hc] at h1 h2 h3
      simp only at h1 h2 h3
      subst h2
      simp only [btree.Ascend, hc]
      exact ih st1 (fun z hz => hl z (List.mem_cons_of_mem _ hz)) h3 h1
  obtain ⟨h1, h2⟩ := key b.tree (a.tree, []) hb ha.1
    (fun x hx hxe => by rw [hne x hx] at hxe; cases hxe)
  intro x hx
  unfold Xor forEachBitmap at hx
  simp only at hx
  rw [btree.mem_foldl_Delete h1] at hx
  cases he : x.Bitmap.IsEmpty with
  | false => rfl
  | true => exact absurd (h2 x hx.1 he) hx.2

end BTreemap

/-! ### The range operations keep the index well formed -/

namespace roaring.Bitmap

theorem WF_empty : roaring.Bitmap.New.WF :=
  ⟨List.Pairwise.nil, fun x hx => by cases hx⟩

theorem WF_AddRange_vals (bm : Bitmap) (rangeStart rangeEnd : Nat) (h : bm.WF)
    (he : rangeEnd ≤ 2 ^ 32) : (bm.AddRange rangeStart rangeEnd).WF := by
  unfold AddRange
  refine WF_foldl_Add _ bm h (fun x hx => ?_)
  have := List.mem_range'_1.1 hx
  omega

theorem WF_RemoveRange_vals (bm : Bitmap) (rangeStart rangeEnd : Nat) (h : bm.WF) :
    (bm.RemoveRange rangeStart rangeEnd).WF := WF_filter bm _ h

theorem WF_Flip_vals (bm : Bitmap) (rangeStart rangeEnd : Nat) (h : bm.WF)
    (he : rangeEnd ≤ 2 ^ 32) : (bm.Flip rangeStart rangeEnd).WF := by
  unfold Flip
  split_ifs with hse
  · exact h
  · constructor
    · simp only
      rw [List.pairwise_append, List.pairwise_append]
      refine ⟨⟨h.1.filter _, (List.pairwise_lt_range' rangeStart _).filter _, ?_⟩,
        h.1.filter _, ?_⟩
      · intro a ha b hb
        have h1 := (List.mem_filter.1 ha).2
        have h2 := (List.mem_range'_1.1 (List.mem_filter.1 hb).1).1
        simp only [decide_eq_true_eq] at h1
        omega
      · intro a ha b hb
        have h2 := (List.mem_filter.1 hb).2
        simp only [decide_eq_true_eq] at h2
        rcases List.mem_append.1 ha with ha | ha
        · have h1 := (List.mem_filter.1 ha).2
          simp only [decide_eq_true_eq] at h1
          omega
        · have h1 := (List.mem_range'_1.1 (List.mem_filter.1 ha).1).2
          omega
    · intro x hx
      simp only [List.mem_append, List.mem_filter] at hx
      rcases hx with (hx | hx) | hx
      · exact h.2 x hx.1
      · have := List.mem_range'_1.1 hx.1
        omega
      · exact h.2 x hx.1

end roaring.Bitmap

namespace BTreemap

theorem WF_getOrInsert (tm : BTreemap) (highBits : Nat) (h : tm.WF) (hk : highBits < 2 ^ 32) :
    (tm.getOrInsert highBits).WF := by
  unfold getOrInsert
  cases hg : tm.get highBits with
  | some x => exact h
  | none =>
    refine ⟨btree.Ordered_ReplaceOrInsert h.1 _, ?_⟩
    intro x hx
    rcases btree.mem_ReplaceOrInsert hx with rfl | hx
    · exact ⟨hk, roaring.Bitmap.WF_empty⟩
    · exact h.2 x hx

theorem WF_atKey (tm : BTreemap) (highBits : Nat) (f : roaring.Bitmap → roaring.Bitmap)
    (h : tm.WF) (hk : highBits < 2 ^ 32) (hf : ∀ b : roaring.Bitmap, b.WF → (f b).WF) :
    (tm.atKey highBits f).WF := by
  have h1 := WF_getOrInsert tm highBits h hk
  unfold atKey
  refine ⟨btree.Ordered_mutate h1.1 _ _, ?_⟩
  intro x hx
  obtain ⟨y, hy, hkey, hb⟩ := btree.mem_mutate hx
  rw [hkey]
  refine ⟨(h1.2 y hy).1, ?_⟩
  rcases hb with hb | hb <;> rw [hb]
  · exact (h1.2 y hy).2
  · exact hf _ (h1.2 y hy).2

theorem WF_foldl_atKey (keys : List Nat) (f : roaring.Bitmap → roaring.Bitmap) (tm : BTreemap)
    (h : tm.WF) (hk : ∀ k ∈ keys, k < 2 ^ 32)
    (hf : ∀ b : roaring.Bitmap, b.WF → (f b).WF) :
    (keys.foldl (fun t cur => t.atKey cur f) tm).WF := by
  induction keys generalizing tm with
  | nil => exact h
  | cons k rest ih =>
    rw [List.foldl_cons]
    exact ih _ (WF_atKey tm k f h (hk k (List.mem_cons_self _ _)) hf)
      (fun j hj => hk j (List.mem_cons_of_mem _ hj))

theorem rangeLoopKeys_lt (hiStart loEnd : Nat) : ∀ k ∈ rangeLoopKeys hiStart loEnd, k < 2 ^ 32 := by
  intro k hk
  unfold rangeLoopKeys at hk
  have h1 := List.mem_range'_1.1 hk
  have h2 : (loEnd + 2 ^ 32 - 1) % 2 ^ 32 < 2 ^ 32 := Nat.mod_lt _ (by norm_num)
  omega

theorem MaxUint32_le : math.MaxUint32 ≤ 2 ^ 32 := by
  unfold math.MaxUint32
  norm_num

theorem WF_AddRange (tm : BTreemap) (rangeStart rangeEnd : Nat) (h : tm.WF) :
    (tm.AddRange rangeStart rangeEnd).WF := by
  have hs := splitHiLo_fst_lt rangeStart
  have he := splitHiLo_fst_lt rangeEnd
  have hle := splitHiLo_snd_lt rangeEnd
  unfold AddRange
  simp only
  split_ifs
  · exact WF_atKey _ _ _ h hs
      (fun b hb => roaring.Bitmap.WF_AddRange_vals b _ _ hb (by omega))
  · refine WF_atKey _ _ _ (WF_foldl_atKey _ _ _ (WF_atKey _ _ _ h hs
        (fun b hb => roaring.Bitmap.WF_AddRange_vals b _ _ hb MaxUint32_le))
        (rangeLoopKeys_lt _ _)
        (fun b hb => roaring.Bitmap.WF_AddRange_vals b _ _ hb MaxUint32_le)) he
      (fun b hb => roaring.Bitmap.WF_AddRange_vals b _ _ hb (by omega))

theorem WF_Flip (tm : BTreemap) (rangeStart rangeEnd : Nat) (h : tm.WF) :
    (tm.Flip rangeStart rangeEnd).WF := by
  have hs := splitHiLo_fst_lt rangeStart
  have he := splitHiLo_fst_lt rangeEnd
  have hle := splitHiLo_snd_lt rangeEnd
  unfold Flip
  simp only
  split_ifs
  · exact WF_atKey _ _ _ h hs
      (fun b hb => roaring.Bitmap.WF_Flip_vals b _ _ hb (by omega))
  · refine WF_atKey _ _ _ (WF_foldl_atKey _ _ _ (WF_atKey _ _ _ h hs
        (fun b hb => roaring.Bitmap.WF_Flip_vals b _ _ hb MaxUint32_le))
        (rangeLoopKeys_lt _ _)
        (fun b hb => roaring.Bitmap.WF_Flip_vals b _ _ hb MaxUint32_le)) he
      (fun b hb => roaring.Bitmap.WF_Flip_vals b _ _ hb (by omega))

theorem WF_RemoveRange (tm : BTreemap) (rangeStart rangeEnd : Nat) (h : tm.WF) :
    (tm.RemoveRange rangeStart rangeEnd).WF := by
  have hs := splitHiLo_fst_lt rangeStart
  have he := splitHiLo_fst_lt rangeEnd
  unfold RemoveRange
  simp only
  split_ifs
  · have h1 := WF_atKey tm (splitHiLo rangeStart).1
      (fun bm => bm.RemoveRange (splitHiLo rangeStart).2 (splitHiLo rangeEnd).2) h hs
      (fun b hb => roaring.Bitmap.WF_RemoveRange_vals b _ _ hb)
    cases hg : (tm.atKey (splitHiLo rangeStart).1
        (fun bm => bm.RemoveRange (splitHiLo rangeStart).2 (splitHiLo rangeEnd).2)).get
        (splitHiLo rangeStart).1 with
    | none => exact h1
    | some bm =>
      simp only
      split_ifs
      · exact ⟨btree.Ordered_Delete h1.1 _,
          fun x hx => h1.2 x ((btree.Delete_sublist _ _).subset hx)⟩
      · exact h1
  · exact WF_atKey _ _ _ (WF_foldl_atKey _ _ _ (WF_atKey _ _ _ h hs
        (fun b hb => roaring.Bitmap.WF_RemoveRange_vals b _ _ hb))
        (rangeLoopKeys_lt _ _)
        (fun b hb => roaring.Bitmap.WF_RemoveRange_vals b _ _ hb)) he
      (fun b hb => roaring.Bitmap.WF_RemoveRange_vals b _ _ hb)

theorem WF_of_Reachable {c : Bool} {tm : BTreemap} (h : Reachable c tm) : tm.WF := by
  induction h with
  | New values => exact WF_New values
  | Add _ value ih => exact WF_Add _ value ih
  | CheckedAdd _ value ih => rw [CheckedAdd_fst]; exact WF_Add _ value ih
  | AddMany _ values ih => exact WF_AddMany _ values ih
  | Remove _ value ih => exact Remove_preserves_WF _ value ih
  | CheckedRemove _ value ih => rw [CheckedRemove_fst]; exact Remove_preserves_WF _ value ih
  | And _ _ ih _ => exact And_preserves_WF _ _ ih
  | Or _ _ ih iho => exact Or_preserves_WF _ _ ih iho
  | Xor _ _ ih iho => exact Xor_preserves_WF _ _ ih iho
  | Clear _ ih => exact Clear_preserves_WF _ ih
  | AndNot _ _ ih _ => exact WF_AndNot _ _ ih
  | Flip _ rangeStart rangeEnd ih => exact WF_Flip _ rangeStart rangeEnd ih
  | AddRange _ rangeStart rangeEnd ih => exact WF_AddRange _ rangeStart rangeEnd ih
  | RemoveRange _ rangeStart rangeEnd ih => exact WF_RemoveRange _ rangeStart rangeEnd ih

theorem NoEmptyShard_of_Reachable {c : Bool} {tm : BTreemap} (h : Reachable c tm) :
    c = false → tm.NoEmptyShard := by
  induction h with
  | New values => intro _; exact NoEmptyShard_New values
  | Add _ value ih => intro hc; exact NoEmptyShard_Add _ value (ih hc)
  | CheckedAdd _ value ih => intro hc; rw [CheckedAdd_fst]; exact NoEmptyShard_Add _ value (ih hc)
  | AddMany _ values ih => intro hc; exact NoEmptyShard_AddMany _ values (ih hc)
  | Remove h value ih => intro hc; exact NoEmptyShard_Remove _ value (WF_of_Reachable h) (ih hc)
  | CheckedRemove h value ih =>
    intro hc; rw [CheckedRemove_fst]
    exact NoEmptyShard_Remove _ value (WF_of_Reachable h) (ih hc)
  | And h _ _ _ => intro _; exact NoEmptyShard_And _ _ (WF_of_Reachable h)
  | Or _ _ ih iho =>
    intro hc
    rw [Bool.or_eq_false_iff] at hc
    exact NoEmptyShard_Or _ _ (ih hc.1) (iho hc.2)
  | Xor h _ ih iho =>
    intro hc
    rw [Bool.or_eq_false_iff] at hc
    exact NoEmptyShard_Xor _ _ (WF_of_Reachable h) (ih hc.1) (iho hc.2)
  | Clear _ _ => intro hc; cases hc
  | AndNot _ _ _ _ => intro hc; cases hc
  | Flip _ _ _ _ => intro hc; cases hc
  | AddRange _ _ _ _ => intro hc; cases hc
  | RemoveRange _ _ _ _ => intro hc; cases hc

/-- C11, amended. Starting from `New()`, after any call of `Add`, `CheckedAdd`,
`AddMany`, `Remove`, `CheckedRemove`, `Clear`, `And`, `Or`, `Xor`, `AndNot`,
`Flip`, `AddRange` or `RemoveRange` the high keys of the shard index are
unique; the index holds no shard with an empty container as long as none of
`Clear`, `AndNot`, `Flip`, `AddRange` and `RemoveRange` was called on the way
(flag `false`), and again after `And`. -/
theorem Reachable_invariant {c : Bool} {tm : BTreemap} (h : Reachable c tm) :
    tm.UniqueKeys ∧ (c = false → tm.NoEmptyShard) :=
  ⟨btree.Ordered_keys_nodup (WF_of_Reachable h).1, NoEmptyShard_of_Reachable h⟩

theorem Reachable_invariant_witness :
    ((((New [1, 2 ^ 40]).Xor (New [2 ^ 40, 7])).Remove 1).UniqueKeys ∧
        (false = false →
          (((New [1, 2 ^ 40]).Xor (New [2 ^ 40, 7])).Remove 1).NoEmptyShard)) ∧
      ((((New [1, 2 ^ 40]).AddRange 5 (2 ^ 32 + 3)).RemoveRange 6 (2 ^ 33 + 1)).Flip 2
          (2 ^ 32 + 9)).UniqueKeys ∧
      (((((New [1, 2 ^ 40]).AddRange 5 (2 ^ 32 + 3)).RemoveRange 6 (2 ^ 33 + 1)).Clear).And
          (New [1, 2 ^ 40])).UniqueKeys ∧
      (false = false →
        (((((New [1, 2 ^ 40]).AddRange 5 (2 ^ 32 + 3)).RemoveRange 6 (2 ^ 33 + 1)).Clear).And
          (New [1, 2 ^ 40])).NoEmptyShard) :=
  ⟨Reachable_invariant
      (Reachable.Remove (Reachable.Xor (Reachable.New [1, 2 ^ 40]) (Reachable.New [2 ^ 40, 7]))
        1),
    (Reachable_invariant
      (Reachable.Flip (Reachable.RemoveRange (Reachable.AddRange (Reachable.New [1, 2 ^ 40])
        5 (2 ^ 32 + 3)) 6 (2 ^ 33 + 1)) 2 (2 ^ 32 + 9))).1,
    Reachable_invariant
      (Reachable.And (Reachable.Clear (Reachable.RemoveRange (Reachable.AddRange
        (Reachable.New [1, 2 ^ 40]) 5 (2 ^ 32 + 3)) 6 (2 ^ 33 + 1)))
        (Reachable.New [1, 2 ^ 40]))⟩

theorem Reachable_counterexample :
    Reachable true ((New [15]).AndNot (New [15])) ∧
      (∃ x ∈ ((New [15]).AndNot (New [15])).tree, x.Bitmap.IsEmpty = true) ∧
      Reachable true (New [15]).Clear ∧
      (∃ x ∈ (New [15]).Clear.tree, x.Bitmap.IsEmpty = true) ∧
      Reachable true ((New []).AddRange 5 5) ∧
      (∃ x ∈ ((New []).AddRange 5 5).tree, x.Bitmap.IsEmpty = true) ∧
      Reachable true ((New [5]).Flip 5 6) ∧
      (∃ x ∈ ((New [5]).Flip 5 6).tree, x.Bitmap.IsEmpty = true) ∧
      Reachable true ((New [7]).RemoveRange 5 (2 ^ 32 + 1)) ∧
      (∃ x ∈ ((New [7]).RemoveRange 5 (2 ^ 32 + 1)).tree, x.Bitmap.IsEmpty = true) :=
  ⟨Reachable.AndNot (Reachable.New [15]) (Reachable.New [15]), by decide,
    Reachable.Clear (Reachable.New [15]), by decide,
    Reachable.AddRange (Reachable.New []) 5 5, by decide,
    Reachable.Flip (Reachable.New [5]) 5 6, by decide,
    Reachable.RemoveRange (Reachable.New [7]) 5 (2 ^ 32 + 1), by decide⟩

end BTreemap

theorem eq_of_sorted_of_mem_iff {l₁ l₂ : List Nat} (h₁ : l₁.Pairwise (· < ·))
    (h₂ : l₂.Pairwise (· < ·)) (h : ∀ x, x ∈ l₁ ↔ x ∈ l₂) : l₁ = l₂ := by
  have hp : l₁.Perm l₂ :=
    (List.perm_ext_iff_of_nodup (h₁.imp (fun h => Nat.ne_of_lt h))
      (h₂.imp (fun h => Nat.ne_of_lt h))).2 h
  exact List.eq_of_perm_of_sorted hp h₁ h₂

namespace btree

theorem eq_of_Ordered_of_mem_iff {t₁ t₂ : BTree} (h₁ : Ordered t₁) (h₂ : Ordered t₂)
    (h : ∀ x, x ∈ t₁ ↔ x ∈ t₂) : t₁ = t₂ := by
  haveI : IsAntisymm keyedBitmap (fun x y => x.HighBits < y.HighBits) :=
    ⟨fun a b hab hba => absurd hab (Nat.lt_asymm hba)⟩
  have hn₁ : t₁.Nodup := h₁.imp (fun {a b} hab heq => by rw [heq] at hab; exact Nat.lt_irrefl _ hab)
  have hn₂ : t₂.Nodup := h₂.imp (fun {a b} hab heq => by rw [heq] at hab; exact Nat.lt_irrefl _ hab)
  exact List.eq_of_perm_of_sorted ((List.perm_ext_iff_of_nodup hn₁ hn₂).2 h) h₁ h₂

theorem eq_of_Ordered_of_subset {t₁ t₂ : BTree} (h₁ : Ordered t₁) (h₂ : Ordered t₂)
    (hsub : ∀ x ∈ t₁, x ∈ t₂) (hlen : t₂.length ≤ t₁.length) : t₁ = t₂ := by
  haveI : IsAntisymm keyedBitmap (fun x y => x.HighBits < y.HighBits) :=
    ⟨fun a b hab hba => absurd hab (Nat.lt_asymm hba)⟩
  have hn₁ : t₁.Nodup := h₁.imp (fun {a b} hab heq => by rw [heq] at hab; exact Nat.lt_irrefl _ hab)
  have hp : t₁.Perm t₂ := (List.subperm_of_subset hn₁ hsub).perm_of_length_le hlen
  exact List.eq_of_perm_of_sorted hp h₁ h₂

end btree

namespace BTreemap

theorem Equals_walk (other : BTreemap) (t : btree.BTree) :
    btree.Ascend (EqualsCallback other) t true = true ↔
      ∀ x ∈ t, ∃ obm, other.get x.HighBits = some obm ∧ x.Bitmap.vals = obm.Bitmap.vals := by
  induction t with
  | nil => simp [btree.Ascend]
  | cons x rest ih =>
    cases hg : other.get x.HighBits with
    | none =>
      simp only [btree.Ascend, EqualsCallback, hg, List.mem_cons, forall_eq_or_imp]
      simp
    | some obm =>
      by_cases he : x.Bitmap.vals = obm.Bitmap.vals
      · have : x.Bitmap.Equals obm.Bitmap = true := by simp [roaring.Bitmap.Equals, he]
        simp only [btree.Ascend, EqualsCallback, hg, this, List.mem_cons, forall_eq_or_imp]
        simp only [Bool.not_true, Bool.false_eq_true, if_false, Option.some.injEq,
          exists_eq_left', he, true_and]
        exact ih
      · have : x.Bitmap.Equals obm.Bitmap = false := by simp [roaring.Bitmap.Equals, he]
        simp only [btree.Ascend, EqualsCallback, hg, this, List.mem_cons, forall_eq_or_imp]
        simp [he]

theorem Equals_iff_tree_eq (a b : BTreemap) (ha : a.WF) (hb : b.WF) :
    a.Equals (Any.treemap b) = true ↔ a.tree = b.tree := by
  unfold Equals forEachBitmap
  simp only [btree.Len]
  constructor
  · intro h
    by_cases hlen : b.tree.length ≠ a.tree.length
    · rw [if_pos hlen] at h; cases h
    · rw [if_neg hlen, Equals_walk] at h
      refine btree.eq_of_Ordered_of_subset ha.1 hb.1 ?_ (by omega)
      intro x hx
      obtain ⟨obm, hg, he⟩ := h x hx
      have hk := btree.Get_key hg
      have : obm = x := by
        cases obm with
        | mk ob ok =>
          cases x with
          | mk xb xk =>
            cases ob; cases xb
            simp only at hk he
            simp only [keyedBitmap.mk.injEq, roaring.Bitmap.mk.injEq]
            exact ⟨he.symm, hk⟩
      rw [← this]
      exact btree.Get_mem hg
  · intro h
    rw [if_neg (by rw [h]; simp), Equals_walk, h]
    intro x hx
    exact ⟨x, btree.Get_of_mem hb.1 hx, rfl⟩

theorem Contains_join_iff (s : BTreemap) (hs : s.WF) (x : keyedBitmap) (hx : x ∈ s.tree)
    (lo : Nat) (hlo : lo < 2 ^ 32) :
    s.Contains (joinHiLo x.HighBits lo) = true ↔ lo ∈ x.Bitmap.vals := by
  rw [Contains_iff, splitHiLo_joinHiLo _ _ (hs.2 x hx).1 hlo]
  simp only [btree.Get_of_mem hs.1 hx, Option.some.injEq, exists_eq_left']

theorem tree_subset_of_Contains (a b : BTreemap) (ha : a.WF) (hb : b.WF) (hne : a.NoEmptyShard)
    (h : ∀ w, w < 2 ^ 64 → (a.Contains w = true ↔ b.Contains w = true)) :
    ∀ x ∈ a.tree, x ∈ b.tree := by
  intro x hx
  obtain ⟨lo, hlo⟩ := (roaring.Bitmap.IsEmpty_eq_false_iff _).1 (hne x hx)
  have hxk := (ha.2 x hx).1
  have hlo32 := (ha.2 x hx).2.2 lo hlo
  have hlt : ∀ l, l < 2 ^ 32 → joinHiLo x.HighBits l < 2 ^ 64 := by
    intro l hl; rw [joinHiLo_eq _ _ hxk hl]; omega
  have hcb : b.Contains (joinHiLo x.HighBits lo) = true :=
    (h _ (hlt lo hlo32)).1 ((Contains_join_iff a ha x hx lo hlo32).2 hlo)
  rw [Contains_iff, splitHiLo_joinHiLo _ _ hxk hlo32] at hcb
  obtain ⟨y, hy, -⟩ := hcb
  simp only at hy
  have hym := btree.Get_mem hy
  have hyk := btree.Get_key hy
  have hvals : x.Bitmap.vals = y.Bitmap.vals := by
    apply eq_of_sorted_of_mem_iff (ha.2 x hx).2.1 (hb.2 y hym).2.1
    intro l
    constructor
    · intro hl
      have hl32 := (ha.2 x hx).2.2 l hl
      have := (h _ (hlt l hl32)).1 ((Contains_join_iff a ha x hx l hl32).2 hl)
      rw [← hyk] at this
      exact (Contains_join_iff b hb y hym l hl32).1 this
    · intro hl
      have hl32 := (hb.2 y hym).2.2 l hl
      have := (Contains_join_iff b hb y hym l hl32).2 hl
      rw [hyk] at this
      exact (Contains_join_iff a ha x hx l hl32).1 ((h _ (hlt l hl32)).2 this)
  have : y = x := by
    cases y with
    | mk yb yk =>
      cases x with
      | mk xb xk =>
        cases yb; cases xb
        simp only at hyk hvals
        simp only [keyedBitmap.mk.injEq, roaring.Bitmap.mk.injEq]
        exact ⟨hvals.symm, hyk⟩
  rw [← this]
  exact hym

theorem tree_eq_iff_Contains (a b : BTreemap) (ha : a.WF) (hb : b.WF) (hna : a.NoEmptyShard)
    (hnb : b.NoEmptyShard) :
    a.tree = b.tree ↔ ∀ w, w < 2 ^ 64 → (a.Contains w = true ↔ b.Contains w = true) := by
  constructor
  · intro h w _
    unfold Contains get
    rw [h]
  · intro h
    apply btree.eq_of_Ordered_of_mem_iff ha.1 hb.1
    intro x
    exact ⟨tree_subset_of_Contains a b ha hb hna h x,
      tree_subset_of_Contains b a hb ha hnb (fun w hw => (h w hw).symm) x⟩

/-- C12. `New(xs...).Equals(New(ys...))` is true exactly when the two lists
have the same set of values, and `Equals` on an argument that is not a
`*BTreemap` is false. -/
theorem Equals_New (xs ys : List Nat) (hxs : ∀ x ∈ xs, x < 2 ^ 64)
    (hys : ∀ y ∈ ys, y < 2 ^ 64) :
    ((New xs).Equals (Any.treemap (New ys)) = true ↔ xs.toFinset = ys.toFinset) ∧
      (New xs).Equals Any.other = false := by
  refine ⟨?_, rfl⟩
  rw [Equals_iff_tree_eq _ _ (WF_New xs) (WF_New ys),
    tree_eq_iff_Contains _ _ (WF_New xs) (WF_New ys) (NoEmptyShard_New xs) (NoEmptyShard_New ys)]
  constructor
  · intro h
    ext w
    rw [List.mem_toFinset, List.mem_toFinset]
    constructor
    · intro hw
      exact (Contains_New_iff ys w hys (hxs w hw)).1
        ((h w (hxs w hw)).1 ((Contains_New_iff xs w hxs (hxs w hw)).2 hw))
    · intro hw
      exact (Contains_New_iff xs w hxs (hys w hw)).1
        ((h w (hys w hw)).2 ((Contains_New_iff ys w hys (hys w hw)).2 hw))
  · intro h w hw
    rw [Contains_New_iff xs w hxs hw, Contains_New_iff ys w hys hw, ← List.mem_toFinset, h,
      List.mem_toFinset]

theorem Equals_New_witness :
    ((New [10, 20, 2 ^ 32 - 1, 2 ^ 64 - 1, 10]).Equals
          (Any.treemap (New [2 ^ 32 - 1, 2 ^ 64 - 1, 10, 20])) = true ↔
        [10, 20, 2 ^ 32 - 1, 2 ^ 64 - 1, 10].toFinset
          = [2 ^ 32 - 1, 2 ^ 64 - 1, 10, 20].toFinset) ∧
      (New [10, 20, 2 ^ 32 - 1, 2 ^ 64 - 1, 10]).Equals Any.other = false :=
  Equals_New [10, 20, 2 ^ 32 - 1, 2 ^ 64 - 1, 10] [2 ^ 32 - 1, 2 ^ 64 - 1, 10, 20]
    (by decide) (by decide)

end BTreemap

theorem foldl_add_mod {α : Type} (g : α → Option Nat) (l : List α) (acc : Nat)
    (hacc : acc < 2 ^ 64) :
    l.foldl (fun c x => match g x with
        | none => c
        | some n => (c + n) % 2 ^ 64) acc
      = (acc + (l.map (fun x => (g x).getD 0)).sum) % 2 ^ 64 := by
  induction l generalizing acc with
  | nil =>
    simp only [List.foldl_nil, List.map_nil, List.sum_nil, Nat.add_zero]
    exact (Nat.mod_eq_of_lt hacc).symm
  | cons x rest ih =>
    rw [List.foldl_cons, List.map_cons, List.sum_cons]
    cases hg : g x with
    | none =>
      simp only [Option.getD_none, Nat.zero_add]
      exact ih acc hacc
    | some n =>
      simp only [Option.getD_some]
      rw [ih _ (Nat.mod_lt _ (by norm_num)), Nat.mod_add_mod, Nat.add_assoc]

theorem filter_mem_length_comm {l₁ l₂ : List Nat} (h₁ : l₁.Nodup) (h₂ : l₂.Nodup) :
    (l₁.filter (fun x => decide (x ∈ l₂))).length
      = (l₂.filter (fun x => decide (x ∈ l₁))).length := by
  rw [← List.toFinset_card_of_nodup (h₁.filter _), ← List.toFinset_card_of_nodup (h₂.filter _)]
  congr 1
  ext x
  simp only [List.mem_toFinset, List.mem_filter, decide_eq_true_eq]
  tauto

theorem length_of_mem_union {l₁ l₂ l₃ : List Nat} (h₁ : l₁.Nodup) (h₂ : l₂.Nodup)
    (h₃ : l₃.Nodup) (h : ∀ x, x ∈ l₃ ↔ x ∈ l₁ ∨ x ∈ l₂) :
    l₃.length = l₁.length + (l₂.filter (fun x => !decide (x ∈ l₁))).length := by
  have hnd : (l₁ ++ l₂.filter (fun x => !decide (x ∈ l₁))).Nodup := by
    rw [List.nodup_append]
    refine ⟨h₁, h₂.filter _, ?_⟩
    intro x hx hx2
    rw [List.mem_filter] at hx2
    simp [hx] at hx2
  have hp : l₃.Perm (l₁ ++ l₂.filter (fun x => !decide (x ∈ l₁))) := by
    rw [List.perm_ext_iff_of_nodup h₃ hnd]
    intro x
    rw [h, List.mem_append, List.mem_filter]
    simp only [Bool.not_eq_true', decide_eq_false_iff_not]
    tauto
  rw [hp.length_eq, List.length_append]

namespace BTreemap

theorem Contains_join (r : BTreemap) (k lo : Nat) (hk : k < 2 ^ 32) (hlo : lo < 2 ^ 32) :
    r.Contains (joinHiLo k lo)
      = match r.get k with
        | none => false
        | some rbm => decide (lo ∈ rbm.Bitmap.vals) := by
  unfold Contains
  rw [splitHiLo_joinHiLo k lo hk hlo]
  rfl

/-- The values of one shard that another set holds. -/
theorem shard_filter_Contains (r : BTreemap) (x : keyedBitmap) (hx : x.HighBits < 2 ^ 32)
    (hxw : x.Bitmap.WF) :
    (x.Bitmap.vals.map (fun lo => joinHiLo x.HighBits lo)).filter (fun w => r.Contains w)
      = (x.Bitmap.vals.filter (fun lo =>
          match r.get x.HighBits with
          | none => false
          | some rbm => decide (lo ∈ rbm.Bitmap.vals))).map (fun lo => joinHiLo x.HighBits lo) := by
  rw [List.filter_map]
  congr 1
  apply List.filter_congr
  intro lo hlo
  simp only [Function.comp]
  exact Contains_join r x.HighBits lo hx (hxw.2 lo hlo)

theorem values_filter_Contains_length (r : BTreemap) (hr : r.WF) (t : btree.BTree)
    (ht : ∀ x ∈ t, x.HighBits < 2 ^ 32 ∧ x.Bitmap.WF) :
    ((btree.values t).filter (fun w => r.Contains w)).length
      = (t.map (fun x => ((r.get x.HighBits).map
          (fun rbm => rbm.Bitmap.AndCardinality x.Bitmap)).getD 0)).sum := by
  induction t with
  | nil => rfl
  | cons x rest ih =>
    have hx := ht x (List.mem_cons_self _ _)
    rw [btree.values_cons, List.filter_append, List.length_append, List.map_cons, List.sum_cons,
      ih (fun y hy => ht y (List.mem_cons_of_mem _ hy)), shard_filter_Contains r x hx.1 hx.2,
      List.length_map]
    congr 1
    cases hg : r.get x.HighBits with
    | none => simp
    | some rbm =>
      have hrw := (hr.2 rbm (btree.Get_mem hg)).2
      simp only [Option.map_some', Option.getD_some, roaring.Bitmap.AndCardinality,
        roaring.Bitmap.And, roaring.Bitmap.GetCardinality, roaring.Bitmap.Contains]
      exact filter_mem_length_comm (hx.2.1.imp (fun h => Nat.ne_of_lt h))
        (hrw.1.imp (fun h => Nat.ne_of_lt h))

end BTreemap

namespace BTreemap

theorem AndCardinality_walk (r : BTreemap) (t : btree.BTree) :
    btree.Ascend (AndCardinalityCallback r) t 0
      = (t.map (fun x => ((r.get x.HighBits).map
          (fun rbm => rbm.Bitmap.AndCardinality x.Bitmap)).getD 0)).sum % 2 ^ 64 := by
  have hcb : AndCardinalityCallback r = (fun total bm =>
      ((match (r.get bm.HighBits).map (fun rbm => rbm.Bitmap.AndCardinality bm.Bitmap) with
        | none => total
        | some n => (total + n) % 2 ^ 64), true)) := by
    funext total bm
    unfold AndCardinalityCallback
    cases r.get bm.HighBits <;> rfl
  rw [hcb]
  refine (btree.Ascend_eq_foldl (fun total bm =>
      match (r.get bm.HighBits).map (fun rbm => rbm.Bitmap.AndCardinality bm.Bitmap) with
        | none => total
        | some n => (total + n) % 2 ^ 64) t 0).trans ?_
  have h := foldl_add_mod (fun bm => (r.get bm.HighBits).map
      (fun rbm => rbm.Bitmap.AndCardinality bm.Bitmap)) t 0 (by norm_num)
  rw [Nat.zero_add] at h
  exact h

theorem count64_and_eq (s r : BTreemap) (hs : s.WF) :
    count64 (fun w => s.Contains w = true ∧ r.Contains w = true)
      = ((btree.values s.tree).filter (fun w => r.Contains w)).length := by
  rw [count64_eq s hs (fun w => r.Contains w = true)]
  congr 1
  apply List.filter_congr
  intro w _
  simp

theorem AndCardinality_walk_count (l r : BTreemap) (hl : l.WF) (hr : r.WF) :
    l.forEachBitmap (AndCardinalityCallback r) 0
      = count64 (fun w => l.Contains w = true ∧ r.Contains w = true) % 2 ^ 64 := by
  unfold forEachBitmap
  rw [AndCardinality_walk, count64_and_eq l r hl, values_filter_Contains_length r hr l.tree hl.2]

theorem AndCardinality_eq (a b : BTreemap) (ha : a.WF) (hb : b.WF) :
    a.AndCardinality b
      = count64 (fun w => a.Contains w = true ∧ b.Contains w = true) % 2 ^ 64 := by
  unfold AndCardinality
  split_ifs
  · rw [AndCardinality_walk_count b a hb ha,
      count64_congr _ _ (fun w _ => (and_comm : b.Contains w = true ∧ a.Contains w = true ↔ _))]
  · exact AndCardinality_walk_count a b ha hb

theorem AndCardinality_comm (a b : BTreemap) (ha : a.WF) (hb : b.WF) :
    a.AndCardinality b = b.AndCardinality a := by
  rw [AndCardinality_eq a b ha hb, AndCardinality_eq b a hb ha,
    count64_congr _ _ (fun w _ => (and_comm : b.Contains w = true ∧ a.Contains w = true ↔ _))]

end BTreemap

namespace Heap

/-- C15, amended. `a.AndCardinality(b)` is the number of values contained in
both `a` and `b` reduced modulo `2 ^ 64` (that number whenever it is below
`2 ^ 64`), it equals `b.AndCardinality(a)`, and the call leaves every instance
as it was. -/
theorem AndCardinality_spec (h : Heap) (a b : Nat) (ha : (h a).WF) (hb : (h b).WF) :
    (h.AndCardinality a b).2
        = count64 (fun w => (h a).Contains w = true ∧ (h b).Contains w = true) % 2 ^ 64 ∧
      (count64 (fun w => (h a).Contains w = true ∧ (h b).Contains w = true) < 2 ^ 64 →
        (h.AndCardinality a b).2
          = count64 (fun w => (h a).Contains w = true ∧ (h b).Contains w = true)) ∧
      (h.AndCardinality a b).2 = (h.AndCardinality b a).2 ∧
      (h.AndCardinality a b).1 = h := by
  have hc := BTreemap.AndCardinality_eq (h a) (h b) ha hb
  exact ⟨hc, fun hlt => by rw [← Nat.mod_eq_of_lt hlt]; exact hc,
    BTreemap.AndCardinality_comm (h a) (h b) ha hb, rfl⟩

theorem AndCardinality_spec_witness :
    ((ofPair (BTreemap.New [25]) (BTreemap.New [1, 21, 25, 2 ^ 40])).AndCardinality 0 1).2
        = count64 (fun w =>
            (ofPair (BTreemap.New [25]) (BTreemap.New [1, 21, 25, 2 ^ 40]) 0).Contains w = true ∧
            (ofPair (BTreemap.New [25]) (BTreemap.New [1, 21, 25, 2 ^ 40]) 1).Contains w = true)
          % 2 ^ 64 ∧
      (count64 (fun w =>
            (ofPair (BTreemap.New [25]) (BTreemap.New [1, 21, 25, 2 ^ 40]) 0).Contains w = true ∧
            (ofPair (BTreemap.New [25]) (BTreemap.New [1, 21, 25, 2 ^ 40]) 1).Contains w = true)
          < 2 ^ 64 →
        ((ofPair (BTreemap.New [25]) (BTreemap.New [1, 21, 25, 2 ^ 40])).AndCardinality 0 1).2
          = count64 (fun w =>
            (ofPair (BTreemap.New [25]) (BTreemap.New [1, 21, 25, 2 ^ 40]) 0).Contains w = true ∧
            (ofPair (BTreemap.New [25]) (BTreemap.New [1, 21, 25, 2 ^ 40]) 1).Contains w
              = true)) ∧
      ((ofPair (BTreemap.New [25]) (BTreemap.New [1, 21, 25, 2 ^ 40])).AndCardinality 0 1).2
        = ((ofPair (BTreemap.New [25]) (BTreemap.New [1, 21, 25, 2 ^ 40])).AndCardinality 1 0).2 ∧
      ((ofPair (BTreemap.New [25]) (BTreemap.New [1, 21, 25, 2 ^ 40])).AndCardinality 0 1).1
        = ofPair (BTreemap.New [25]) (BTreemap.New [1, 21, 25, 2 ^ 40]) :=
  AndCardinality_spec (ofPair (BTreemap.New [25]) (BTreemap.New [1, 21, 25, 2 ^ 40])) 0 1
    (BTreemap.WF_New _) (BTreemap.WF_New _)

theorem AndCardinality_counterexample :
    (ofPair (BTreemap.below (2 ^ 32) (2 ^ 32)) (BTreemap.below (2 ^ 32) (2 ^ 32)) 0).WF ∧
      (ofPair (BTreemap.below (2 ^ 32) (2 ^ 32)) (BTreemap.below (2 ^ 32) (2 ^ 32)) 1).WF ∧
      ((ofPair (BTreemap.below (2 ^ 32) (2 ^ 32))
          (BTreemap.below (2 ^ 32) (2 ^ 32))).AndCardinality 0 1).2 = 0 ∧
      count64 (fun w =>
          (ofPair (BTreemap.below (2 ^ 32) (2 ^ 32))
            (BTreemap.below (2 ^ 32) (2 ^ 32)) 0).Contains w = true ∧
          (ofPair (BTreemap.below (2 ^ 32) (2 ^ 32))
            (BTreemap.below (2 ^ 32) (2 ^ 32)) 1).Contains w = true) = 2 ^ 64 ∧
      ((ofPair (BTreemap.below (2 ^ 32) (2 ^ 32))
          (BTreemap.below (2 ^ 32) (2 ^ 32))).AndCardinality 0 1).2
        ≠ count64 (fun w =>
          (ofPair (BTreemap.below (2 ^ 32) (2 ^ 32))
            (BTreemap.below (2 ^ 32) (2 ^ 32)) 0).Contains w = true ∧
          (ofPair (BTreemap.below (2 ^ 32) (2 ^ 32))
            (BTreemap.below (2 ^ 32) (2 ^ 32)) 1).Contains w = true) := by
  have hw := BTreemap.WF_below (2 ^ 32) (2 ^ 32) le_rfl le_rfl
  have hc : count64 (fun w =>
      (ofPair (BTreemap.below (2 ^ 32) (2 ^ 32))
        (BTreemap.below (2 ^ 32) (2 ^ 32)) 0).Contains w = true ∧
      (ofPair (BTreemap.below (2 ^ 32) (2 ^ 32))
        (BTreemap.below (2 ^ 32) (2 ^ 32)) 1).Contains w = true) = 2 ^ 64 := by
    refine (count64_congr _ _ ?_).trans BTreemap.count64_below
    intro w _
    rw [ofPair_zero, ofPair_one]
    exact and_self_iff
  have hg : ((ofPair (BTreemap.below (2 ^ 32) (2 ^ 32))
      (BTreemap.below (2 ^ 32) (2 ^ 32))).AndCardinality 0 1).2 = 0 := by
    unfold AndCardinality
    simp only
    rw [BTreemap.AndCardinality_eq
      (ofPair (BTreemap.below (2 ^ 32) (2 ^ 32)) (BTreemap.below (2 ^ 32) (2 ^ 32)) 0)
      (ofPair (BTreemap.below (2 ^ 32) (2 ^ 32)) (BTreemap.below (2 ^ 32) (2 ^ 32)) 1) hw hw, hc]
    norm_num
  refine ⟨hw, hw, hg, hc, ?_⟩
  rw [hg, hc]
  norm_num

end Heap

theorem count64_or_add_and (p q : Nat → Prop) [DecidablePred p] [DecidablePred q] :
    count64 (fun w => p w ∨ q w) + count64 (fun w => p w ∧ q w) = count64 p + count64 q := by
  unfold count64
  rw [Finset.filter_or, Finset.filter_and]
  exact Finset.card_union_add_card_inter _ _

theorem count64_split (q p : Nat → Prop) [DecidablePred p] [DecidablePred q] :
    count64 (fun w => q w ∧ p w) + count64 (fun w => q w ∧ ¬ p w) = count64 q := by
  unfold count64
  rw [← Finset.filter_filter, ← Finset.filter_filter]
  exact Finset.filter_card_add_filter_neg_card_eq_card p

theorem count64_or (p q : Nat → Prop) [DecidablePred p] [DecidablePred q] :
    count64 (fun w => p w ∨ q w) = count64 p + count64 (fun w => q w ∧ ¬ p w) := by
  have h1 := count64_or_add_and p q
  have h2 := count64_split q p
  have h3 : count64 (fun w => p w ∧ q w) = count64 (fun w => q w ∧ p w) :=
    count64_congr _ _ (fun w _ => and_comm)
  omega

namespace BTreemap

/-- Number of values in the shard of `a` with key `k`, zero without a shard. -/
theorem sum_seen_step (a : btree.BTree) (ha : btree.Ordered a) (k : Nat) (ks : List Nat) :
    (a.map (fun x => if x.HighBits ∈ ks then 0 else x.Bitmap.vals.length)).sum
      = (a.map (fun x => if x.HighBits ∈ k :: ks then 0 else x.Bitmap.vals.length)).sum
        + (if k ∈ ks then 0 else ((btree.Get a k).map (fun x => x.Bitmap.vals.length)).getD 0) := by
  induction a with
  | nil => simp [btree.Get]
  | cons x rest ih =>
    have hp := List.pairwise_cons.1 ha
    have hgt : ∀ y ∈ rest, x.HighBits < y.HighBits := hp.1
    rw [List.map_cons, List.sum_cons, List.map_cons, List.sum_cons, ih hp.2]
    by_cases hk : k ∈ ks
    · have hx : (x.HighBits ∈ k :: ks) ↔ x.HighBits ∈ ks := by
        rw [List.mem_cons]
        constructor
        · rintro (h | h)
          · rw [h]; exact hk
          · exact h
        · exact Or.inr
      simp only [hk, if_true, hx, Nat.add_zero]
    · simp only [hk, if_false]
      by_cases hxk : x.HighBits = k
      · have hnone : btree.Get rest k = none :=
          btree.Get_eq_none_of_lt (fun y hy => by rw [← hxk]; exact hgt y hy)
        have hget : btree.Get (x :: rest) k = some x := by
          rw [← hxk]; exact btree.Get_of_mem ha (List.mem_cons_self _ _)
        have h1 : x.HighBits ∉ ks := by rw [hxk]; exact hk
        have h2 : x.HighBits ∈ k :: ks := by rw [hxk]; exact List.mem_cons_self _ _
        simp only [hnone, hget, h1, h2, if_true, if_false, Option.map_none', Option.map_some',
          Option.getD_none, Option.getD_some]
        omega
      · have hx : (x.HighBits ∈ k :: ks) ↔ x.HighBits ∈ ks := by
          rw [List.mem_cons]
          constructor
          · rintro (h | h)
            · exact absurd h hxk
            · exact h
          · exact Or.inr
        have hget : btree.Get (x :: rest) k = btree.Get rest k := by
          simp only [btree.Get]
          by_cases h1 : x.HighBits < k
          · rw [if_pos h1]
          · have hlt : k < x.HighBits := by omega
            rw [if_neg h1, if_pos hlt]
            exact (btree.Get_eq_none_of_lt (fun y hy => lt_trans hlt (hgt y hy))).symm
        simp only [hx, hget]
        omega

theorem sum_seen_reindex (a l : btree.BTree) (ha : btree.Ordered a) (hl : btree.Ordered l) :
    (l.map (fun y => ((btree.Get a y.HighBits).map (fun x => x.Bitmap.vals.length)).getD 0)).sum
      + (a.map (fun x => if x.HighBits ∈ l.map (fun y => y.HighBits) then 0
          else x.Bitmap.vals.length)).sum
      = (a.map (fun x => x.Bitmap.vals.length)).sum := by
  induction l with
  | nil => simp
  | cons y rest ih =>
    have hp := List.pairwise_cons.1 hl
    have hy : y.HighBits ∉ rest.map (fun y => y.HighBits) := by
      intro h
      obtain ⟨z, hz, hzk⟩ := List.mem_map.1 h
      have := hp.1 z hz
      omega
    have hstep := sum_seen_step a ha y.HighBits (rest.map (fun y => y.HighBits))
    rw [if_neg hy] at hstep
    rw [← ih hp.2, List.map_cons, List.sum_cons, List.map_cons, hstep]
    omega

end BTreemap

namespace btree

theorem values_length (t : BTree) :
    (values t).length = (t.map (fun x => x.Bitmap.vals.length)).sum := by
  induction t with
  | nil => rfl
  | cons x rest ih =>
    rw [values_cons, List.length_append, List.length_map, ih, List.map_cons, List.sum_cons]

end btree

namespace BTreemap

theorem shard_filter_not_Contains (r : BTreemap) (x : keyedBitmap) (hx : x.HighBits < 2 ^ 32)
    (hxw : x.Bitmap.WF) :
    (x.Bitmap.vals.map (fun lo => joinHiLo x.HighBits lo)).filter (fun w => !r.Contains w)
      = (x.Bitmap.vals.filter (fun lo =>
          !(match r.get x.HighBits with
            | none => false
            | some rbm => decide (lo ∈ rbm.Bitmap.vals)))).map
          (fun lo => joinHiLo x.HighBits lo) := by
  rw [List.filter_map]
  congr 1
  apply List.filter_congr
  intro lo hlo
  simp only [Function.comp]
  exact congrArg (fun c => !c) (Contains_join r x.HighBits lo hx (hxw.2 lo hlo))

/-- What the first walk of `OrCardinality` adds for one shard of `other`. -/
theorem OrCardinality_shard (a : BTreemap) (ha : a.WF) (y : keyedBitmap) (hy : y.Bitmap.WF) :
    (match a.get y.HighBits with
      | none => y.Bitmap.GetCardinality
      | some cur => cur.Bitmap.OrCardinality y.Bitmap)
      = ((btree.Get a.tree y.HighBits).map (fun x => x.Bitmap.vals.length)).getD 0
        + (y.Bitmap.vals.filter (fun lo =>
            !(match a.get y.HighBits with
              | none => false
              | some rbm => decide (lo ∈ rbm.Bitmap.vals)))).length := by
  cases hg : a.get y.HighBits with
  | none =>
    have hg2 : btree.Get a.tree y.HighBits = none := hg
    simp only [hg2, Option.map_none', Option.getD_none, Nat.zero_add, Bool.not_false,
      List.filter_true, roaring.Bitmap.GetCardinality]
  | some cur =>
    have hg2 : btree.Get a.tree y.HighBits = some cur := hg
    have hcw := (ha.2 cur (btree.Get_mem hg2)).2
    simp only [hg2, Option.map_some', Option.getD_some, roaring.Bitmap.OrCardinality,
      roaring.Bitmap.GetCardinality]
    exact length_of_mem_union (hcw.1.imp (fun h => Nat.ne_of_lt h))
      (hy.1.imp (fun h => Nat.ne_of_lt h))
      ((roaring.Bitmap.WF_Or _ _ hcw hy).1.imp (fun h => Nat.ne_of_lt h))
      (roaring.Bitmap.mem_Or _ _)

theorem OrCardinality_walk1 (a : BTreemap) (l : btree.BTree) (st : Nat × List Nat)
    (hst : st.1 < 2 ^ 64) :
    (btree.Ascend (OrCardinalityCallback a) l st).1
        = (st.1 + (l.map (fun y =>
            match a.get y.HighBits with
            | none => y.Bitmap.GetCardinality
            | some cur => cur.Bitmap.OrCardinality y.Bitmap)).sum) % 2 ^ 64 ∧
      ∀ k, k ∈ (btree.Ascend (OrCardinalityCallback a) l st).2
        ↔ k ∈ l.map (fun y => y.HighBits) ∨ k ∈ st.2 := by
  induction l generalizing st with
  | nil =>
    simp only [btree.Ascend, List.map_nil, List.sum_nil, Nat.add_zero, List.not_mem_nil,
      false_or, implies_true, and_true]
    exact (Nat.mod_eq_of_lt hst).symm
  | cons y rest ih =>
    cases hg : a.get y.HighBits with
    | none =>
      simp only [btree.Ascend, OrCardinalityCallback, hg, List.map_cons, List.sum_cons]
      obtain ⟨h1, h2⟩ := ih ((st.1 + y.Bitmap.GetCardinality) % 2 ^ 64, y.HighBits :: st.2)
        (Nat.mod_lt _ (by norm_num))
      refine ⟨?_, ?_⟩
      · rw [h1]; simp only; rw [Nat.mod_add_mod, Nat.add_assoc]
      · intro k; rw [h2]; simp only [List.mem_cons]; tauto
    | some cur =>
      simp only [btree.Ascend, OrCardinalityCallback, hg, List.map_cons, List.sum_cons]
      obtain ⟨h1, h2⟩ := ih ((st.1 + cur.Bitmap.OrCardinality y.Bitmap) % 2 ^ 64,
        y.HighBits :: st.2) (Nat.mod_lt _ (by norm_num))
      refine ⟨?_, ?_⟩
      · rw [h1]; simp only; rw [Nat.mod_add_mod, Nat.add_assoc]
      · intro k; rw [h2]; simp only [List.mem_cons]; tauto

theorem OrCardinality_walk2 (seen : List Nat) (t : btree.BTree) (acc : Nat)
    (hacc : acc < 2 ^ 64) :
    btree.Ascend (OrCardinalityRest seen) t acc
      = (acc + (t.map (fun x => if x.HighBits ∈ seen then 0 else x.Bitmap.vals.length)).sum)
          % 2 ^ 64 := by
  induction t generalizing acc with
  | nil =>
    simp only [btree.Ascend, List.map_nil, List.sum_nil, Nat.add_zero]
    exact (Nat.mod_eq_of_lt hacc).symm
  | cons x rest ih =>
    by_cases hs : x.HighBits ∈ seen
    · simp only [btree.Ascend, OrCardinalityRest, if_pos hs, List.map_cons, List.sum_cons,
        Nat.zero_add]
      exact ih acc hacc
    · simp only [btree.Ascend, OrCardinalityRest, if_neg hs, List.map_cons, List.sum_cons]
      rw [ih _ (Nat.mod_lt _ (by norm_num)), roaring.Bitmap.GetCardinality, Nat.mod_add_mod,
        Nat.add_assoc]

theorem values_filter_not_Contains_length (r : BTreemap) (t : btree.BTree)
    (ht : ∀ x ∈ t, x.HighBits < 2 ^ 32 ∧ x.Bitmap.WF) :
    ((btree.values t).filter (fun w => !r.Contains w)).length
      = (t.map (fun x => (x.Bitmap.vals.filter (fun lo =>
          !(match r.get x.HighBits with
            | none => false
            | some rbm => decide (lo ∈ rbm.Bitmap.vals)))).length)).sum := by
  induction t with
  | nil => rfl
  | cons x rest ih =>
    have hx := ht x (List.mem_cons_self _ _)
    rw [btree.values_cons, List.filter_append, List.length_append, List.map_cons, List.sum_cons,
      ih (fun y hy => ht y (List.mem_cons_of_mem _ hy)), shard_filter_not_Contains r x hx.1 hx.2,
      List.length_map]

theorem count64_or_eq (a b : BTreemap) (ha : a.WF) (hb : b.WF) :
    count64 (fun w => a.Contains w = true ∨ b.Contains w = true)
      = (btree.values a.tree).length
        + ((btree.values b.tree).filter (fun w => !a.Contains w)).length := by
  rw [count64_or, count64_Contains a ha, count64_eq b hb (fun w => ¬ a.Contains w = true)]
  congr 2
  apply List.filter_congr
  intro w _
  cases a.Contains w <;> simp

theorem OrCardinality_eq (a b : BTreemap) (ha : a.WF) (hb : b.WF) :
    a.OrCardinality b
      = count64 (fun w => a.Contains w = true ∨ b.Contains w = true) % 2 ^ 64 := by
  unfold OrCardinality forEachBitmap
  simp only
  obtain ⟨h1, h2⟩ := OrCardinality_walk1 a b.tree (0, []) (by norm_num)
  rw [OrCardinality_walk2 _ _ _ (by rw [h1]; exact Nat.mod_lt _ (by norm_num)), h1]
  simp only [Nat.zero_add, Nat.mod_add_mod]
  have hseen : (a.tree.map (fun x =>
      if x.HighBits ∈ (btree.Ascend (OrCardinalityCallback a) b.tree (0, [])).2 then 0
      else x.Bitmap.vals.length))
      = a.tree.map (fun x => if x.HighBits ∈ b.tree.map (fun y => y.HighBits) then 0
          else x.Bitmap.vals.length) := by
    apply List.map_congr_left
    intro x _
    have := h2 x.HighBits
    simp only [List.not_mem_nil, or_false] at this
    by_cases hm : x.HighBits ∈ b.tree.map (fun y => y.HighBits)
    · rw [if_pos hm, if_pos (this.2 hm)]
    · rw [if_neg hm, if_neg (fun h => hm (this.1 h))]
  have hshard : (b.tree.map (fun y =>
      match a.get y.HighBits with
      | none => y.Bitmap.GetCardinality
      | some cur => cur.Bitmap.OrCardinality y.Bitmap))
      = b.tree.map (fun y =>
          ((btree.Get a.tree y.HighBits).map (fun x => x.Bitmap.vals.length)).getD 0
          + (y.Bitmap.vals.filter (fun lo =>
              !(match a.get y.HighBits with
                | none => false
                | some rbm => decide (lo ∈ rbm.Bitmap.vals)))).length) := by
    apply List.map_congr_left
    intro y hy
    exact OrCardinality_shard a ha y (hb.2 y hy).2
  rw [hseen, hshard, List.sum_map_add, count64_or_eq a b ha hb, btree.values_length a.tree,
    values_filter_not_Contains_length a b.tree hb.2, ← sum_seen_reindex a.tree b.tree ha.1 hb.1]
  congr 1
  omega

end BTreemap

namespace BTreemap

theorem GetCardinality_eq_count (s : BTreemap) (hs : s.WF) :
    s.GetCardinality = count64 (fun w => s.Contains w = true) % 2 ^ 64 := by
  rw [GetCardinality_eq, count64_Contains s hs]

end BTreemap

namespace Heap

/-- C16. When the sum of `OrCardinality` does not overflow, `a.OrCardinality(b)`
is the number of values contained in `a` or in `b`; when the two cardinalities
add up without overflow, `a.OrCardinality(b) + a.AndCardinality(b)` is
`a.GetCardinality() + b.GetCardinality()`.  In general the result is that number
reduced modulo `2 ^ 64`, and the call leaves every instance as it was. -/
theorem OrCardinality_spec (h : Heap) (a b : Nat) (ha : (h a).WF) (hb : (h b).WF) :
    (count64 (fun w => (h a).Contains w = true ∨ (h b).Contains w = true) < 2 ^ 64 →
        (h.OrCardinality a b).2
          = count64 (fun w => (h a).Contains w = true ∨ (h b).Contains w = true)) ∧
      (count64 (fun w => (h a).Contains w = true) + count64 (fun w => (h b).Contains w = true)
          < 2 ^ 64 →
        (h.OrCardinality a b).2 + (h.AndCardinality a b).2
          = (h a).GetCardinality + (h b).GetCardinality) ∧
      (h.OrCardinality a b).2
        = count64 (fun w => (h a).Contains w = true ∨ (h b).Contains w = true) % 2 ^ 64 ∧
      (h.OrCardinality a b).1 = h := by
  have hor := BTreemap.OrCardinality_eq (h a) (h b) ha hb
  have hand := BTreemap.AndCardinality_eq (h a) (h b) ha hb
  have hsum := count64_or_add_and (fun w => (h a).Contains w = true)
    (fun w => (h b).Contains w = true)
  have hca := BTreemap.GetCardinality_eq_count (h a) ha
  have hcb := BTreemap.GetCardinality_eq_count (h b) hb
  refine ⟨fun hlt => by rw [← Nat.mod_eq_of_lt hlt]; exact hor, ?_, hor, rfl⟩
  intro hlt
  show (h a).OrCardinality (h b) + (h a).AndCardinality (h b) = _
  rw [hor, hand, hca, hcb, Nat.mod_eq_of_lt (by omega), Nat.mod_eq_of_lt (by omega),
    Nat.mod_eq_of_lt (by omega), Nat.mod_eq_of_lt (by omega)]
  exact hsum

theorem count64_or_lt (h : Heap) (a b : Nat) (ha : (h a).WF) (hb : (h b).WF)
    (hlen : (btree.values (h a).tree).length + (btree.values (h b).tree).length < 2 ^ 64) :
    count64 (fun w => (h a).Contains w = true ∨ (h b).Contains w = true) < 2 ^ 64 := by
  have hsum := count64_or_add_and (fun w => (h a).Contains w = true)
    (fun w => (h b).Contains w = true)
  rw [BTreemap.count64_Contains _ ha, BTreemap.count64_Contains _ hb] at hsum
  omega

theorem count64_add_lt (h : Heap) (a b : Nat) (ha : (h a).WF) (hb : (h b).WF)
    (hlen : (btree.values (h a).tree).length + (btree.values (h b).tree).length < 2 ^ 64) :
    count64 (fun w => (h a).Contains w = true) + count64 (fun w => (h b).Contains w = true)
      < 2 ^ 64 := by
  rw [BTreemap.count64_Contains _ ha, BTreemap.count64_Contains _ hb]
  exact hlen

theorem OrCardinality_spec_witness :
    ((ofPair (BTreemap.New [25, 2 ^ 50]) (BTreemap.New [1, 21, 25, 2 ^ 40])).OrCardinality
          0 1).2
        = count64 (fun w =>
            (ofPair (BTreemap.New [25, 2 ^ 50]) (BTreemap.New [1, 21, 25, 2 ^ 40]) 0).Contains w
              = true ∨
            (ofPair (BTreemap.New [25, 2 ^ 50]) (BTreemap.New [1, 21, 25, 2 ^ 40]) 1).Contains w
              = true) ∧
      ((ofPair (BTreemap.New [25, 2 ^ 50]) (BTreemap.New [1, 21, 25, 2 ^ 40])).OrCardinality
          0 1).2
        + ((ofPair (BTreemap.New [25, 2 ^ 50])
            (BTreemap.New [1, 21, 25, 2 ^ 40])).AndCardinality 0 1).2
        = (ofPair (BTreemap.New [25, 2 ^ 50])
            (BTreemap.New [1, 21, 25, 2 ^ 40]) 0).GetCardinality
          + (ofPair (BTreemap.New [25, 2 ^ 50])
            (BTreemap.New [1, 21, 25, 2 ^ 40]) 1).GetCardinality :=
  ⟨(OrCardinality_spec (ofPair (BTreemap.New [25, 2 ^ 50]) (BTreemap.New [1, 21, 25, 2 ^ 40]))
      0 1 (BTreemap.WF_New _) (BTreemap.WF_New _)).1
      (count64_or_lt (ofPair (BTreemap.New [25, 2 ^ 50]) (BTreemap.New [1, 21, 25, 2 ^ 40]))
        0 1 (BTreemap.WF_New _) (BTreemap.WF_New _) (by decide)),
    (OrCardinality_spec (ofPair (BTreemap.New [25, 2 ^ 50]) (BTreemap.New [1, 21, 25, 2 ^ 40]))
      0 1 (BTreemap.WF_New _) (BTreemap.WF_New _)).2.1
      (count64_add_lt (ofPair (BTreemap.New [25, 2 ^ 50]) (BTreemap.New [1, 21, 25, 2 ^ 40]))
        0 1 (BTreemap.WF_New _) (BTreemap.WF_New _) (by decide))⟩

end Heap

/-! ## `serialization.go`: bytes, writers and readers -/

theorem int64_of_range (x : Int) (h0 : -2 ^ 63 ≤ x) (h1 : x < 2 ^ 63) : int64 x = x := by
  unfold int64
  omega

namespace binary

theorem length_putLittleEndian (width v : Nat) : (putLittleEndian width v).length = width := by
  induction width generalizing v with
  | zero => rfl
  | succ k ih => simp only [putLittleEndian, List.length_cons, ih]

theorem getLittleEndian_putLittleEndian (width v : Nat) :
    getLittleEndian (putLittleEndian width v) = v % 256 ^ width := by
  induction width generalizing v with
  | zero => simp [putLittleEndian, getLittleEndian, Nat.mod_one]
  | succ k ih =>
    simp only [putLittleEndian, getLittleEndian, ih]
    rw [pow_succ, Nat.mul_comm (256 ^ k) 256, Nat.mod_mul]

theorem LittleEndian_Lawful : LittleEndian.Lawful := fun width v =>
  ⟨length_putLittleEndian width v, getLittleEndian_putLittleEndian width v⟩

theorem BigEndian_Lawful : BigEndian.Lawful := fun width v =>
  ⟨by simp only [BigEndian, List.length_reverse, length_putLittleEndian],
   by simp only [BigEndian, List.reverse_reverse, getLittleEndian_putLittleEndian]⟩

theorem Read_append (bs rest : List Nat) :
    Read (bs ++ rest) bs.length = Except.ok (bs, rest) := by
  unfold Read
  rw [if_pos (by simp), List.take_left, List.drop_left]

theorem Read_append_of_length (bs rest : List Nat) (k : Nat) (h : bs.length = k) :
    Read (bs ++ rest) k = Except.ok (bs, rest) := by
  subst h
  exact Read_append bs rest

end binary

theorem Writer.Write_of_unlimited (w : Writer) (p : List Nat) (h : w.room = none) :
    w.Write p = ({ w with buf := w.buf ++ p }, p.length, none) := by
  simp only [Writer.Write, h]

theorem Writer.Write_of_ok (w : Writer) (p : List Nat) (h : (w.Write p).2.2 = none) :
    (w.Write p).1.buf = w.buf ++ p ∧ (w.Write p).2.1 = p.length := by
  unfold Writer.Write at h ⊢
  cases hr : w.room with
  | none => simp only [hr, and_self]
  | some k =>
    simp only [hr] at h ⊢
    by_cases hk : p.length ≤ k
    · simp only [if_pos hk, and_self]
    · simp only [if_neg hk] at h
      cases h

/-! ## `ReadFrom` after an error -/

theorem cpp_ReadFrom_error (f : roaring.Format) (s : BTreemap) (r : List Nat)
    (h : (cppSerializer.ReadFrom f s r).2.2 ≠ none) : (cppSerializer.ReadFrom f s r).1 = s := by
  unfold cppSerializer.ReadFrom at h ⊢
  cases hr : binary.Read r 8 with
  | error e => rfl
  | ok p =>
    obtain ⟨sz, r1⟩ := p
    simp only [hr] at h ⊢
    rcases hl : ReadFromLoop f binary.LittleEndian (binary.LittleEndian.get sz) r1 [] 8
      with ⟨t, n, e⟩
    cases e with
    | none => rw [hl] at h; exact absurd rfl h
    | some e => rfl

theorem jvm_ReadFrom_error (f : roaring.Format) (s : BTreemap) (r : List Nat)
    (h : (jvmSerializer.ReadFrom f s r).2.2 ≠ none) : (jvmSerializer.ReadFrom f s r).1 = s := by
  unfold jvmSerializer.ReadFrom at h ⊢
  cases hr : binary.Read r 1 with
  | error e => rfl
  | ok p =>
    obtain ⟨b, r1⟩ := p
    simp only [hr] at h ⊢
    cases hr1 : binary.Read r1 4 with
    | error e => rfl
    | ok p1 =>
      obtain ⟨sz, r2⟩ := p1
      simp only [hr1] at h ⊢
      rcases hl : ReadFromLoop f binary.BigEndian (binary.BigEndian.get sz) r2 [] 8
        with ⟨t, n, e⟩
      cases e with
      | none => rw [hl] at h; exact absurd rfl h
      | some e => rfl

/-- C18: when `ReadFrom` of either serializer returns an error, the receiver
is what it was before the call, index and serializer: no shard decoded before
the failure is visible and every previous member is still contained. -/
theorem BTreemap.ReadFrom_error_unchanged (f : roaring.Format) (s : BTreemap) (r : List Nat) :
    ((cppSerializer.ReadFrom f s r).2.2 ≠ none →
        (cppSerializer.ReadFrom f s r).1 = s ∧
          ∀ v, (cppSerializer.ReadFrom f s r).1.Contains v = s.Contains v) ∧
      ((jvmSerializer.ReadFrom f s r).2.2 ≠ none →
        (jvmSerializer.ReadFrom f s r).1 = s ∧
          ∀ v, (jvmSerializer.ReadFrom f s r).1.Contains v = s.Contains v) ∧
      ∀ res, s.ReadFrom f r = some res → res.2.2 ≠ none →
        res.1.tree = s.tree ∧ ∀ v, res.1.Contains v = s.Contains v := by
  refine ⟨fun h => ?_, fun h => ?_, fun res hres h => ?_⟩
  · rw [cpp_ReadFrom_error f s r h]
    exact ⟨rfl, fun _ => rfl⟩
  · rw [jvm_ReadFrom_error f s r h]
    exact ⟨rfl, fun _ => rfl⟩
  · unfold BTreemap.ReadFrom at hres
    cases hs : s.serializer with
    | none => rw [hs] at hres; cases hres
    | some c =>
      cases c with
      | cppSerializer =>
        simp only [hs, Option.some.injEq] at hres
        subst hres
        rw [cpp_ReadFrom_error f s r h]
        exact ⟨rfl, fun _ => rfl⟩
      | jvmSerializer =>
        simp only [hs, Option.some.injEq] at hres
        subst hres
        rw [jvm_ReadFrom_error f s r h]
        exact ⟨rfl, fun _ => rfl⟩

theorem BTreemap.ReadFrom_error_unchanged_witness :
    ((cppSerializer.ReadFrom roaring.Format.plain (BTreemap.New [7, 2 ^ 40])
          [2, 0, 0, 0, 0, 0, 0, 0,
           0, 0, 0, 0, 1, 0, 0, 0, 0, 0, 0, 0, 1, 0, 0, 0,
           2, 0, 0, 0, 1, 0, 0, 0, 0, 0, 0, 0, 5, 0, 0]).2.2
        = some StreamError.ErrUnexpectedEOF) ∧
      (cppSerializer.ReadFrom roaring.Format.plain (BTreemap.New [7, 2 ^ 40])
          [2, 0, 0, 0, 0, 0, 0, 0,
           0, 0, 0, 0, 1, 0, 0, 0, 0, 0, 0, 0, 1, 0, 0, 0,
           2, 0, 0, 0, 1, 0, 0, 0, 0, 0, 0, 0, 5, 0, 0]).1 = BTreemap.New [7, 2 ^ 40] ∧
      ((jvmSerializer.ReadFrom roaring.Format.plain (BTreemap.New [7, 2 ^ 40]).WithJvmSerializer
          [0, 0, 0, 0, 2,
           0, 0, 0, 0, 1, 0, 0, 0, 0, 0, 0, 0, 1, 0, 0, 0,
           0, 0]).2.2
        = some StreamError.ErrUnexpectedEOF) ∧
      (jvmSerializer.ReadFrom roaring.Format.plain (BTreemap.New [7, 2 ^ 40]).WithJvmSerializer
          [0, 0, 0, 0, 2,
           0, 0, 0, 0, 1, 0, 0, 0, 0, 0, 0, 0, 1, 0, 0, 0,
           0, 0]).1.Contains (2 ^ 40) = true :=
  ⟨by decide,
   ((BTreemap.ReadFrom_error_unchanged roaring.Format.plain (BTreemap.New [7, 2 ^ 40]) _).1
      (by decide)).1,
   by decide,
   (((BTreemap.ReadFrom_error_unchanged roaring.Format.plain
      (BTreemap.New [7, 2 ^ 40]).WithJvmSerializer _).2.1 (by decide)).2 (2 ^ 40)).trans
      (by decide)⟩

/-! ## `WriteTo`: the bytes and the byte count -/

theorem WriteToCallback_cases (f : roaring.Format) (order : binary.ByteOrder)
    (st : Writer × Int × Option StreamError) (x : keyedBitmap) :
    ((WriteToCallback f order st x).2 = false ∧ (WriteToCallback f order st x).1.2.2 ≠ none) ∨
    ((WriteToCallback f order st x).2 = true ∧ (WriteToCallback f order st x).1.2.2 = none ∧
      (WriteToCallback f order st x).1.1.buf
        = st.1.buf ++ (order.put 4 x.HighBits ++ f.encode x.Bitmap) ∧
      (WriteToCallback f order st x).1.2.1
        = int64 (int64 (st.2.1 + 4) + int64 (f.encode x.Bitmap).length)) := by
  unfold WriteToCallback
  unfold binary.Write
  cases h1 : (st.1.Write (order.put 4 x.HighBits)).2.2 with
  | some e => left; simp only [h1]; exact ⟨trivial, Option.some_ne_none e⟩
  | none =>
    simp only [h1]
    unfold roaring.Bitmap.WriteTo
    cases h2 : ((st.1.Write (order.put 4 x.HighBits)).1.Write (f.encode x.Bitmap)).2.2 with
    | some e => left; simp only [h2]; exact ⟨trivial, Option.some_ne_none e⟩
    | none =>
      right
      simp only [h2]
      have a1 := Writer.Write_of_ok _ _ h1
      have a2 := Writer.Write_of_ok _ _ h2
      refine ⟨trivial, trivial, ?_, ?_⟩
      · rw [a2.1, a1.1, List.append_assoc]
      · rw [a2.2]

theorem WriteToCallback_of_unlimited (f : roaring.Format) (order : binary.ByteOrder)
    (st : Writer × Int × Option StreamError) (x : keyedBitmap) (h : st.1.room = none) :
    (WriteToCallback f order st x).1.2.2 = none ∧ (WriteToCallback f order st x).1.1.room = none := by
  unfold WriteToCallback binary.Write roaring.Bitmap.WriteTo
  rw [Writer.Write_of_unlimited _ _ h]
  simp only
  have h1 : ({ buf := st.1.buf ++ order.put 4 x.HighBits, room := st.1.room } : Writer).room
      = none := h
  rw [Writer.Write_of_unlimited _ _ h1]
  simp only [and_self]
  exact ⟨trivial, h⟩

theorem Ascend_WriteToCallback_unlimited (f : roaring.Format) (order : binary.ByteOrder)
    (t : btree.BTree) (st : Writer × Int × Option StreamError) (h : st.1.room = none)
    (he : st.2.2 = none) :
    (btree.Ascend (WriteToCallback f order) t st).2.2 = none := by
  induction t generalizing st with
  | nil => exact he
  | cons x rest ih =>
    have hu := WriteToCallback_of_unlimited f order st x h
    rcases hc : WriteToCallback f order st x with ⟨st1, b⟩
    rw [hc] at hu
    cases b with
    | true => simp only [btree.Ascend, hc]; exact ih st1 hu.2 hu.1
    | false => simp only [btree.Ascend, hc]; exact hu.1

theorem Ascend_WriteToCallback_buf (f : roaring.Format) (order : binary.ByteOrder)
    (t : btree.BTree) (st : Writer × Int × Option StreamError)
    (h : (btree.Ascend (WriteToCallback f order) t st).2.2 = none) :
    (btree.Ascend (WriteToCallback f order) t st).1.buf = st.1.buf ++ shardBytes f order t := by
  induction t generalizing st with
  | nil => simp [btree.Ascend, shardBytes]
  | cons x rest ih =>
    have hcs := WriteToCallback_cases f order st x
    rcases hc : WriteToCallback f order st x with ⟨st1, b⟩
    rw [hc] at hcs
    cases b with
    | false =>
      simp only [btree.Ascend, hc] at h
      rcases hcs with hcs | hcs
      · exact absurd h hcs.2
      · cases hcs.1
    | true =>
      simp only [btree.Ascend, hc] at h ⊢
      rcases hcs with hcs | hcs
      · cases hcs.1
      · rw [ih st1 h, hcs.2.2.1]
        simp only [shardBytes, List.flatMap_cons, List.append_assoc]

theorem shardCost_cons (f : roaring.Format) (x : keyedBitmap) (t : btree.BTree) :
    shardCost f (x :: t) = 4 + (f.encode x.Bitmap).length + shardCost f t := by
  simp only [shardCost, List.map_cons, List.sum_cons]

theorem Ascend_WriteToCallback_count (f : roaring.Format) (order : binary.ByteOrder)
    (t : btree.BTree) (st : Writer × Int × Option StreamError)
    (h : (btree.Ascend (WriteToCallback f order) t st).2.2 = none)
    (h0 : 0 ≤ st.2.1) (h1 : st.2.1 + shardCost f t < 2 ^ 63) :
    (btree.Ascend (WriteToCallback f order) t st).2.1 = st.2.1 + shardCost f t := by
  induction t generalizing st with
  | nil => simp [btree.Ascend, shardCost]
  | cons x rest ih =>
    have hcs := WriteToCallback_cases f order st x
    rcases hc : WriteToCallback f order st x with ⟨st1, b⟩
    rw [hc] at hcs
    rw [shardCost_cons] at h1 ⊢
    cases b with
    | false =>
      simp only [btree.Ascend, hc] at h
      rcases hcs with hcs | hcs
      · exact absurd h hcs.2
      · cases hcs.1
    | true =>
      simp only [btree.Ascend, hc] at h ⊢
      rcases hcs with hcs | hcs
      · cases hcs.1
      · have hn : st1.2.1 = st.2.1 + 4 + (f.encode x.Bitmap).length := by
          rw [hcs.2.2.2, int64_of_range (st.2.1 + 4) (by omega) (by omega),
            int64_of_range ((f.encode x.Bitmap).length : Int) (by omega) (by omega),
            int64_of_range _ (by omega) (by omega)]
        rw [ih st1 h (by omega) (by push_cast at h1 ⊢; omega), hn]
        push_cast
        ring

theorem cpp_WriteTo_of_ok (f : roaring.Format) (s : BTreemap) (w : Writer)
    (h : (cppSerializer.WriteTo f s w).2.2 = none) :
    (cppSerializer.WriteTo f s w).1.buf
        = w.buf ++ binary.LittleEndian.put 8 (btree.Len s.tree % 2 ^ 64)
            ++ shardBytes f binary.LittleEndian s.tree ∧
      ((8 : Int) + shardCost f s.tree < 2 ^ 63 →
        (cppSerializer.WriteTo f s w).2.1 = 8 + shardCost f s.tree) := by
  unfold cppSerializer.WriteTo binary.Write BTreemap.forEachBitmap at h ⊢
  cases h1 : (w.Write (binary.LittleEndian.put 8 (btree.Len s.tree % 2 ^ 64))).2.2 with
  | some e => simp only [h1] at h; cases h
  | none =>
    simp only [h1] at h ⊢
    refine ⟨?_, fun hb => ?_⟩
    · rw [Ascend_WriteToCallback_buf f _ _ _ h, (Writer.Write_of_ok _ _ h1).1]
    · rw [Ascend_WriteToCallback_count f _ _ _ h (by norm_num) hb]

theorem cpp_WriteTo_of_unlimited (f : roaring.Format) (s : BTreemap) (w : Writer)
    (h : w.room = none) : (cppSerializer.WriteTo f s w).2.2 = none := by
  unfold cppSerializer.WriteTo binary.Write BTreemap.forEachBitmap
  rw [Writer.Write_of_unlimited _ _ h]
  exact Ascend_WriteToCallback_unlimited f _ _ _ h rfl

theorem shardCost_le (f : roaring.Format) (t : btree.BTree) (b : Nat)
    (hb : ∀ x ∈ t, (f.encode x.Bitmap).length < b) : shardCost f t ≤ t.length * (4 + b) := by
  induction t with
  | nil => simp [shardCost]
  | cons x rest ih =>
    rw [shardCost_cons, List.length_cons, Nat.succ_mul]
    have h1 := hb x (List.mem_cons_self _ _)
    have h2 := ih (fun y hy => hb y (List.mem_cons_of_mem _ hy))
    omega

theorem BTreemap.Len_le (s : BTreemap) (hs : s.WF) : s.tree.length ≤ 2 ^ 32 := by
  have h := length_le_of_sorted_lt (l := s.tree.map (fun x => x.HighBits)) (n := 2 ^ 32)
    (List.pairwise_map.2 hs.1)
    (fun k hk => by
      obtain ⟨x, hx, rfl⟩ := List.mem_map.1 hk
      exact (hs.2 x hx).1)
  rwa [List.length_map] at h

theorem shardCost_lt (f : roaring.Format) (s : BTreemap) (hs : s.WF)
    (hb : ∀ x ∈ s.tree, (f.encode x.Bitmap).length < 2 ^ 30) :
    8 + shardCost f s.tree < 2 ^ 63 := by
  have h1 := shardCost_le f s.tree (2 ^ 30) hb
  have h2 := s.Len_le hs
  have h3 : s.tree.length * (4 + 2 ^ 30) ≤ 2 ^ 32 * (4 + 2 ^ 30) := Nat.mul_le_mul_right _ h2
  have h4 : 8 + 2 ^ 32 * (4 + 2 ^ 30) < 2 ^ 63 := by norm_num
  omega

theorem sum_WriteTo_counts (f : roaring.Format) (w : Writer) (hw : w.room = none)
    (t : btree.BTree) (hb : ∀ x ∈ t, (f.encode x.Bitmap).length < 2 ^ 30) :
    (4 * (t.length : Int) + (t.map (fun x => (roaring.Bitmap.WriteTo f x.Bitmap w).2.1)).sum)
      = shardCost f t := by
  induction t with
  | nil => simp [shardCost]
  | cons x rest ih =>
    have h1 := hb x (List.mem_cons_self _ _)
    have h2 := ih (fun y hy => hb y (List.mem_cons_of_mem _ hy))
    rw [shardCost_cons, List.map_cons, List.sum_cons, List.length_cons]
    have h3 : (roaring.Bitmap.WriteTo f x.Bitmap w).2.1 = (f.encode x.Bitmap).length := by
      unfold roaring.Bitmap.WriteTo
      rw [Writer.Write_of_unlimited _ _ hw]
      show int64 ((f.encode x.Bitmap).length : Int) = _
      exact int64_of_range _ (by omega) (by
        have : (2 : Int) ^ 30 < 2 ^ 63 := by norm_num
        omega)
    rw [h3]
    push_cast
    omega

theorem BTreemap.GetSerializedSizeInBytes_eq (f : roaring.Format) (s : BTreemap) :
    s.GetSerializedSizeInBytes f
      = ((8 + btree.Len s.tree % 2 ^ 64 * 4 % 2 ^ 64) % 2 ^ 64
          + (s.tree.map (fun x => f.GetSerializedSizeInBytes x.Bitmap % 2 ^ 64)).sum) % 2 ^ 64 := by
  unfold BTreemap.GetSerializedSizeInBytes BTreemap.forEachBitmap
  refine (btree.Ascend_eq_foldl
    (fun n x => (n + f.GetSerializedSizeInBytes x.Bitmap % 2 ^ 64) % 2 ^ 64) s.tree _).trans ?_
  exact foldl_add_mod (fun x => some (f.GetSerializedSizeInBytes x.Bitmap % 2 ^ 64)) s.tree _
    (Nat.mod_lt _ (by norm_num))

/-- C19: with the C++ serializer and a writer that never fails, `WriteTo`
succeeds and returns `8 + 4 * shards +` the sum of the byte counts returned by
the containers, which is `GetSerializedSizeInBytes()` whenever each container
returns its own `GetSerializedSizeInBytes()` from `WriteTo`.  A container
serializes to less than `2 ^ 30` bytes, which keeps the `int64` count exact. -/
theorem BTreemap.WriteTo_count (f : roaring.Format) (s : BTreemap) (w : Writer) (hs : s.WF)
    (hser : s.serializer = some serializer.cppSerializer) (hw : w.room = none)
    (hb : ∀ x ∈ s.tree, (f.encode x.Bitmap).length < 2 ^ 30) :
    ∃ res, s.WriteTo f w = some res ∧ res.2.2 = none ∧
      res.2.1 = 8 + 4 * (btree.Len s.tree : Int)
          + (s.tree.map (fun x => (roaring.Bitmap.WriteTo f x.Bitmap w).2.1)).sum ∧
      ((∀ x ∈ s.tree, (roaring.Bitmap.WriteTo f x.Bitmap w).2.1
            = ((f.GetSerializedSizeInBytes x.Bitmap % 2 ^ 64 : Nat) : Int)) →
        res.2.1 = ((s.GetSerializedSizeInBytes f : Nat) : Int)) := by
  have hok := cpp_WriteTo_of_unlimited f s w hw
  have hlt := shardCost_lt f s hs hb
  have hn := (cpp_WriteTo_of_ok f s w hok).2 (by exact_mod_cast hlt)
  have hsum := sum_WriteTo_counts f w hw s.tree hb
  refine ⟨cppSerializer.WriteTo f s w, ?_, hok, ?_, fun hsz => ?_⟩
  · simp only [BTreemap.WriteTo, hser]
  · rw [hn, ← hsum, btree.Len]
    ring
  · rw [hn, BTreemap.GetSerializedSizeInBytes_eq]
    have hmap : s.tree.map (fun x => f.GetSerializedSizeInBytes x.Bitmap % 2 ^ 64)
        = s.tree.map (fun x => (f.encode x.Bitmap).length) := by
      refine List.map_congr_left (fun x hx => ?_)
      have h1 := hsz x hx
      have h2 : (roaring.Bitmap.WriteTo f x.Bitmap w).2.1 = (f.encode x.Bitmap).length := by
        unfold roaring.Bitmap.WriteTo
        rw [Writer.Write_of_unlimited _ _ hw]
        show int64 ((f.encode x.Bitmap).length : Int) = _
        have := hb x hx
        exact int64_of_range _ (by omega) (by
          have : (2 : Int) ^ 30 < 2 ^ 63 := by norm_num
          omega)
      rw [h2] at h1
      exact (Int.ofNat_inj.1 h1).symm
    have hcost : shardCost f s.tree
        = 4 * s.tree.length + (s.tree.map (fun x => (f.encode x.Bitmap).length)).sum := by
      generalize s.tree = t
      induction t with
      | nil => simp [shardCost]
      | cons x rest ih =>
        rw [shardCost_cons, ih, List.map_cons, List.sum_cons, List.length_cons]
        omega
    have hlen := s.Len_le hs
    rw [hmap, btree.Len]
    have e1 : s.tree.length % 2 ^ 64 = s.tree.length := Nat.mod_eq_of_lt (by omega)
    have e2 : s.tree.length * 4 % 2 ^ 64 = s.tree.length * 4 := Nat.mod_eq_of_lt (by omega)
    have e3 : (8 + s.tree.length * 4) % 2 ^ 64 = 8 + s.tree.length * 4 :=
      Nat.mod_eq_of_lt (by omega)
    rw [e1, e2, e3, Nat.mod_eq_of_lt (by omega), hcost]
    push_cast
    omega

theorem BTreemap.WriteTo_count_witness :
    ∃ res, (BTreemap.New [1, 2, 2 ^ 33 + 5]).WriteTo roaring.Format.plain ⟨[], none⟩ = some res ∧
      res.2.2 = none ∧
      res.2.1 = 8 + 4 * (btree.Len (BTreemap.New [1, 2, 2 ^ 33 + 5]).tree : Int)
          + ((BTreemap.New [1, 2, 2 ^ 33 + 5]).tree.map (fun x =>
              (roaring.Bitmap.WriteTo roaring.Format.plain x.Bitmap ⟨[], none⟩).2.1)).sum ∧
      ((∀ x ∈ (BTreemap.New [1, 2, 2 ^ 33 + 5]).tree,
          (roaring.Bitmap.WriteTo roaring.Format.plain x.Bitmap ⟨[], none⟩).2.1
            = ((roaring.Format.plain.GetSerializedSizeInBytes x.Bitmap % 2 ^ 64 : Nat) : Int)) →
        res.2.1
          = (((BTreemap.New [1, 2, 2 ^ 33 + 5]).GetSerializedSizeInBytes roaring.Format.plain
              : Nat) : Int)) :=
  BTreemap.WriteTo_count roaring.Format.plain (BTreemap.New [1, 2, 2 ^ 33 + 5]) ⟨[], none⟩
    (BTreemap.WF_New _) rfl rfl (by decide)

/-! ## `ReadFrom` of what `WriteTo` wrote -/

theorem btree.ReplaceOrInsert_last (acc : btree.BTree) (x : keyedBitmap)
    (h : ∀ y ∈ acc, y.HighBits < x.HighBits) : btree.ReplaceOrInsert acc x = acc ++ [x] := by
  induction acc with
  | nil => rfl
  | cons y rest ih =>
    have hy := h y (List.mem_cons_self _ _)
    unfold btree.ReplaceOrInsert
    rw [if_neg (by omega), if_pos hy, ih (fun z hz => h z (List.mem_cons_of_mem _ hz))]
    rfl

theorem shardBytes_cons (f : roaring.Format) (order : binary.ByteOrder) (x : keyedBitmap)
    (t : btree.BTree) (rest : List Nat) :
    shardBytes f order (x :: t) ++ rest
      = order.put 4 x.HighBits ++ (f.encode x.Bitmap ++ (shardBytes f order t ++ rest)) := by
  simp only [shardBytes, List.flatMap_cons, List.append_assoc]

theorem roaring.Bitmap.ReadFrom_encode (f : roaring.Format) (bm : roaring.Bitmap)
    (rest : List Nat)
    (h : f.decode (f.encode bm ++ rest) = Except.ok (bm, (f.encode bm).length)) :
    roaring.Bitmap.ReadFrom f (f.encode bm ++ rest)
      = Except.ok (bm, rest, int64 (f.encode bm).length) := by
  unfold roaring.Bitmap.ReadFrom
  rw [h]
  simp only [List.drop_left]

theorem ReadFromLoop_shardBytes (f : roaring.Format) (order : binary.ByteOrder)
    (ho : order.Lawful) (t acc : btree.BTree) (hk : ∀ x ∈ t, x.HighBits < 2 ^ 32)
    (hrt : ∀ x ∈ t, ∀ rest,
      f.decode (f.encode x.Bitmap ++ rest) = Except.ok (x.Bitmap, (f.encode x.Bitmap).length))
    (hord : btree.Ordered (acc ++ t)) (rest : List Nat) (n : Int) :
    (ReadFromLoop f order t.length (shardBytes f order t ++ rest) acc n).1 = acc ++ t ∧
      (ReadFromLoop f order t.length (shardBytes f order t ++ rest) acc n).2.2 = none := by
  induction t generalizing acc n with
  | nil => simp [ReadFromLoop]
  | cons x t ih =>
    have hx := hk x (List.mem_cons_self _ _)
    have hget : order.get (order.put 4 x.HighBits) = x.HighBits := by
      rw [(ho 4 x.HighBits).2]
      exact Nat.mod_eq_of_lt (by norm_num; omega)
    have hins : btree.ReplaceOrInsert acc
        { Bitmap := x.Bitmap, HighBits := order.get (order.put 4 x.HighBits) } = acc ++ [x] := by
      rw [hget]
      refine btree.ReplaceOrInsert_last acc x (fun y hy => ?_)
      exact (List.pairwise_append.1 hord).2.2 y hy x (List.mem_cons_self _ _)
    have hord1 : btree.Ordered ((acc ++ [x]) ++ t) := by
      rw [List.append_assoc]; exact hord
    have h := ih (acc ++ [x]) (fun y hy => hk y (List.mem_cons_of_mem _ hy))
      (fun y hy => hrt y (List.mem_cons_of_mem _ hy)) hord1
      (int64 (int64 (n + 4) + int64 (f.encode x.Bitmap).length))
    rw [List.append_assoc] at h
    rw [shardBytes_cons, List.length_cons]
    simp only [ReadFromLoop, binary.Read_append_of_length _ _ 4 (ho 4 x.HighBits).1,
      roaring.Bitmap.ReadFrom_encode f x.Bitmap _ (hrt x (List.mem_cons_self _ _) _), hins]
    exact h

theorem cpp_ReadFrom_bytes (f : roaring.Format) (s t0 : BTreemap) (hs : s.WF)
    (hrt : ∀ x ∈ s.tree, ∀ rest,
      f.decode (f.encode x.Bitmap ++ rest) = Except.ok (x.Bitmap, (f.encode x.Bitmap).length)) :
    (cppSerializer.ReadFrom f t0
        (binary.LittleEndian.put 8 (btree.Len s.tree % 2 ^ 64)
          ++ shardBytes f binary.LittleEndian s.tree)).1 = { t0 with tree := s.tree } ∧
      (cppSerializer.ReadFrom f t0
        (binary.LittleEndian.put 8 (btree.Len s.tree % 2 ^ 64)
          ++ shardBytes f binary.LittleEndian s.tree)).2.2 = none := by
  have hlen := s.Len_le hs
  have hsz : binary.LittleEndian.get (binary.LittleEndian.put 8 (btree.Len s.tree % 2 ^ 64))
      = s.tree.length := by
    rw [(binary.LittleEndian_Lawful 8 _).2, btree.Len, Nat.mod_eq_of_lt (by omega)]
    exact Nat.mod_eq_of_lt (by norm_num; omega)
  have h := ReadFromLoop_shardBytes f binary.LittleEndian binary.LittleEndian_Lawful s.tree []
    (fun x hx => (hs.2 x hx).1) hrt hs.1 [] 8
  rw [List.append_nil, List.nil_append] at h
  unfold cppSerializer.ReadFrom
  rw [binary.Read_append_of_length _ _ 8 (binary.LittleEndian_Lawful 8 _).1]
  simp only [hsz]
  rcases hl : ReadFromLoop f binary.LittleEndian s.tree.length
    (shardBytes f binary.LittleEndian s.tree) [] 8 with ⟨tr, n, e⟩
  rw [hl] at h
  obtain ⟨h1, h2⟩ := h
  simp only at h1 h2
  subst h1 h2
  exact ⟨rfl, rfl⟩

theorem jvmSerializer.ReadFrom_header (f : roaring.Format) (t0 : BTreemap) (b : Nat)
    (sz rest : List Nat) (h : sz.length = 4) :
    jvmSerializer.ReadFrom f t0 ([b] ++ sz ++ rest)
      = match ReadFromLoop f binary.BigEndian (binary.BigEndian.get sz) rest [] 8 with
        | (_, n, some err) => (t0, n, some err)
        | (tree, n, none) => ({ t0 with tree := tree }, n, none) := by
  unfold jvmSerializer.ReadFrom
  rw [List.append_assoc, binary.Read_append_of_length [b] _ 1 rfl]
  simp only
  rw [binary.Read_append_of_length sz _ 4 h]

theorem jvm_ReadFrom_bytes (f : roaring.Format) (s t0 : BTreemap) (hs : s.WF)
    (hlt : btree.Len s.tree < 2 ^ 32)
    (hrt : ∀ x ∈ s.tree, ∀ rest,
      f.decode (f.encode x.Bitmap ++ rest) = Except.ok (x.Bitmap, (f.encode x.Bitmap).length)) :
    (jvmSerializer.ReadFrom f t0
        ([0] ++ binary.BigEndian.put 4 (btree.Len s.tree % 2 ^ 32)
          ++ shardBytes f binary.BigEndian s.tree)).1 = { t0 with tree := s.tree } ∧
      (jvmSerializer.ReadFrom f t0
        ([0] ++ binary.BigEndian.put 4 (btree.Len s.tree % 2 ^ 32)
          ++ shardBytes f binary.BigEndian s.tree)).2.2 = none := by
  have hsz : binary.BigEndian.get (binary.BigEndian.put 4 (btree.Len s.tree % 2 ^ 32))
      = s.tree.length := by
    rw [(binary.BigEndian_Lawful 4 _).2, Nat.mod_eq_of_lt hlt]
    exact Nat.mod_eq_of_lt (by norm_num; exact hlt)
  have h := ReadFromLoop_shardBytes f binary.BigEndian binary.BigEndian_Lawful s.tree []
    (fun x hx => (hs.2 x hx).1) hrt hs.1 [] 8
  rw [List.append_nil, List.nil_append] at h
  rw [jvmSerializer.ReadFrom_header f t0 0 _ _ (binary.BigEndian_Lawful 4 _).1, hsz]
  rcases hl : ReadFromLoop f binary.BigEndian s.tree.length
    (shardBytes f binary.BigEndian s.tree) [] 8 with ⟨tr, n, e⟩
  rw [hl] at h
  obtain ⟨h1, h2⟩ := h
  simp only at h1 h2
  subst h1 h2
  exact ⟨rfl, rfl⟩

theorem jvm_WriteTo_of_ok (f : roaring.Format) (s : BTreemap) (w : Writer)
    (h : (jvmSerializer.WriteTo f s w).2.2 = none) :
    (jvmSerializer.WriteTo f s w).1.buf
      = w.buf ++ ([0] ++ binary.BigEndian.put 4 (btree.Len s.tree % 2 ^ 32)
          ++ shardBytes f binary.BigEndian s.tree) := by
  unfold jvmSerializer.WriteTo binary.Write BTreemap.forEachBitmap at h ⊢
  cases h1 : (w.Write [0]).2.2 with
  | some e => simp only [h1] at h; cases h
  | none =>
    simp only [h1] at h ⊢
    cases h2 : ((w.Write [0]).1.Write
        (binary.BigEndian.put 4 (btree.Len s.tree % 2 ^ 32))).2.2 with
    | some e => simp only [h2] at h; cases h
    | none =>
      simp only [h2] at h ⊢
      rw [Ascend_WriteToCallback_buf f _ _ _ h, (Writer.Write_of_ok _ _ h2).1,
        (Writer.Write_of_ok _ _ h1).1]
      simp only [List.append_assoc]

theorem jvm_WriteTo_of_unlimited (f : roaring.Format) (s : BTreemap) (w : Writer)
    (h : w.room = none) : (jvmSerializer.WriteTo f s w).2.2 = none := by
  unfold jvmSerializer.WriteTo binary.Write BTreemap.forEachBitmap
  rw [Writer.Write_of_unlimited _ _ h]
  simp only
  have h1 : ({ buf := w.buf ++ [0], room := w.room } : Writer).room = none := h
  rw [Writer.Write_of_unlimited _ _ h1]
  exact Ascend_WriteToCallback_unlimited f _ _ _ h rfl

theorem roaring.Format.plainValues_flatMap (vals rest : List Nat) (h : ∀ v ∈ vals, v < 2 ^ 32) :
    roaring.Format.plainValues vals.length (vals.flatMap (binary.putLittleEndian 4) ++ rest)
      = vals := by
  induction vals with
  | nil => rfl
  | cons v vs ih =>
    have hv := h v (List.mem_cons_self _ _)
    rw [List.flatMap_cons, List.append_assoc, List.length_cons]
    unfold roaring.Format.plainValues
    rw [List.take_left' (binary.length_putLittleEndian 4 v),
      List.drop_left' (binary.length_putLittleEndian 4 v),
      binary.getLittleEndian_putLittleEndian, ih (fun u hu => h u (List.mem_cons_of_mem _ hu)),
      Nat.mod_eq_of_lt (by norm_num; omega)]

theorem roaring.Format.length_flatMap_put (vals : List Nat) :
    (vals.flatMap (binary.putLittleEndian 4)).length = 4 * vals.length := by
  induction vals with
  | nil => rfl
  | cons v vs ih =>
    rw [List.flatMap_cons, List.length_append, ih, binary.length_putLittleEndian,
      List.length_cons]
    omega

theorem roaring.Format.plain_roundtrip (bm : roaring.Bitmap) (h : bm.WF) (rest : List Nat) :
    roaring.Format.plain.decode (roaring.Format.plain.encode bm ++ rest)
      = Except.ok (bm, (roaring.Format.plain.encode bm).length) := by
  have hlen : bm.vals.length ≤ 2 ^ 32 := length_le_of_sorted_lt h.1 h.2
  have hl8 := binary.length_putLittleEndian 8 bm.vals.length
  have hget : binary.getLittleEndian (binary.putLittleEndian 8 bm.vals.length)
      = bm.vals.length := by
    rw [binary.getLittleEndian_putLittleEndian]
    exact Nat.mod_eq_of_lt (by norm_num; omega)
  simp only [roaring.Format.plain]
  rw [List.append_assoc, List.take_left' hl8, List.drop_left' hl8, hget,
    roaring.Format.plainValues_flatMap _ _ h.2]
  rw [if_pos (by simp only [List.length_append, hl8]; omega),
    if_pos (by simp only [List.length_append, roaring.Format.length_flatMap_put]; omega)]
  simp only [List.length_append, hl8, roaring.Format.length_flatMap_put]

theorem jvmSerializer.roundtrip_wrap (f : roaring.Format) (s t0 : BTreemap) (w : Writer)
    (hlen : btree.Len s.tree = 2 ^ 32) (hb : w.buf = []) (hr : w.room = none) :
    (jvmSerializer.WriteTo f s w).2.2 = none ∧
      jvmSerializer.ReadFrom f t0 (jvmSerializer.WriteTo f s w).1.buf
        = ({ t0 with tree := [] }, 8, none) := by
  have hok := jvm_WriteTo_of_unlimited f s w hr
  refine ⟨hok, ?_⟩
  rw [jvm_WriteTo_of_ok f s w hok, hb, List.nil_append,
    jvmSerializer.ReadFrom_header f t0 0 _ _ (binary.BigEndian_Lawful 4 _).1,
    (binary.BigEndian_Lawful 4 _).2, hlen, Nat.mod_self, Nat.zero_mod]
  rfl

theorem BTreemap.Contains_below_zero (n m : Nat) (hn : 0 < n) (hm : 0 < m) :
    (BTreemap.below n m).WithJvmSerializer.Contains 0 = true := by
  rw [BTreemap.Contains_iff]
  refine ⟨{ Bitmap := roaring.Bitmap.below m, HighBits := 0 }, ?_, ?_⟩
  · have hmem : ({ Bitmap := roaring.Bitmap.below m, HighBits := 0 } : keyedBitmap)
        ∈ (BTreemap.below n m).WithJvmSerializer.tree :=
      List.mem_map.2 ⟨0, List.mem_range.2 hn, rfl⟩
    have hord : btree.Ordered (BTreemap.below n m).WithJvmSerializer.tree := by
      show btree.Ordered ((List.range n).map _)
      unfold btree.Ordered
      rw [List.pairwise_map]
      exact List.pairwise_lt_range n
    exact btree.Get_of_mem hord hmem
  · exact List.mem_range.2 hm

theorem BTreemap.Equals_of_Len_ne (a b : BTreemap) (h : btree.Len b.tree ≠ btree.Len a.tree) :
    a.Equals (Any.treemap b) = false := by
  unfold BTreemap.Equals
  simp only [if_pos h]

theorem BTreemap.roundtrip_wrap_below (n m : Nat) (hn : n = 2 ^ 32) (hm : 0 < m)
    (hm1 : m ≤ 2 ^ 32) :
    (BTreemap.below n m).WF ∧
      (∀ x ∈ (BTreemap.below n m).tree, ∀ rest,
        roaring.Format.plain.decode (roaring.Format.plain.encode x.Bitmap ++ rest)
          = Except.ok (x.Bitmap, (roaring.Format.plain.encode x.Bitmap).length)) ∧
      ∃ wr rd,
        (BTreemap.below n m).WithJvmSerializer.WriteTo roaring.Format.plain ⟨[], none⟩ = some wr ∧
        wr.2.2 = none ∧
        (BTreemap.New []).WithJvmSerializer.ReadFrom roaring.Format.plain wr.1.buf = some rd ∧
        rd.2.2 = none ∧
        rd.1.Equals (Any.treemap (BTreemap.below n m).WithJvmSerializer) = false ∧
        rd.1.Contains 0 = false ∧
        (BTreemap.below n m).WithJvmSerializer.Contains 0 = true := by
  have hwf := BTreemap.WF_below n m (by omega) hm1
  have hlen : btree.Len (BTreemap.below n m).WithJvmSerializer.tree = 2 ^ 32 := by
    show ((List.range n).map _).length = 2 ^ 32
    rw [List.length_map, List.length_range, hn]
  have h := jvmSerializer.roundtrip_wrap roaring.Format.plain
    (BTreemap.below n m).WithJvmSerializer (BTreemap.New []).WithJvmSerializer ⟨[], none⟩
    hlen rfl rfl
  refine ⟨hwf, fun x hx rest => roaring.Format.plain_roundtrip x.Bitmap (hwf.2 x hx).2 rest,
    jvmSerializer.WriteTo roaring.Format.plain (BTreemap.below n m).WithJvmSerializer ⟨[], none⟩,
    ({ (BTreemap.New []).WithJvmSerializer with tree := [] }, 8, none),
    rfl, h.1, ?_, ?_, ?_, ?_, ?_⟩
  · exact congrArg some h.2
  · rfl
  · refine BTreemap.Equals_of_Len_ne _ _ ?_
    rw [hlen]
    exact Nat.ne_of_gt (by norm_num [btree.Len])
  · rfl
  · exact BTreemap.Contains_below_zero n m (by omega) hm

/-- C17, amended: what `WriteTo` wrote for a well-formed `s` is read back by
`ReadFrom` into a fresh instance without error, and the instance then equals
`s` and has its members, when each container of `s` is read back from its own
bytes: always with the C++ serializer, and with the JVM serializer when `s`
has fewer than `2 ^ 32` shards, the shard count being written as `uint32`. -/
theorem BTreemap.WriteTo_ReadFrom_roundtrip (f : roaring.Format) (s : BTreemap) (w : Writer)
    (hs : s.WF) (hw : w.buf = [])
    (hrt : ∀ x ∈ s.tree, ∀ rest,
      f.decode (f.encode x.Bitmap ++ rest) = Except.ok (x.Bitmap, (f.encode x.Bitmap).length)) :
    (∃ wr, s.WithCppSerializer.WriteTo f w = some wr ∧ (w.room = none → wr.2.2 = none) ∧
        (wr.2.2 = none →
          ∃ rd, (BTreemap.New []).WithCppSerializer.ReadFrom f wr.1.buf = some rd ∧
            rd.2.2 = none ∧ rd.1.Equals (Any.treemap s.WithCppSerializer) = true ∧
            ∀ v, rd.1.Contains v = s.Contains v)) ∧
      (btree.Len s.tree < 2 ^ 32 →
        ∃ wr, s.WithJvmSerializer.WriteTo f w = some wr ∧ (w.room = none → wr.2.2 = none) ∧
          (wr.2.2 = none →
            ∃ rd, (BTreemap.New []).WithJvmSerializer.ReadFrom f wr.1.buf = some rd ∧
              rd.2.2 = none ∧ rd.1.Equals (Any.treemap s.WithJvmSerializer) = true ∧
              ∀ v, rd.1.Contains v = s.Contains v)) := by
  constructor
  · refine ⟨cppSerializer.WriteTo f s.WithCppSerializer w, rfl,
      cpp_WriteTo_of_unlimited f _ w, fun hok => ?_⟩
    have hb := (cpp_WriteTo_of_ok f s.WithCppSerializer w hok).1
    rw [hw, List.nil_append] at hb
    have hrd := cpp_ReadFrom_bytes f s.WithCppSerializer
      (BTreemap.New []).WithCppSerializer hs hrt
    rw [← hb] at hrd
    refine ⟨_, rfl, hrd.2, ?_, fun v => ?_⟩
    · rw [hrd.1]
      exact (BTreemap.Equals_iff_tree_eq _ _ hs hs).2 rfl
    · rw [hrd.1]
      rfl
  · intro hlt
    refine ⟨jvmSerializer.WriteTo f s.WithJvmSerializer w, rfl,
      jvm_WriteTo_of_unlimited f _ w, fun hok => ?_⟩
    have hb := jvm_WriteTo_of_ok f s.WithJvmSerializer w hok
    rw [hw, List.nil_append] at hb
    have hrd := jvm_ReadFrom_bytes f s.WithJvmSerializer
      (BTreemap.New []).WithJvmSerializer hs hlt hrt
    rw [← hb] at hrd
    refine ⟨_, rfl, hrd.2, ?_, fun v => ?_⟩
    · rw [hrd.1]
      exact (BTreemap.Equals_iff_tree_eq _ _ hs hs).2 rfl
    · rw [hrd.1]
      rfl

theorem BTreemap.WriteTo_ReadFrom_roundtrip_witness :
    (∃ wr, (BTreemap.New [1, 2, 2 ^ 33 + 5, 2 ^ 64 - 1]).WithCppSerializer.WriteTo
          roaring.Format.plain ⟨[], none⟩ = some wr ∧ wr.2.2 = none ∧
        ∃ rd, (BTreemap.New []).WithCppSerializer.ReadFrom roaring.Format.plain wr.1.buf
            = some rd ∧
          rd.2.2 = none ∧
          rd.1.Equals
            (Any.treemap (BTreemap.New [1, 2, 2 ^ 33 + 5, 2 ^ 64 - 1]).WithCppSerializer) = true ∧
          ∀ v, rd.1.Contains v = (BTreemap.New [1, 2, 2 ^ 33 + 5, 2 ^ 64 - 1]).Contains v) ∧
      (∃ wr, (BTreemap.New [1, 2, 2 ^ 33 + 5, 2 ^ 64 - 1]).WithJvmSerializer.WriteTo
          roaring.Format.plain ⟨[], none⟩ = some wr ∧ wr.2.2 = none ∧
        ∃ rd, (BTreemap.New []).WithJvmSerializer.ReadFrom roaring.Format.plain wr.1.buf
            = some rd ∧
          rd.2.2 = none ∧
          rd.1.Equals
            (Any.treemap (BTreemap.New [1, 2, 2 ^ 33 + 5, 2 ^ 64 - 1]).WithJvmSerializer) = true ∧
          ∀ v, rd.1.Contains v = (BTreemap.New [1, 2, 2 ^ 33 + 5, 2 ^ 64 - 1]).Contains v) := by
  have h := BTreemap.WriteTo_ReadFrom_roundtrip roaring.Format.plain
    (BTreemap.New [1, 2, 2 ^ 33 + 5, 2 ^ 64 - 1]) ⟨[], none⟩ (BTreemap.WF_New _) rfl
    (fun x hx rest =>
      roaring.Format.plain_roundtrip x.Bitmap ((BTreemap.WF_New _).2 x hx).2 rest)
  obtain ⟨⟨wr, h1, h2, h3⟩, hj⟩ := h
  obtain ⟨wj, j1, j2, j3⟩ := hj (by decide)
  exact ⟨⟨wr, h1, h2 rfl, h3 (h2 rfl)⟩, ⟨wj, j1, j2 rfl, j3 (j2 rfl)⟩⟩

theorem BTreemap.WriteTo_ReadFrom_counterexample :
    (BTreemap.below (2 ^ 32) 1).WF ∧
      (∀ x ∈ (BTreemap.below (2 ^ 32) 1).tree, ∀ rest,
        roaring.Format.plain.decode (roaring.Format.plain.encode x.Bitmap ++ rest)
          = Except.ok (x.Bitmap, (roaring.Format.plain.encode x.Bitmap).length)) ∧
      ∃ wr rd,
        (BTreemap.below (2 ^ 32) 1).WithJvmSerializer.WriteTo roaring.Format.plain ⟨[], none⟩
          = some wr ∧
        wr.2.2 = none ∧
        (BTreemap.New []).WithJvmSerializer.ReadFrom roaring.Format.plain wr.1.buf = some rd ∧
        rd.2.2 = none ∧
        rd.1.Equals (Any.treemap (BTreemap.below (2 ^ 32) 1).WithJvmSerializer) = false ∧
        rd.1.Contains 0 = false ∧
        (BTreemap.below (2 ^ 32) 1).WithJvmSerializer.Contains 0 = true :=
  BTreemap.roundtrip_wrap_below (2 ^ 32) 1 rfl Nat.one_pos (Nat.one_le_two_pow)

/-! ## The iterators of `iterator.go` on small sets -/

namespace BTreemap

/-- C23. `AndNot` keeps the shard it empties.  When that shard is the first
one, `Iterator()` starts on its empty container: `HasNext()` is false at once
and the loop over the iterator yields nothing, while `ToArray()` is
`[2 ^ 32 + 5]`.  When it is in the middle, the loop stops there and the
members of the later shards are never produced. -/
theorem Iterator_empty_shard :
    ((New [1, 2 ^ 32 + 5]).AndNot (New [1])).ToArray = [2 ^ 32 + 5] ∧
      ((New [1, 2 ^ 32 + 5]).AndNot (New [1])).Iterator.HasNext = some false ∧
      (∀ fuel, (((New [1, 2 ^ 32 + 5]).AndNot (New [1])).Iterator.collect fuel).map (·.1)
        = some []) ∧
      ((New [1, 2 ^ 32 + 5, 2 ^ 33 + 7]).AndNot (New [2 ^ 32 + 5])).ToArray = [1, 2 ^ 33 + 7] ∧
      (((New [1, 2 ^ 32 + 5, 2 ^ 33 + 7]).AndNot (New [2 ^ 32 + 5])).Iterator.collect 3).map
          (fun r => (r.1, r.2.HasNext)) = some ([1], some false) := by
  refine ⟨by decide, by decide, ?_, by decide, by decide⟩
  intro fuel
  cases fuel <;> rfl

/-- C24. `ReverseIterator()` starts on the first shard with the ascending
iterator of its container: on `New(1, 2)` it yields `1` then `2`, where
`Maximum()` is `2`; on `New(1, 2 ^ 32 + 5)` it yields `1` and stops, since the
cursor has no item before the first one. -/
theorem ReverseIterator_ascending :
    ((New [1, 2]).ReverseIterator.collect 5).map (fun r => (r.1, r.2.HasNext))
        = some ([1, 2], some false) ∧
      (New [1, 2]).ToArray.reverse = [2, 1] ∧
      (New [1, 2]).Maximum = some 2 ∧
      (New [1, 2]).ReverseIterator.Next.map (·.1) = some 1 ∧
      ((New [1, 2 ^ 32 + 5]).ReverseIterator.collect 5).map (fun r => (r.1, r.2.HasNext))
        = some ([1], some false) ∧
      (New [1, 2 ^ 32 + 5]).ToArray.reverse = [2 ^ 32 + 5, 1] := by
  decide

/-- C25. `NextMany` fills a local buffer of 32-bit values and never writes to
the buffer it was given: on `New(1, 2)` with a buffer of length `2` it returns
`2` and leaves the buffer as it was.  Its receiver is passed by value, so the
shard it moves to is forgotten between calls: on a set of four members, calls
with a buffer of length `2` return `2`, then `1`, then `0`. -/
theorem NextMany_buffer :
    ((New [1, 2]).ManyIterator.NextMany 5 [0, 0]).map (fun r => (r.1, r.2.1)) = some (2, [0, 0]) ∧
      (New [1, 2]).ToArray.take 2 = [1, 2] ∧
      (∀ (fuel : Nat) (u : u64ManyIterator) (uint64s : List Nat),
        (u.NextMany fuel uint64s).map (fun r => r.2.1)
          = (u.NextMany fuel uint64s).map (fun _ => uint64s)) ∧
      (New [1, 2 ^ 32 + 5, 2 ^ 32 + 6, 2 ^ 33 + 7]).GetCardinality = 4 ∧
      (((New [1, 2 ^ 32 + 5, 2 ^ 32 + 6, 2 ^ 33 + 7]).ManyIterator.NextMany 5 [0, 0]).bind
        (fun r1 => (r1.2.2.NextMany 5 [0, 0]).bind
          (fun r2 => (r2.2.2.NextMany 5 [0, 0]).map
            (fun r3 => (r1.1, r2.1, r3.1))))) = some (2, 1, 0) := by
  refine ⟨by decide, by decide, fun fuel u uint64s => ?_, by decide, by decide⟩
  unfold u64ManyIterator.NextMany
  rw [Option.map_map, Option.map_map]
  rfl

/-- C26. `AdvanceIfNeeded` restarts the container iterator of the shard that
holds `minval`: on the set built by `Add(1)`, `Add(2)`, `Add(3)`, after two
calls of `Next()` the next value is `3`, and after `AdvanceIfNeeded(1)` the
iterator yields `1, 2, 3` again.  When no shard has the high key of `minval`
the cursor moves but `next` does not: on `{1, 2 ^ 33 + 1, 2 ^ 34}` after
`AdvanceIfNeeded(2 ^ 32)` the iterator yields `1` and then `2 ^ 34`. -/
theorem AdvanceIfNeeded_restarts :
    ((((New []).Add 1).Add 2).Add 3).ToArray = [1, 2, 3] ∧
      (((((New []).Add 1).Add 2).Add 3).Iterator.Next.bind (fun r1 => r1.2.Next.bind
        (fun r2 => r2.2.PeekNext.map (fun p => (r1.1, r2.1, p))))) = some (1, 2, 3) ∧
      (((((New []).Add 1).Add 2).Add 3).Iterator.Next.bind (fun r1 => r1.2.Next.bind
        (fun r2 => (r2.2.AdvanceIfNeeded 1).bind
          (fun u => (u.collect 5).map (fun r => (r.1, r.2.HasNext))))))
        = some ([1, 2, 3], some false) ∧
      ((((New []).Add 1).Add (2 ^ 33 + 1)).Add (2 ^ 34)).ToArray = [1, 2 ^ 33 + 1, 2 ^ 34] ∧
      ((((((New []).Add 1).Add (2 ^ 33 + 1)).Add (2 ^ 34)).Iterator.AdvanceIfNeeded (2 ^ 32)).bind
        (fun u => (u.collect 5).map (fun r => (r.1, r.2.HasNext))))
        = some ([1, 2 ^ 34], some false) := by
  decide

/-! ## The range operations and `Stats` on small sets -/

/-- C27. `AddRange(2 ^ 32 - 2, 2 ^ 32 + 1)` on the empty set adds `2 ^ 32 - 2`
and `2 ^ 32` but not `2 ^ 32 - 1`: the start shard is filled up to
`math.MaxUint32` exclusive.  `AddRange(2 ^ 32 - 1, 3 * 2 ^ 32 + 1)` adds nothing
to the shards `1` and `2`: the loop over the shards in between is bounded by
the low bits of the end. -/
theorem AddRange_misses :
    ((New []).AddRange (2 ^ 32 - 2) (2 ^ 32 + 1)).ToArray = [2 ^ 32 - 2, 2 ^ 32] ∧
      ((New []).AddRange (2 ^ 32 - 2) (2 ^ 32 + 1)).Contains (2 ^ 32 - 1) = false ∧
      (2 ^ 32 - 2 ≤ 2 ^ 32 - 1 ∧ 2 ^ 32 - 1 < 2 ^ 32 + 1) ∧
      ((New []).AddRange (2 ^ 32 - 1) (3 * 2 ^ 32 + 1)).ToArray = [3 * 2 ^ 32] ∧
      ((New []).AddRange (2 ^ 32 - 1) (3 * 2 ^ 32 + 1)).Contains (2 ^ 32 + 5) = false ∧
      (2 ^ 32 - 1 ≤ 2 ^ 32 + 5 ∧ 2 ^ 32 + 5 < 3 * 2 ^ 32 + 1) := by
  decide

/-- C28. When the ends of the range have different high keys, `RemoveRange`
deletes no shard: on `New(7)`, which has no empty shard,
`RemoveRange(5, 2 ^ 32 + 1)` leaves the shard `0` empty and creates the empty
shard `1`; when they have the same high key the emptied shard is deleted. -/
theorem RemoveRange_empty_shards :
    (∀ x ∈ (New [7]).tree, x.Bitmap.IsEmpty = false) ∧
      ((New [7]).RemoveRange 5 (2 ^ 32 + 1)).tree = [⟨⟨[]⟩, 0⟩, ⟨⟨[]⟩, 1⟩] ∧
      (∃ x ∈ ((New [7]).RemoveRange 5 (2 ^ 32 + 1)).tree, x.Bitmap.IsEmpty = true) ∧
      (∃ x ∈ ((New []).RemoveRange 5 (2 ^ 32 + 1)).tree, x.Bitmap.IsEmpty = true) ∧
      ((New [7]).RemoveRange 5 8).tree = [] := by
  decide

/-- C30. `Stats()` adds the `ArrayContainerBytes` of every shard to its field
`ArrayContainers`: whatever the container statistics are, on `New(1)` the field
`ArrayContainers` is the `ArrayContainerBytes` of the one shard; with the
statistics of an array container it is `2`, where the shard has `1` array
container. -/
theorem Stats_ArrayContainers :
    (∀ bmStats : roaring.Bitmap → roaring.Statistics,
        ((New [1]).Stats bmStats).ArrayContainers
          = (bmStats ⟨[1]⟩).ArrayContainerBytes % 2 ^ 64) ∧
      ((New [1]).Stats roaring.Bitmap.arrayStats).ArrayContainers = 2 ∧
      ((New [1]).tree.map (fun x => (roaring.Bitmap.arrayStats x.Bitmap).ArrayContainers)).sum
        = 1 ∧
      ((New [1, 2, 2 ^ 32 + 5]).Stats roaring.Bitmap.arrayStats).ArrayContainers = 6 ∧
      ((New [1, 2, 2 ^ 32 + 5]).tree.map
        (fun x => (roaring.Bitmap.arrayStats x.Bitmap).ArrayContainers)).sum = 2 := by
  refine ⟨fun bmStats => ?_, by decide, by decide, by decide, by decide⟩
  have ht : (New [1]).tree = [⟨⟨[1]⟩, 0⟩] := by decide
  unfold Stats forEachBitmap
  rw [ht]
  simp only [btree.Ascend, StatsCallback, Nat.zero_add]

end BTreemap

/-! ## `CheckedRemove` -/

namespace BTreemap

theorem CheckedRemove_snd (s : BTreemap) (v : Nat) :
    (s.CheckedRemove v).2 = true ↔
      s.Contains v = true ∨
        ∃ x, s.get (splitHiLo v).1 = some x ∧ x.Bitmap.IsEmpty = true := by
  rw [Contains_iff]
  cases hg : s.get (splitHiLo v).1 with
  | none =>
    have hg1 : btree.Get s.tree (splitHiLo v).1 = none := hg
    simp [CheckedRemove, hg, hg1]
  | some bm =>
    have hg1 : btree.Get s.tree (splitHiLo v).1 = some bm := hg
    have hget : (btree.Get (btree.mutate s.tree (splitHiLo v).1
        (fun b => (b.CheckedRemove (splitHiLo v).2).1)) (splitHiLo v).1).isSome = true := by
      rw [btree.Get_mutate, hg1]
      simp
    simp only [CheckedRemove, hg, hg1, Option.some.injEq, exists_eq_left']
    by_cases he : (bm.Bitmap.CheckedRemove (splitHiLo v).2).1.IsEmpty = true
    · rw [if_pos he]
      simp only [hget, Bool.true_or, true_iff]
      by_cases hv : bm.Bitmap.vals = []
      · right
        simp [roaring.Bitmap.IsEmpty, hv]
      · left
        obtain ⟨y, hy⟩ := List.exists_mem_of_ne_nil _ hv
        have : (bm.Bitmap.vals.filter (fun z => z != (splitHiLo v).2)) = [] := by
          simpa [roaring.Bitmap.CheckedRemove, roaring.Bitmap.Remove, roaring.Bitmap.IsEmpty,
            List.isEmpty_iff] using he
        have hy2 := List.filter_eq_nil_iff.1 this y hy
        simp only [bne_iff_ne, ne_eq, Decidable.not_not] at hy2
        rw [← hy2]
        exact hy
    · rw [if_neg he]
      simp only [roaring.Bitmap.CheckedRemove, roaring.Bitmap.Contains, decide_eq_true_eq]
      constructor
      · intro h; exact Or.inl h
      · rintro (h | h)
        · exact h
        · exfalso
          apply he
          have hv : bm.Bitmap.vals = [] := by
            simpa [roaring.Bitmap.IsEmpty, List.isEmpty_iff] using h
          simp [roaring.Bitmap.CheckedRemove, roaring.Bitmap.Remove, roaring.Bitmap.IsEmpty, hv]

/-- C29, amended. `CheckedRemove(v)` returns true exactly when `v` was
contained before the call or the index held a shard for the high bits of `v`
with an empty container, which the call deletes; so on a set without empty
shards it returns true exactly when `v` was contained.  Afterwards `v` is not
contained and every other membership is as before. -/
theorem CheckedRemove_spec (s : BTreemap) (v w : Nat) (hs : s.WF) (hv : v < 2 ^ 64)
    (hw : w < 2 ^ 64) :
    ((s.CheckedRemove v).2 = true ↔
        s.Contains v = true ∨
          ∃ x, s.get (splitHiLo v).1 = some x ∧ x.Bitmap.IsEmpty = true) ∧
      (s.NoEmptyShard → ((s.CheckedRemove v).2 = true ↔ s.Contains v = true)) ∧
      (s.CheckedRemove v).1.Contains v = false ∧
      (w ≠ v → (s.CheckedRemove v).1.Contains w = s.Contains w) := by
  refine ⟨CheckedRemove_snd s v, fun hne => ?_, ?_, fun hwv => ?_⟩
  · rw [CheckedRemove_snd]
    constructor
    · rintro (h | ⟨x, hx, he⟩)
      · exact h
      · have := hne x (btree.Get_mem hx)
        rw [this] at he
        cases he
    · intro h; exact Or.inl h
  · rw [CheckedRemove_fst]
    have h := Contains_Remove_iff s v v hs hv hv
    cases hc : (s.Remove v).Contains v with
    | false => rfl
    | true => exact absurd rfl (h.1 hc).1
  · rw [CheckedRemove_fst]
    have h := Contains_Remove_iff s v w hs hv hw
    cases hc : (s.Remove v).Contains w with
    | false =>
      cases hc2 : s.Contains w with
      | false => rfl
      | true => rw [h.2 ⟨hwv, hc2⟩] at hc; cases hc
    | true => exact (h.1 hc).2.symm

theorem CheckedRemove_spec_witness :
    (((New [1, 2 ^ 40, 7]).CheckedRemove 7).2 = true ↔
        (New [1, 2 ^ 40, 7]).Contains 7 = true ∨
          ∃ x, (New [1, 2 ^ 40, 7]).get (splitHiLo 7).1 = some x ∧ x.Bitmap.IsEmpty = true) ∧
      ((New [1, 2 ^ 40, 7]).NoEmptyShard →
        (((New [1, 2 ^ 40, 7]).CheckedRemove 7).2 = true ↔
          (New [1, 2 ^ 40, 7]).Contains 7 = true)) ∧
      ((New [1, 2 ^ 40, 7]).CheckedRemove 7).1.Contains 7 = false ∧
      (1 ≠ 7 → ((New [1, 2 ^ 40, 7]).CheckedRemove 7).1.Contains 1
        = (New [1, 2 ^ 40, 7]).Contains 1) :=
  CheckedRemove_spec (New [1, 2 ^ 40, 7]) 7 1 (WF_New _) (by decide) (by decide)

theorem CheckedRemove_counterexample :
    Reachable true (New [1]).Clear ∧
      (New [1]).Clear.Contains 1 = false ∧
      ((New [1]).Clear.CheckedRemove 1).2 = true ∧
      Reachable true ((New [1, 2]).AndNot (New [1, 2])) ∧
      ((New [1, 2]).AndNot (New [1, 2])).Contains 5 = false ∧
      (((New [1, 2]).AndNot (New [1, 2])).CheckedRemove 5).2 = true :=
  ⟨Reachable.Clear (Reachable.New [1]), by decide, by decide,
    Reachable.AndNot (Reachable.New [1, 2]) (Reachable.New [1, 2]), by decide, by decide⟩

end BTreemap

/-! ## `FastOr` -/

theorem btree.foldl_ReplaceOrInsert_ordered (g : keyedBitmap → keyedBitmap)
    (hg : ∀ x, g x = x) (t acc : btree.BTree) (h : btree.Ordered (acc ++ t)) :
    t.foldl (fun a x => btree.ReplaceOrInsert a (g x)) acc = acc ++ t := by
  induction t generalizing acc with
  | nil => simp
  | cons x t ih =>
    rw [List.foldl_cons, hg, btree.ReplaceOrInsert_last acc x
      (fun y hy => (List.pairwise_append.1 h).2.2 y hy x (List.mem_cons_self _ _))]
    have h1 : btree.Ordered ((acc ++ [x]) ++ t) := by rw [List.append_assoc]; exact h
    rw [ih _ h1, List.append_assoc]
    rfl

theorem keyedBitmap.ClonePtr_eq (x : keyedBitmap) : x.ClonePtr = x := by
  cases x
  rfl

namespace BTreemap

theorem Clone_tree (tm : BTreemap) (h : btree.Ordered tm.tree) : tm.Clone.tree = tm.tree := by
  unfold Clone forEachBitmap
  show btree.Ascend CloneCallback tm.tree (New []).tree = tm.tree
  have h1 := btree.Ascend_eq_foldl (fun t x => btree.ReplaceOrInsert t x.ClonePtr) tm.tree
    (New []).tree
  have h2 := btree.foldl_ReplaceOrInsert_ordered keyedBitmap.ClonePtr keyedBitmap.ClonePtr_eq
    tm.tree [] (by simpa using h)
  rw [List.nil_append] at h2
  exact h1.trans h2

theorem Clone_preserves_WF (tm : BTreemap) (h : tm.WF) : tm.Clone.WF := by
  unfold WF
  rw [Clone_tree tm h.1]
  exact h

theorem Contains_Clone (tm : BTreemap) (h : tm.WF) (v : Nat) :
    tm.Clone.Contains v = tm.Contains v := by
  unfold Contains get
  rw [Clone_tree tm h.1]

theorem Contains_New_nil (v : Nat) : (New []).Contains v = false := rfl

theorem foldl_Or_WF (bs : List BTreemap) (acc : BTreemap) (hacc : acc.WF)
    (hbs : ∀ b ∈ bs, b.WF) : (bs.foldl (fun answer bm => answer.Or bm) acc).WF := by
  induction bs generalizing acc with
  | nil => exact hacc
  | cons b rest ih =>
    rw [List.foldl_cons]
    exact ih _ (Or_preserves_WF acc b hacc (hbs b (List.mem_cons_self _ _)))
      (fun c hc => hbs c (List.mem_cons_of_mem _ hc))

theorem Contains_foldl_Or (bs : List BTreemap) (acc : BTreemap)
    (hbs : ∀ b ∈ bs, b.WF) (v : Nat) :
    (bs.foldl (fun answer bm => answer.Or bm) acc).Contains v = true ↔
      acc.Contains v = true ∨ ∃ b ∈ bs, b.Contains v = true := by
  induction bs generalizing acc with
  | nil => simp
  | cons b rest ih =>
    rw [List.foldl_cons, ih _ (fun c hc => hbs c (List.mem_cons_of_mem _ hc)),
      Contains_Or_iff acc b (hbs b (List.mem_cons_self _ _))]
    simp only [List.mem_cons, exists_eq_or_imp]
    tauto

end BTreemap

theorem FastOr_WF (bs : List BTreemap) (hbs : ∀ b ∈ bs, b.WF) : (FastOr bs).WF := by
  match bs, hbs with
  | [], _ => exact BTreemap.WF_New []
  | [b], hbs => exact BTreemap.Clone_preserves_WF b (hbs b (List.mem_cons_self _ _))
  | b1 :: b2 :: rest, hbs => exact BTreemap.foldl_Or_WF _ _ (BTreemap.WF_New []) hbs

theorem FastOr_Contains (bs : List BTreemap) (hbs : ∀ b ∈ bs, b.WF) (v : Nat) :
    (FastOr bs).Contains v = true ↔ ∃ b ∈ bs, b.Contains v = true := by
  match bs, hbs with
  | [], _ => simp [FastOr, BTreemap.Contains_New_nil]
  | [b], hbs =>
    simp only [FastOr, BTreemap.Contains_Clone b (hbs b (List.mem_cons_self _ _)),
      List.mem_singleton, exists_eq_left]
  | b1 :: b2 :: rest, hbs =>
    show ((b1 :: b2 :: rest).foldl (fun answer bm => answer.Or bm) (BTreemap.New [])).Contains v
      = true ↔ _
    rw [BTreemap.Contains_foldl_Or _ _ hbs, BTreemap.Contains_New_nil]
    simp

namespace Heap

/-- C21. `FastOr(bs...)` contains a value exactly when one of its inputs does;
no input gives the empty set and one input gives a copy that `Equals` it; the
members are the same for every permutation of the inputs, and the call leaves
every instance as it was. -/
theorem FastOr_spec (h : Heap) (bs : List Nat) (hbs : ∀ p ∈ bs, (h p).WF) :
    (∀ v, (h.FastOr bs).2.Contains v = true ↔ ∃ p ∈ bs, (h p).Contains v = true) ∧
      (bs = [] → (h.FastOr bs).2 = BTreemap.New []) ∧
      (∀ p, bs = [p] → (h.FastOr bs).2.Equals (Any.treemap (h p)) = true) ∧
      (∀ bs2 : List Nat, bs2.Perm bs →
        ∀ v, (h.FastOr bs2).2.Contains v = (h.FastOr bs).2.Contains v) ∧
      (h.FastOr bs).1 = h := by
  have hwf : ∀ (l : List Nat), (∀ p ∈ l, (h p).WF) → ∀ b ∈ l.map h, b.WF := by
    intro l hl b hb
    obtain ⟨p, hp, rfl⟩ := List.mem_map.1 hb
    exact hl p hp
  have hc : ∀ (l : List Nat), (∀ p ∈ l, (h p).WF) →
      ∀ v, (h.FastOr l).2.Contains v = true ↔ ∃ p ∈ l, (h p).Contains v = true := by
    intro l hl v
    show (Roaring64.FastOr (l.map h)).Contains v = true ↔ _
    rw [FastOr_Contains _ (hwf l hl)]
    simp only [List.mem_map, exists_exists_and_eq_and]
  refine ⟨hc bs hbs, ?_, ?_, ?_, rfl⟩
  · intro he
    subst he
    rfl
  · intro p he
    subst he
    have hp := hbs p (List.mem_cons_self _ _)
    show (h p).Clone.Equals (Any.treemap (h p)) = true
    exact (BTreemap.Equals_iff_tree_eq _ _ (BTreemap.Clone_preserves_WF _ hp) hp).2
      (BTreemap.Clone_tree _ hp.1)
  · intro bs2 hperm v
    have h2 := hc bs2 (fun p hp => hbs p (hperm.mem_iff.1 hp)) v
    have h1 := hc bs hbs v
    have : (∃ p ∈ bs2, (h p).Contains v = true) ↔ ∃ p ∈ bs, (h p).Contains v = true := by
      constructor
      · rintro ⟨p, hp, hv⟩; exact ⟨p, hperm.mem_iff.1 hp, hv⟩
      · rintro ⟨p, hp, hv⟩; exact ⟨p, hperm.mem_iff.2 hp, hv⟩
    rw [Bool.eq_iff_iff, h2, h1, this]

theorem FastOr_spec_witness :
    (∀ v, ((ofPair (BTreemap.New [1, 2 ^ 40]) (BTreemap.New [7, 1])).FastOr [0, 1, 2]).2.Contains v
          = true ↔
        ∃ p ∈ [0, 1, 2],
          (ofPair (BTreemap.New [1, 2 ^ 40]) (BTreemap.New [7, 1]) p).Contains v = true) ∧
      (∀ bs2 : List Nat, bs2.Perm [0, 1, 2] →
        ∀ v, ((ofPair (BTreemap.New [1, 2 ^ 40]) (BTreemap.New [7, 1])).FastOr bs2).2.Contains v
          = ((ofPair (BTreemap.New [1, 2 ^ 40]) (BTreemap.New [7, 1])).FastOr
              [0, 1, 2]).2.Contains v) ∧
      ((ofPair (BTreemap.New [1, 2 ^ 40]) (BTreemap.New [7, 1])).FastOr [0, 1, 2]).1
        = ofPair (BTreemap.New [1, 2 ^ 40]) (BTreemap.New [7, 1]) :=
  have h := FastOr_spec (ofPair (BTreemap.New [1, 2 ^ 40]) (BTreemap.New [7, 1])) [0, 1, 2]
    (fun p _ => by
      unfold ofPair
      split_ifs
      · exact BTreemap.WF_New _
      · exact BTreemap.WF_New _)
  ⟨h.1, h.2.2.2.1, h.2.2.2.2⟩

end Heap

/-! ## `HeapOr` -/

namespace priorityQueue

theorem SameValues_refl (pq : priorityQueue) : pq.SameValues pq := ⟨rfl, fun _ => Iff.rfl⟩

theorem SameValues_trans {a b c : priorityQueue} (h1 : a.SameValues b) (h2 : b.SameValues c) :
    a.SameValues c :=
  ⟨h2.1.trans h1.1, fun x => (h2.2 x).trans (h1.2 x)⟩

theorem Less_isSome (f : roaring.Format) (pq : priorityQueue) (i j : Nat) (hi : i < pq.length)
    (hj : j < pq.length) : ∃ b, pq.Less f i j = some b := by
  unfold Less
  rw [List.getElem?_eq_getElem hi, List.getElem?_eq_getElem hj]
  exact ⟨_, rfl⟩

theorem Swap_spec (pq : priorityQueue) (i j : Nat) (hi : i < pq.length) (hj : j < pq.length) :
    ∃ pq1, pq.Swap i j = some pq1 ∧ pq.SameValues pq1 := by
  unfold Swap
  rw [List.getElem?_eq_getElem hi, List.getElem?_eq_getElem hj]
  refine ⟨_, rfl, ?_, fun b => ?_⟩
  · rw [List.length_set, List.length_set]
  · have hget : ∀ k, ((pq.set i { pq[j] with index := (i : Int) }).set j
          { pq[i] with index := (j : Int) })[k]?
        = if j = k then some { pq[i] with index := (j : Int) }
          else if i = k then some { pq[j] with index := (i : Int) } else pq[k]? := by
      intro k
      rw [List.getElem?_set, List.getElem?_set, List.length_set, if_pos hj, if_pos hi]
    constructor
    · rintro ⟨x, hx, rfl⟩
      obtain ⟨k, hk⟩ := List.mem_iff_getElem?.1 hx
      rw [hget] at hk
      split_ifs at hk with h1 h2
      · cases hk
        exact ⟨pq[i], List.getElem_mem _, rfl⟩
      · cases hk
        exact ⟨pq[j], List.getElem_mem _, rfl⟩
      · exact ⟨x, List.mem_iff_getElem?.2 ⟨k, hk⟩, rfl⟩
    · rintro ⟨x, hx, rfl⟩
      obtain ⟨k, hk⟩ := List.mem_iff_getElem?.1 hx
      by_cases h1 : i = k
      · subst h1
        rw [List.getElem?_eq_getElem hi] at hk
        cases hk
        refine ⟨{ pq[i] with index := (j : Int) }, List.mem_iff_getElem?.2 ⟨j, ?_⟩, rfl⟩
        rw [hget, if_pos rfl]
      · by_cases h2 : j = k
        · subst h2
          rw [List.getElem?_eq_getElem hj] at hk
          cases hk
          refine ⟨{ pq[j] with index := (i : Int) }, List.mem_iff_getElem?.2 ⟨i, ?_⟩, rfl⟩
          rw [hget, if_neg (fun h => h1 h.symm), if_pos rfl]
        · refine ⟨x, List.mem_iff_getElem?.2 ⟨k, ?_⟩, rfl⟩
          rw [hget, if_neg h2, if_neg h1]
          exact hk

theorem Push_spec (pq : priorityQueue) (x : item) :
    (pq.Push x).length = pq.length + 1 ∧
      ∀ b : BTreemap, (∃ y ∈ pq.Push x, y.value = b) ↔ (x.value = b ∨ ∃ y ∈ pq, y.value = b) := by
  unfold Push
  refine ⟨by simp, fun b => ?_⟩
  simp only [List.mem_append, List.mem_singleton]
  constructor
  · rintro ⟨y, hy | hy, rfl⟩
    · exact Or.inr ⟨y, hy, rfl⟩
    · subst hy; exact Or.inl rfl
  · rintro (h | ⟨y, hy, rfl⟩)
    · exact ⟨_, Or.inr rfl, h⟩
    · exact ⟨y, Or.inl hy, rfl⟩

theorem Pop_spec (pq : priorityQueue) (h : 0 < pq.length) :
    ∃ x pq1, pq.Pop = some (x, pq1) ∧ pq1.length + 1 = pq.length ∧
      ∀ b : BTreemap, (∃ y ∈ pq, y.value = b) ↔ (x.value = b ∨ ∃ y ∈ pq1, y.value = b) := by
  unfold Pop
  cases hl : pq.getLast? with
  | none =>
    rw [List.getLast?_eq_none_iff] at hl
    subst hl
    cases h
  | some x =>
    have hd := List.dropLast_append_getLast? x (by rw [hl]; exact rfl)
    refine ⟨_, _, rfl, ?_, fun b => ?_⟩
    · rw [List.length_dropLast]; omega
    · conv_lhs => rw [← hd]
      simp only [List.mem_append, List.mem_singleton]
      constructor
      · rintro ⟨y, hy | hy, rfl⟩
        · exact Or.inr ⟨y, hy, rfl⟩
        · subst hy; exact Or.inl rfl
      · rintro (hx | ⟨y, hy, rfl⟩)
        · exact ⟨x, Or.inr rfl, hx⟩
        · exact ⟨y, Or.inl hy, rfl⟩

end priorityQueue

namespace heap

theorem up_spec (f : roaring.Format) (fuel : Nat) (h : priorityQueue) (j : Nat)
    (hj : j < h.length) (hf : j < fuel) : ∃ h1, up f fuel h j = some h1 ∧ h.SameValues h1 := by
  induction fuel generalizing h j with
  | zero => omega
  | succ fuel ih =>
    unfold up
    by_cases hij : (j - 1) / 2 = j
    · rw [if_pos hij]; exact ⟨h, rfl, priorityQueue.SameValues_refl h⟩
    · rw [if_neg hij]
      have hlt : (j - 1) / 2 < j := by omega
      obtain ⟨b, hb⟩ := priorityQueue.Less_isSome f h j ((j - 1) / 2) hj (by omega)
      rw [hb]
      cases b with
      | false => exact ⟨h, rfl, priorityQueue.SameValues_refl h⟩
      | true =>
        obtain ⟨h1, hs, hsame⟩ := priorityQueue.Swap_spec h ((j - 1) / 2) j (by omega) hj
        rw [hs]
        obtain ⟨h2, hu, hsame2⟩ := ih h1 ((j - 1) / 2) (by rw [hsame.1]; omega) (by omega)
        exact ⟨h2, hu, priorityQueue.SameValues_trans hsame hsame2⟩

theorem down_spec (f : roaring.Format) (fuel : Nat) (h : priorityQueue) (i n : Nat)
    (hn : n ≤ h.length) (hf : n - i < fuel) :
    ∃ h1, down f fuel h i n = some h1 ∧ h.SameValues h1 := by
  induction fuel generalizing h i with
  | zero => omega
  | succ fuel ih =>
    unfold down
    by_cases hj1 : 2 * i + 1 ≥ n
    · rw [if_pos hj1]; exact ⟨h, rfl, priorityQueue.SameValues_refl h⟩
    · rw [if_neg hj1]
      have hlt : ∃ lt, (if 2 * i + 2 < n then h.Less f (2 * i + 2) (2 * i + 1) else some false)
          = some lt ∧ (lt = true → 2 * i + 2 < n) := by
        by_cases hj2 : 2 * i + 2 < n
        · rw [if_pos hj2]
          obtain ⟨b, hb⟩ := priorityQueue.Less_isSome f h (2 * i + 2) (2 * i + 1) (by omega)
            (by omega)
          exact ⟨b, hb, fun _ => hj2⟩
        · rw [if_neg hj2]
          exact ⟨false, rfl, fun hc => by cases hc⟩
      obtain ⟨lt, hlt1, hlt2⟩ := hlt
      rw [hlt1]
      simp only
      have hj : (if lt = true then 2 * i + 2 else 2 * i + 1) < n ∧
          i < (if lt = true then 2 * i + 2 else 2 * i + 1) := by
        cases lt with
        | false => simp only [Bool.false_eq_true, if_false]; omega
        | true => simp only [if_true]; exact ⟨hlt2 rfl, by omega⟩
      obtain ⟨b, hb⟩ := priorityQueue.Less_isSome f h
        (if lt = true then 2 * i + 2 else 2 * i + 1) i (by omega) (by omega)
      rw [hb]
      cases b with
      | false => exact ⟨h, rfl, priorityQueue.SameValues_refl h⟩
      | true =>
        obtain ⟨h1, hs, hsame⟩ := priorityQueue.Swap_spec h i
          (if lt = true then 2 * i + 2 else 2 * i + 1) (by omega) (by omega)
        rw [hs]
        obtain ⟨h2, hd, hsame2⟩ := ih h1 (if lt = true then 2 * i + 2 else 2 * i + 1)
          (by rw [hsame.1]; exact hn) (by omega)
        exact ⟨h2, hd, priorityQueue.SameValues_trans hsame hsame2⟩

theorem initLoop_spec (f : roaring.Format) (fuel n k : Nat) (h : priorityQueue)
    (hn : n ≤ h.length) (hf : n < fuel) :
    ∃ h1, initLoop f fuel n k h = some h1 ∧ h.SameValues h1 := by
  induction k generalizing h with
  | zero => exact ⟨h, rfl, priorityQueue.SameValues_refl h⟩
  | succ k ih =>
    unfold initLoop
    obtain ⟨h1, hd, hsame⟩ := down_spec f fuel h k n hn (by omega)
    rw [hd]
    obtain ⟨h2, hi, hsame2⟩ := ih h1 (by rw [hsame.1]; exact hn)
    exact ⟨h2, hi, priorityQueue.SameValues_trans hsame hsame2⟩

theorem Init_spec (f : roaring.Format) (fuel : Nat) (h : priorityQueue) (hf : h.length < fuel) :
    ∃ h1, Init f fuel h = some h1 ∧ h.SameValues h1 :=
  initLoop_spec f fuel h.length (h.length / 2) h le_rfl hf

theorem Push_ok (f : roaring.Format) (fuel : Nat) (h : priorityQueue) (x : item)
    (hf : h.length < fuel) :
    ∃ h1, Push f fuel h x = some h1 ∧ h1.length = h.length + 1 ∧
      ∀ b : BTreemap, (∃ y ∈ h1, y.value = b) ↔ (x.value = b ∨ ∃ y ∈ h, y.value = b) := by
  unfold Push
  have hp := priorityQueue.Push_spec h x
  obtain ⟨h1, hu, hsame⟩ := up_spec f fuel (h.Push x) ((h.Push x).Len - 1)
    (by unfold priorityQueue.Len; omega) (by unfold priorityQueue.Len; omega)
  exact ⟨h1, hu, hsame.1.trans hp.1, fun b => (hsame.2 b).trans (hp.2 b)⟩

theorem Pop_ok (f : roaring.Format) (fuel : Nat) (h : priorityQueue) (hpos : 0 < h.length)
    (hf : h.length ≤ fuel) :
    ∃ x h1, Pop f fuel h = some (x, h1) ∧ h1.length + 1 = h.length ∧
      ∀ b : BTreemap, (∃ y ∈ h, y.value = b) ↔ (x.value = b ∨ ∃ y ∈ h1, y.value = b) := by
  unfold Pop
  have hlen : h.Len = h.length := rfl
  rw [if_neg (by rw [hlen]; omega), hlen]
  obtain ⟨h1, hs, hsame⟩ := priorityQueue.Swap_spec h 0 (h.length - 1) hpos (by omega)
  obtain ⟨h2, hd, hsame2⟩ := down_spec f fuel h1 0 (h.length - 1) (by rw [hsame.1]; omega)
    (by omega)
  simp only [hs, hd]
  obtain ⟨x, h3, hp, hl, hv⟩ := priorityQueue.Pop_spec h2 (by rw [hsame2.1, hsame.1]; exact hpos)
  refine ⟨x, h3, hp, by rw [hl, hsame2.1, hsame.1], fun b => ?_⟩
  rw [← hv b, hsame2.2 b, hsame.2 b]

end heap

theorem item_values_zipWith (bs : List BTreemap) (l : List Nat) (h : bs.length ≤ l.length) :
    (List.zipWith (fun bm (i : Nat) => ({ value := bm, index := i } : item)) bs l).map
      (fun x => x.value) = bs := by
  induction bs generalizing l with
  | nil => rfl
  | cons b rest ih =>
    cases l with
    | nil => simp at h
    | cons i l =>
      simp only [List.zipWith_cons_cons, List.map_cons, List.cons.injEq, true_and]
      exact ih l (by simpa using h)

theorem HeapOrLoop_spec (f : roaring.Format) (fuel0 fuel : Nat) (pq : priorityQueue)
    (hpos : 0 < pq.length) (hfuel : pq.length ≤ fuel) (hfuel0 : pq.length < fuel0)
    (hwf : ∀ x ∈ pq, x.value.WF) :
    ∃ pq1, HeapOrLoop f fuel0 fuel pq = some pq1 ∧ pq1.length = 1 ∧
      (∀ x ∈ pq1, x.value.WF) ∧
      ∀ v, (∃ x ∈ pq1, x.value.Contains v = true) ↔ ∃ x ∈ pq, x.value.Contains v = true := by
  induction fuel generalizing pq with
  | zero => omega
  | succ fuel ih =>
    unfold HeapOrLoop
    by_cases hlen : pq.Len > 1
    · rw [if_pos hlen]
      have hlen1 : 1 < pq.length := hlen
      obtain ⟨x1, pq1, hp1, hl1, hv1⟩ := heap.Pop_ok f fuel0 pq hpos (by omega)
      obtain ⟨x2, pq2, hp2, hl2, hv2⟩ := heap.Pop_ok f fuel0 pq1 (by omega) (by omega)
      obtain ⟨pq3, hp3, hl3, hv3⟩ := heap.Push_ok f fuel0 pq2
        { value := FastOr [x1.value, x2.value], index := 0 } (by omega)
      simp only [hp1, hp2, hp3]
      have hx1 : ∃ y ∈ pq, y.value = x1.value := (hv1 x1.value).2 (Or.inl rfl)
      have hx2 : ∃ y ∈ pq, y.value = x2.value :=
        (hv1 x2.value).2 (Or.inr ((hv2 x2.value).2 (Or.inl rfl)))
      have hw1 : x1.value.WF := by
        obtain ⟨y, hy, he⟩ := hx1
        rw [← he]; exact hwf y hy
      have hw2 : x2.value.WF := by
        obtain ⟨y, hy, he⟩ := hx2
        rw [← he]; exact hwf y hy
      have hw12 : ∀ b ∈ [x1.value, x2.value], b.WF := by
        intro b hb
        simp only [List.mem_cons, List.mem_singleton, List.not_mem_nil, or_false] at hb
        rcases hb with rfl | rfl
        · exact hw1
        · exact hw2
      have hwf3 : ∀ x ∈ pq3, x.value.WF := by
        intro x hx
        rcases (hv3 x.value).1 ⟨x, hx, rfl⟩ with h | ⟨y, hy, he⟩
        · rw [← h]; exact FastOr_WF _ hw12
        · obtain ⟨z, hz, he2⟩ := (hv1 y.value).2 (Or.inr ((hv2 y.value).2 (Or.inr ⟨y, hy, rfl⟩)))
          rw [← he, ← he2]; exact hwf z hz
      obtain ⟨pq4, hloop, hl4, hwf4, hv4⟩ := ih pq3 (by omega) (by omega) (by omega) hwf3
      refine ⟨pq4, hloop, hl4, hwf4, fun v => ?_⟩
      rw [hv4 v]
      constructor
      · rintro ⟨x, hx, hc⟩
        rcases (hv3 x.value).1 ⟨x, hx, rfl⟩ with h | ⟨y, hy, he⟩
        · rw [← h, FastOr_Contains _ hw12] at hc
          obtain ⟨b, hb, hcb⟩ := hc
          simp only [List.mem_cons, List.mem_singleton, List.not_mem_nil, or_false] at hb
          rcases hb with rfl | rfl
          · obtain ⟨y, hy, he⟩ := hx1
            exact ⟨y, hy, by rw [he]; exact hcb⟩
          · obtain ⟨y, hy, he⟩ := hx2
            exact ⟨y, hy, by rw [he]; exact hcb⟩
        · obtain ⟨z, hz, he2⟩ := (hv1 y.value).2 (Or.inr ((hv2 y.value).2 (Or.inr ⟨y, hy, rfl⟩)))
          exact ⟨z, hz, by rw [he2, he]; exact hc⟩
      · rintro ⟨x, hx, hc⟩
        rcases (hv1 x.value).1 ⟨x, hx, rfl⟩ with h | ⟨y, hy, he⟩
        · obtain ⟨z, hz, he2⟩ := (hv3 (FastOr [x1.value, x2.value])).2 (Or.inl rfl)
          refine ⟨z, hz, ?_⟩
          rw [he2, FastOr_Contains _ hw12]
          exact ⟨x1.value, List.mem_cons_self _ _, by rw [h]; exact hc⟩
        · rcases (hv2 y.value).1 ⟨y, hy, rfl⟩ with h2 | ⟨z, hz, he2⟩
          · obtain ⟨z, hz, he2⟩ := (hv3 (FastOr [x1.value, x2.value])).2 (Or.inl rfl)
            refine ⟨z, hz, ?_⟩
            rw [he2, FastOr_Contains _ hw12]
            exact ⟨x2.value, List.mem_cons_of_mem _ (List.mem_cons_self _ _),
              by rw [h2, he]; exact hc⟩
          · obtain ⟨u, hu, he3⟩ := (hv3 z.value).2 (Or.inr ⟨z, hz, rfl⟩)
            exact ⟨u, hu, by rw [he3, he2, he]; exact hc⟩
    · rw [if_neg hlen]
      have hlen1 : ¬ 1 < pq.length := hlen
      exact ⟨pq, rfl, by omega, hwf, fun _ => Iff.rfl⟩

theorem HeapOr_Contains (f : roaring.Format) (bs : List BTreemap) (fuel : Nat)
    (hbs : ∀ b ∈ bs, b.WF) (hf : bs.length < fuel) :
    ∃ r, HeapOr fuel f bs = some r ∧
      ∀ v, r.Contains v = true ↔ ∃ b ∈ bs, b.Contains v = true := by
  unfold HeapOr
  by_cases h0 : bs.length = 0
  · rw [if_pos h0]
    have : bs = [] := List.length_eq_zero.1 h0
    subst this
    exact ⟨_, rfl, fun v => by simp [BTreemap.Contains_New_nil]⟩
  · rw [if_neg h0]
    have hvals := item_values_zipWith bs (List.range bs.length) (by simp)
    have hlen0 : (List.zipWith (fun bm (i : Nat) => ({ value := bm, index := i } : item)) bs
        (List.range bs.length)).length = bs.length := by simp
    have hmem : ∀ b : BTreemap, (∃ y ∈ List.zipWith
        (fun bm (i : Nat) => ({ value := bm, index := i } : item)) bs (List.range bs.length),
        y.value = b) ↔ b ∈ bs := by
      intro b
      conv_rhs => rw [← hvals]
      simp only [List.mem_map]
    obtain ⟨pq, hinit, hsame⟩ := heap.Init_spec f fuel _ (by rw [hlen0]; exact hf)
    have hpq : ∀ b : BTreemap, (∃ y ∈ pq, y.value = b) ↔ b ∈ bs :=
      fun b => (hsame.2 b).trans (hmem b)
    have hlenpq : pq.length = bs.length := hsame.1.trans hlen0
    obtain ⟨pq1, hloop, hl1, hwf1, hv1⟩ := HeapOrLoop_spec f fuel fuel pq (by omega) (by omega)
      (by omega) (fun x hx => hbs _ ((hpq x.value).1 ⟨x, hx, rfl⟩))
    obtain ⟨x, pq2, hpop, hl2, hv2⟩ := heap.Pop_ok f fuel pq1 (by omega) (by omega)
    have hnil : pq2 = [] := List.length_eq_zero.1 (by omega)
    subst hnil
    simp only [hinit, hloop, hpop, Option.map_some']
    refine ⟨_, rfl, fun v => ?_⟩
    have hx : ∀ y ∈ pq1, y.value = x.value := by
      intro y hy
      rcases (hv2 y.value).1 ⟨y, hy, rfl⟩ with h | ⟨z, hz, -⟩
      · exact h.symm
      · cases hz
    obtain ⟨y0, hy0, he0⟩ := (hv2 x.value).2 (Or.inl rfl)
    constructor
    · intro hc
      obtain ⟨z, hz, hcz⟩ := (hv1 v).1 ⟨y0, hy0, by rw [he0]; exact hc⟩
      exact ⟨z.value, (hpq z.value).1 ⟨z, hz, rfl⟩, hcz⟩
    · rintro ⟨b, hb, hcb⟩
      obtain ⟨z, hz, he⟩ := (hpq b).2 hb
      obtain ⟨u, hu, hcu⟩ := (hv1 v).2 ⟨z, hz, by rw [he]; exact hcb⟩
      rw [← hx u hu]
      exact hcu

/-- C22. With enough rounds for its loops, `HeapOr(bs...)` returns, and its
result has the members of `FastOr(bs...)`, the union of the inputs, whatever
sizes `GetSizeInBytes` reports and in whatever order the inputs come. -/
theorem HeapOr_spec (f : roaring.Format) (bs : List BTreemap) (fuel : Nat)
    (hbs : ∀ b ∈ bs, b.WF) (hf : bs.length < fuel) :
    ∃ r, HeapOr fuel f bs = some r ∧
      (∀ v, r.Contains v = true ↔ ∃ b ∈ bs, b.Contains v = true) ∧
      (∀ v, r.Contains v = (FastOr bs).Contains v) ∧
      ∀ (f2 : roaring.Format) (bs2 : List BTreemap) (fuel2 : Nat),
        bs2.Perm bs → bs2.length < fuel2 →
          ∃ r2, HeapOr fuel2 f2 bs2 = some r2 ∧ ∀ v, r2.Contains v = r.Contains v := by
  obtain ⟨r, hr, hc⟩ := HeapOr_Contains f bs fuel hbs hf
  refine ⟨r, hr, hc, fun v => ?_, fun f2 bs2 fuel2 hperm hf2 => ?_⟩
  · rw [Bool.eq_iff_iff, hc v, FastOr_Contains bs hbs v]
  · obtain ⟨r2, hr2, hc2⟩ := HeapOr_Contains f2 bs2 fuel2
      (fun b hb => hbs b (hperm.mem_iff.1 hb)) hf2
    refine ⟨r2, hr2, fun v => ?_⟩
    rw [Bool.eq_iff_iff, hc2 v, hc v]
    constructor
    · rintro ⟨b, hb, h⟩; exact ⟨b, hperm.mem_iff.1 hb, h⟩
    · rintro ⟨b, hb, h⟩; exact ⟨b, hperm.mem_iff.2 hb, h⟩

theorem HeapOr_spec_witness :
    ∃ r, HeapOr 4 roaring.Format.plain
        [BTreemap.New [1, 2, 3], BTreemap.New [2 ^ 40], BTreemap.New [7, 8]] = some r ∧
      (∀ v, r.Contains v = true ↔
        ∃ b ∈ [BTreemap.New [1, 2, 3], BTreemap.New [2 ^ 40], BTreemap.New [7, 8]],
          b.Contains v = true) ∧
      (∀ v, r.Contains v
        = (FastOr [BTreemap.New [1, 2, 3], BTreemap.New [2 ^ 40], BTreemap.New [7, 8]]).Contains
            v) ∧
      ∀ (f2 : roaring.Format) (bs2 : List BTreemap) (fuel2 : Nat),
        bs2.Perm [BTreemap.New [1, 2, 3], BTreemap.New [2 ^ 40], BTreemap.New [7, 8]] →
          bs2.length < fuel2 →
            ∃ r2, HeapOr fuel2 f2 bs2 = some r2 ∧ ∀ v, r2.Contains v = r.Contains v :=
  HeapOr_spec roaring.Format.plain
    [BTreemap.New [1, 2, 3], BTreemap.New [2 ^ 40], BTreemap.New [7, 8]] 4
    (fun b hb => by
      simp only [List.mem_cons, List.mem_singleton, List.not_mem_nil, or_false] at hb
      rcases hb with rfl | rfl | rfl <;> exact BTreemap.WF_New _)
    (by decide)

/-! ## The forward iterator on a set without empty shards -/

namespace u64Iterator

theorem PeekNext_of_Next (u : u64Iterator) (v : Nat) (u1 : u64Iterator)
    (h : u.Next = some (v, u1)) : u.PeekNext = some v := by
  unfold Next at h
  unfold PeekNext
  cases hn : u.next with
  | none => rw [hn] at h; cases h
  | some nxt =>
    cases hl : u.loIter with
    | none => rw [hn, hl] at h; cases h
    | some lo =>
      rw [hn, hl] at h
      simp only
      cases hr : lo.rest with
      | nil => simp only [roaring.intIterator.Next, hr] at h; cases h
      | cons x rest =>
        simp only [roaring.intIterator.Next, hr] at h
        simp only [roaring.intIterator.PeekNext, hr, List.head?_cons, Option.map_some']
        split_ifs at h
        · split at h <;> · cases h; rfl
        · cases h; rfl

theorem collect_of_exhausted (fuel : Nat) (c : btree.Cursor) (lo : Option roaring.intIterator) :
    collect fuel { next := none, hiIter := c, loIter := lo }
      = some ([], { next := none, hiIter := c, loIter := lo }) := by
  cases fuel <;> rfl

theorem collect_at (items : btree.BTree) (hne : ∀ x ∈ items, x.Bitmap.IsEmpty = false)
    (fuel i : Nat) (bm : keyedBitmap) (x : Nat) (rest : List Nat) (hi : items[i]? = some bm)
    (hf : (x :: rest).length + (btree.values (items.drop (i + 1))).length ≤ fuel) :
    ∃ u1, collect fuel { next := some bm, hiIter := ⟨items, some i⟩, loIter := some ⟨x :: rest⟩ }
        = some ((x :: rest).map (joinHiLo bm.HighBits) ++ btree.values (items.drop (i + 1)), u1) ∧
      u1.HasNext = some false := by
  induction fuel generalizing i bm x rest with
  | zero => simp at hf
  | succ fuel ih =>
    cases rest with
    | nil =>
      cases hnx : items[i + 1]? with
      | none =>
        have hdrop : items.drop (i + 1) = [] := by
          rw [List.drop_eq_nil_iff]
          exact List.getElem?_eq_none_iff.1 hnx
        refine ⟨{ next := none, hiIter := ⟨items, none⟩, loIter := some ⟨[]⟩ }, ?_, rfl⟩
        simp only [collect, HasNext, Next, roaring.intIterator.HasNext, roaring.intIterator.Next,
          btree.Cursor.Next, hnx, hdrop, btree.values_nil, collect_of_exhausted, Option.map_some',
          List.isEmpty_cons, List.isEmpty_nil, Bool.not_false, Bool.not_true, List.map_cons,
          List.map_nil, List.append_nil, if_true]
      | some nx =>
        have hlt : i + 1 < items.length := (List.getElem?_eq_some.1 hnx).1
        have hdrop : items.drop (i + 1) = nx :: items.drop (i + 1 + 1) := by
          rw [List.drop_eq_getElem_cons hlt]
          congr 1
          exact (List.getElem?_eq_some.1 hnx).2
        have hnxe := hne nx (List.mem_iff_getElem?.2 ⟨i + 1, hnx⟩)
        obtain ⟨y, ys, hvals⟩ : ∃ y ys, nx.Bitmap.vals = y :: ys := by
          cases hv : nx.Bitmap.vals with
          | nil => simp [roaring.Bitmap.IsEmpty, hv] at hnxe
          | cons y ys => exact ⟨y, ys, rfl⟩
        rw [hdrop, btree.values_cons, hvals] at hf ⊢
        obtain ⟨u1, hc, hh⟩ := ih (i + 1) nx y ys hnx (by
          simp only [List.length_cons, List.length_append, List.length_map, List.length_nil]
            at hf ⊢
          omega)
        refine ⟨u1, ?_, hh⟩
        simp only [collect, HasNext, Next, roaring.intIterator.HasNext, roaring.intIterator.Next,
          btree.Cursor.Next, hnx, roaring.Bitmap.Iterator, hvals, hc, Option.map_some',
          List.isEmpty_cons, List.isEmpty_nil, Bool.not_false, Bool.not_true, List.map_cons,
          List.map_nil, if_true, List.cons_append, List.nil_append]
    | cons y ys =>
      obtain ⟨u1, hc, hh⟩ := ih i bm y ys hi (by
        simp only [List.length_cons] at hf ⊢
        omega)
      refine ⟨u1, ?_, hh⟩
      simp only [collect, HasNext, Next, roaring.intIterator.HasNext, roaring.intIterator.Next,
        hc, Option.map_some', List.isEmpty_cons, Bool.not_false, Bool.not_true, List.map_cons,
        List.cons_append, if_false, Bool.false_eq_true]

end u64Iterator

namespace BTreemap

/-- On a set without empty shards the loop over `Iterator()` yields
`ToArray()` and ends with `HasNext()` false. -/
theorem Iterator_collect (s : BTreemap) (hne : s.NoEmptyShard) (fuel : Nat)
    (hf : s.ToArray.length ≤ fuel) :
    ∃ u1, s.Iterator.collect fuel = some (s.ToArray, u1) ∧ u1.HasNext = some false := by
  rw [ToArray_eq] at hf ⊢
  unfold Iterator btree.BTree.Cursor btree.Cursor.First
  cases ht : s.tree with
  | nil =>
    simp only [List.getElem?_nil, btree.values_nil]
    exact ⟨_, u64Iterator.collect_of_exhausted fuel _ _, rfl⟩
  | cons b rest =>
    have hb := hne b (by rw [ht]; exact List.mem_cons_self _ _)
    obtain ⟨y, ys, hvals⟩ : ∃ y ys, b.Bitmap.vals = y :: ys := by
      cases hv : b.Bitmap.vals with
      | nil => simp [roaring.Bitmap.IsEmpty, hv] at hb
      | cons y ys => exact ⟨y, ys, rfl⟩
    have h := u64Iterator.collect_at (b :: rest) (by rw [← ht]; exact hne) fuel 0 b y ys
      List.getElem?_cons_zero (by
        rw [ht, btree.values_cons, hvals] at hf
        simp only [List.length_cons, List.length_append, List.length_map, List.drop_succ_cons,
          List.drop_zero] at hf ⊢
        omega)
    simp only [List.getElem?_cons_zero, roaring.Bitmap.Iterator, hvals, btree.values_cons]
    simpa using h

end BTreemap

/-! ## `Equals` and membership -/

namespace BTreemap

theorem Contains_joinHiLo_splitHiLo (s : BTreemap) (v : Nat) :
    s.Contains (joinHiLo (splitHiLo v).1 (splitHiLo v).2) = s.Contains v := by
  unfold Contains
  rw [splitHiLo_joinHiLo _ _ (splitHiLo_fst_lt v) (splitHiLo_snd_lt v)]

theorem Contains_eq_of_ToArray_eq (a b : BTreemap) (ha : a.WF) (hb : b.WF)
    (h : a.ToArray = b.ToArray) (v : Nat) : a.Contains v = b.Contains v := by
  rw [ToArray_eq, ToArray_eq] at h
  rw [← Contains_joinHiLo_splitHiLo a v, ← Contains_joinHiLo_splitHiLo b v]
  have hlt : joinHiLo (splitHiLo v).1 (splitHiLo v).2 < 2 ^ 64 := by
    rw [joinHiLo_eq _ _ (splitHiLo_fst_lt v) (splitHiLo_snd_lt v)]
    have h1 := splitHiLo_fst_lt v
    have h2 := splitHiLo_snd_lt v
    omega
  have h1 := mem_values a ha (joinHiLo (splitHiLo v).1 (splitHiLo v).2)
  have h2 := mem_values b hb (joinHiLo (splitHiLo v).1 (splitHiLo v).2)
  rw [h] at h1
  rw [Bool.eq_iff_iff]
  constructor
  · intro hc; exact (h2.1 (h1.2 ⟨hlt, hc⟩)).2
  · intro hc; exact (h1.1 (h2.2 ⟨hlt, hc⟩)).2

/-- On sets without empty shards `Equals` is true exactly when the two sets
have the same members; on all well-formed sets `Equals` implies it. -/
theorem Equals_iff_Contains (a b : BTreemap) (ha : a.WF) (hb : b.WF) :
    (a.Equals (Any.treemap b) = true → ∀ w, a.Contains w = b.Contains w) ∧
      (a.NoEmptyShard → b.NoEmptyShard →
        (a.Equals (Any.treemap b) = true ↔
          ∀ w, w < 2 ^ 64 → (a.Contains w = true ↔ b.Contains w = true))) := by
  constructor
  · intro h w
    have ht := (Equals_iff_tree_eq a b ha hb).1 h
    unfold Contains get
    rw [ht]
  · intro hna hnb
    rw [Equals_iff_tree_eq a b ha hb, tree_eq_iff_Contains a b ha hb hna hnb]

/-- C31. `Clear` and `AndNot` keep the shards they empty, and `Equals` compares
the number of shards first and then the shards one by one: `New(1)` after
`Clear()` and `New()` have the same members, none, and `Equals` is false, both
ways; `New(1, 2 ^ 32 + 5)` after `AndNot(New(1))` and `New(2 ^ 32 + 5)` have the
same members and `Equals` is false. -/
theorem Equals_empty_shard :
    Reachable true (New [1]).Clear ∧ Reachable false (New []) ∧
      (New [1]).Clear.ToArray = (New []).ToArray ∧
      (∀ v, (New [1]).Clear.Contains v = (New []).Contains v) ∧
      (New [1]).Clear.Equals (Any.treemap (New [])) = false ∧
      (New []).Equals (Any.treemap (New [1]).Clear) = false ∧
      Reachable true ((New [1, 2 ^ 32 + 5]).AndNot (New [1])) ∧
      Reachable false (New [2 ^ 32 + 5]) ∧
      ((New [1, 2 ^ 32 + 5]).AndNot (New [1])).ToArray = (New [2 ^ 32 + 5]).ToArray ∧
      (∀ v, ((New [1, 2 ^ 32 + 5]).AndNot (New [1])).Contains v
        = (New [2 ^ 32 + 5]).Contains v) ∧
      ((New [1, 2 ^ 32 + 5]).AndNot (New [1])).Equals (Any.treemap (New [2 ^ 32 + 5]))
        = false ∧
      (New [2 ^ 32 + 5]).Equals (Any.treemap ((New [1, 2 ^ 32 + 5]).AndNot (New [1])))
        = false :=
  ⟨Reachable.Clear (Reachable.New [1]), Reachable.New [], by decide,
    Contains_eq_of_ToArray_eq _ _ (Clear_preserves_WF _ (WF_New _)) (WF_New _) (by decide),
    by decide, by decide,
    Reachable.AndNot (Reachable.New [1, 2 ^ 32 + 5]) (Reachable.New [1]),
    Reachable.New [2 ^ 32 + 5], by decide,
    Contains_eq_of_ToArray_eq _ _ (WF_AndNot _ _ (WF_New _)) (WF_New _) (by decide),
    by decide, by decide⟩

end BTreemap

/-! ## The byte counts of `ReadFrom` and `WriteTo` -/

theorem length_shardBytes (f : roaring.Format) (order : binary.ByteOrder) (ho : order.Lawful)
    (t : btree.BTree) : (shardBytes f order t).length = shardCost f t := by
  induction t with
  | nil => rfl
  | cons x t ih =>
    have h := shardBytes_cons f order x t []
    rw [List.append_nil, List.append_nil] at h
    rw [h, shardCost_cons, List.length_append, List.length_append, ih, (ho 4 x.HighBits).1]
    omega

theorem ReadFromLoop_count (f : roaring.Format) (order : binary.ByteOrder)
    (ho : order.Lawful) (t acc : btree.BTree)
    (hrt : ∀ x ∈ t, ∀ rest,
      f.decode (f.encode x.Bitmap ++ rest) = Except.ok (x.Bitmap, (f.encode x.Bitmap).length))
    (rest : List Nat) (n : Int) (h0 : 0 ≤ n) (h1 : n + shardCost f t < 2 ^ 63) :
    (ReadFromLoop f order t.length (shardBytes f order t ++ rest) acc n).2.1
      = n + shardCost f t := by
  induction t generalizing acc n with
  | nil => simp [ReadFromLoop, shardCost]
  | cons x t ih =>
    rw [shardCost_cons] at h1 ⊢
    have hn : int64 (int64 (n + 4) + int64 (f.encode x.Bitmap).length)
        = n + 4 + (f.encode x.Bitmap).length := by
      rw [int64_of_range (n + 4) (by omega) (by omega),
        int64_of_range ((f.encode x.Bitmap).length : Int) (by omega) (by omega),
        int64_of_range _ (by omega) (by omega)]
    have h := ih (btree.ReplaceOrInsert acc
        { Bitmap := x.Bitmap, HighBits := order.get (order.put 4 x.HighBits) })
      (fun y hy => hrt y (List.mem_cons_of_mem _ hy))
      (int64 (int64 (n + 4) + int64 (f.encode x.Bitmap).length))
      (by rw [hn]; omega) (by rw [hn]; push_cast at h1 ⊢; omega)
    rw [shardBytes_cons, List.length_cons]
    simp only [ReadFromLoop, binary.Read_append_of_length _ _ 4 (ho 4 x.HighBits).1,
      roaring.Bitmap.ReadFrom_encode f x.Bitmap _ (hrt x (List.mem_cons_self _ _) _)]
    rw [h, hn]
    push_cast
    ring

theorem cpp_ReadFrom_count (f : roaring.Format) (s t0 : BTreemap) (hs : s.WF)
    (hrt : ∀ x ∈ s.tree, ∀ rest,
      f.decode (f.encode x.Bitmap ++ rest) = Except.ok (x.Bitmap, (f.encode x.Bitmap).length))
    (hb : (8 : Int) + shardCost f s.tree < 2 ^ 63) :
    (cppSerializer.ReadFrom f t0
        (binary.LittleEndian.put 8 (btree.Len s.tree % 2 ^ 64)
          ++ shardBytes f binary.LittleEndian s.tree)).2.1 = 8 + shardCost f s.tree := by
  have hlen := s.Len_le hs
  have hsz : binary.LittleEndian.get (binary.LittleEndian.put 8 (btree.Len s.tree % 2 ^ 64))
      = s.tree.length := by
    rw [(binary.LittleEndian_Lawful 8 _).2, btree.Len, Nat.mod_eq_of_lt (by omega)]
    exact Nat.mod_eq_of_lt (by norm_num; omega)
  have h := ReadFromLoop_count f binary.LittleEndian binary.LittleEndian_Lawful s.tree []
    hrt [] 8 (by norm_num) hb
  rw [List.append_nil] at h
  unfold cppSerializer.ReadFrom
  rw [binary.Read_append_of_length _ _ 8 (binary.LittleEndian_Lawful 8 _).1]
  simp only [hsz]
  rcases hl : ReadFromLoop f binary.LittleEndian s.tree.length
    (shardBytes f binary.LittleEndian s.tree) [] 8 with ⟨tr, n, e⟩
  rw [hl] at h
  simp only at h
  subst h
  cases e <;> rfl

theorem jvm_ReadFrom_count (f : roaring.Format) (s t0 : BTreemap)
    (hlt : btree.Len s.tree < 2 ^ 32)
    (hrt : ∀ x ∈ s.tree, ∀ rest,
      f.decode (f.encode x.Bitmap ++ rest) = Except.ok (x.Bitmap, (f.encode x.Bitmap).length))
    (hb : (8 : Int) + shardCost f s.tree < 2 ^ 63) :
    (jvmSerializer.ReadFrom f t0
        ([0] ++ binary.BigEndian.put 4 (btree.Len s.tree % 2 ^ 32)
          ++ shardBytes f binary.BigEndian s.tree)).2.1 = 8 + shardCost f s.tree := by
  have hsz : binary.BigEndian.get (binary.BigEndian.put 4 (btree.Len s.tree % 2 ^ 32))
      = s.tree.length := by
    rw [(binary.BigEndian_Lawful 4 _).2, Nat.mod_eq_of_lt hlt]
    exact Nat.mod_eq_of_lt (by norm_num; exact hlt)
  have h := ReadFromLoop_count f binary.BigEndian binary.BigEndian_Lawful s.tree []
    hrt [] 8 (by norm_num) hb
  rw [List.append_nil] at h
  rw [jvmSerializer.ReadFrom_header f t0 0 _ _ (binary.BigEndian_Lawful 4 _).1, hsz]
  rcases hl : ReadFromLoop f binary.BigEndian s.tree.length
    (shardBytes f binary.BigEndian s.tree) [] 8 with ⟨tr, n, e⟩
  rw [hl] at h
  simp only at h
  subst h
  cases e <;> rfl

theorem jvm_WriteTo_count (f : roaring.Format) (s : BTreemap) (w : Writer)
    (h : (jvmSerializer.WriteTo f s w).2.2 = none)
    (hb : (5 : Int) + shardCost f s.tree < 2 ^ 63) :
    (jvmSerializer.WriteTo f s w).2.1 = 5 + shardCost f s.tree := by
  unfold jvmSerializer.WriteTo binary.Write BTreemap.forEachBitmap at h ⊢
  cases h1 : (w.Write [0]).2.2 with
  | some e => simp only [h1] at h; cases h
  | none =>
    simp only [h1] at h ⊢
    cases h2 : ((w.Write [0]).1.Write
        (binary.BigEndian.put 4 (btree.Len s.tree % 2 ^ 32))).2.2 with
    | some e => simp only [h2] at h; cases h
    | none =>
      simp only [h2] at h ⊢
      have h5 : int64 (1 + 4) = 5 := by
        rw [int64_of_range (1 + 4) (by norm_num) (by norm_num)]; norm_num
      rw [h5] at h ⊢
      rw [Ascend_WriteToCallback_count f _ _ _ h (by norm_num) hb]

/-- What `ReadFrom` returns on the bytes of a successful `WriteTo`, when every
container is read back from its own bytes and serializes to less than `2 ^ 30`
bytes: with the C++ serializer the byte count of `WriteTo`, which is the number
of bytes written; with the JVM serializer that count plus `3`. -/
theorem ReadFrom_WriteTo_count (f : roaring.Format) (s t0 : BTreemap) (w : Writer) (hs : s.WF)
    (hw : w.buf = [])
    (hrt : ∀ x ∈ s.tree, ∀ rest,
      f.decode (f.encode x.Bitmap ++ rest) = Except.ok (x.Bitmap, (f.encode x.Bitmap).length))
    (hb : ∀ x ∈ s.tree, (f.encode x.Bitmap).length < 2 ^ 30) :
    ((cppSerializer.WriteTo f s w).2.2 = none →
        (cppSerializer.ReadFrom f t0 (cppSerializer.WriteTo f s w).1.buf).2.1
            = (cppSerializer.WriteTo f s w).2.1 ∧
          (cppSerializer.WriteTo f s w).2.1 = (cppSerializer.WriteTo f s w).1.buf.length) ∧
      (btree.Len s.tree < 2 ^ 32 → (jvmSerializer.WriteTo f s w).2.2 = none →
        (jvmSerializer.ReadFrom f t0 (jvmSerializer.WriteTo f s w).1.buf).2.1
            = (jvmSerializer.WriteTo f s w).2.1 + 3 ∧
          (jvmSerializer.WriteTo f s w).2.1 = (jvmSerializer.WriteTo f s w).1.buf.length) := by
  have hlt := shardCost_lt f s hs hb
  have hlt8 : (8 : Int) + shardCost f s.tree < 2 ^ 63 := by exact_mod_cast hlt
  have hlt5 : (5 : Int) + shardCost f s.tree < 2 ^ 63 := by omega
  constructor
  · intro hok
    have hwr := cpp_WriteTo_of_ok f s w hok
    rw [hwr.1, hwr.2 hlt8, hw, List.nil_append, cpp_ReadFrom_count f s t0 hs hrt hlt8,
      List.length_append, (binary.LittleEndian_Lawful 8 _).1,
      length_shardBytes f _ binary.LittleEndian_Lawful]
    exact ⟨rfl, by push_cast; rfl⟩
  · intro hlen hok
    rw [jvm_WriteTo_of_ok f s w hok, jvm_WriteTo_count f s w hok hlt5, hw, List.nil_append,
      jvm_ReadFrom_count f s t0 hlen hrt hlt8, List.length_append, List.length_append,
      (binary.BigEndian_Lawful 4 _).1, length_shardBytes f _ binary.BigEndian_Lawful]
    refine ⟨by ring, ?_⟩
    simp only [List.length_singleton]
    push_cast
    ring

namespace BTreemap

/-- C32. With the JVM serializer `WriteTo` counts the five bytes of its header
and `ReadFrom` starts its count at `8`: for the empty set `WriteTo` writes `5`
bytes and returns `5`, and `ReadFrom` on these bytes succeeds and returns `8`;
for `New(2 ^ 32 + 7)` the counts are `21` written and read and `24` returned.
With the C++ serializer both counts are the `24` bytes written. -/
theorem ReadFrom_count_jvm :
    (New []).WithJvmSerializer.WriteTo roaring.Format.plain ⟨[], none⟩
        = some (⟨[0, 0, 0, 0, 0], none⟩, 5, none) ∧
      ((New []).WithJvmSerializer.ReadFrom roaring.Format.plain [0, 0, 0, 0, 0]).map
          (fun r => (r.1.ToArray, r.2)) = some ([], 8, none) ∧
      (New [2 ^ 32 + 7]).WithJvmSerializer.WriteTo roaring.Format.plain ⟨[], none⟩
        = some (⟨[0, 0, 0, 0, 1, 0, 0, 0, 1, 1, 0, 0, 0, 0, 0, 0, 0, 7, 0, 0, 0], none⟩, 21,
            none) ∧
      ((New []).WithJvmSerializer.ReadFrom roaring.Format.plain
          [0, 0, 0, 0, 1, 0, 0, 0, 1, 1, 0, 0, 0, 0, 0, 0, 0, 7, 0, 0, 0]).map
          (fun r => (r.1.ToArray, r.2)) = some ([2 ^ 32 + 7], 24, none) ∧
      (New [2 ^ 32 + 7]).WithCppSerializer.WriteTo roaring.Format.plain ⟨[], none⟩
        = some (⟨[1, 0, 0, 0, 0, 0, 0, 0, 1, 0, 0, 0, 1, 0, 0, 0, 0, 0, 0, 0, 7, 0, 0, 0],
            none⟩, 24, none) ∧
      ((New []).WithCppSerializer.ReadFrom roaring.Format.plain
          [1, 0, 0, 0, 0, 0, 0, 0, 1, 0, 0, 0, 1, 0, 0, 0, 0, 0, 0, 0, 7, 0, 0, 0]).map
          (fun r => (r.1.ToArray, r.2)) = some ([2 ^ 32 + 7], 24, none) := by
  decide

end BTreemap

end Roaring64
